import Mathlib

/-!
JsonSerializer: a reference-counted handle over a JSON node graph.

A shallow embedding of `jsonSerialiser.cpp` / `jsonSerialiser.h`.

* The JSON backend (jansson: `json_t`, `json_incref`, `json_decref`,
  `json_object_get`, ...) is not part of the repository.  It is modelled
  as a heap of reference-counted nodes, addresses being indices into the heap.
* A `JsonSerializer` object is a handle: a slot of the handle table that holds
  its `m_Json` pointer (`none` is the null pointer).  Handles are named by
  their index, so that two C++ references to the same object are the same
  index.
* `std::string` arguments reach the backend through `c_str()`, which ends at
  the first NUL.  The methods are modelled for arguments that are their own C
  string (`c_str s = s`: no embedded NUL), for which `c_str()` loses nothing.
-/

set_option autoImplicit false

/-! ## The node heap

An address of a node (a non-null `json_t*`) is a natural number, the index of
its cell. -/

/-- The payload of a node, by JSON type.  Containers hold the addresses of
their children.  An object keeps its members in insertion order; a real is
kept as its IEEE-754 bit pattern and is only ever formatted by the backend. -/
inductive JsonValue where
  | object (members : List (String × Nat))
  | array (elems : List Nat)
  | string (s : String)
  | integer (n : Int)
  | real (bits : Nat)
  | jtrue
  | jfalse
  | null
  deriving DecidableEq, Repr

/-- Modelled from the spec: the backend node `json_t`, "opaque,
reference-counted unit of JSON data". -/
structure json_t where
  refcount : Nat
  value : JsonValue
  deriving DecidableEq, Repr

/-- The heap: cell `a` is `some n` while the node at address `a` is allocated
and `none` once it has been freed.  Addresses are never reused. -/
abbrev Heap := List (Option json_t)

/-- A pointer `json_t*`; `none` is the null pointer. -/
abbrev Ptr := Option Nat

/-- The node stored at an address, if it is allocated. -/
def Heap.get (h : Heap) (a : Nat) : Option json_t := h.getD a none

/-- Overwrite the node at an address. -/
def Heap.put (h : Heap) (a : Nat) (n : json_t) : Heap := List.set h a (some n)

/-- Free the cell at an address. -/
def Heap.free (h : Heap) (a : Nat) : Heap := List.set h a none

/-- Allocate a node with reference count 1 (what `json_object()`,
`json_array()`, `json_string()`, `json_integer()` return). -/
def Heap.alloc (h : Heap) (v : JsonValue) : Heap × Nat :=
  (h ++ [some ⟨1, v⟩], h.length)

/-- The addresses a payload refers to, one entry per object/array slot. -/
def JsonValue.children : JsonValue → List Nat
  | .object ms => ms.map Prod.snd
  | .array es => es
  | _ => []

/-- A bound on the number of steps `release` can take. -/
def Heap.weight (h : Heap) : Nat :=
  (h.map fun c => match c with
    | none => 0
    | some n => n.refcount + 1 + n.value.children.length).sum

/-! ## Modelled backend primitives -/

/-- Modelled from the spec: `acquire(Node)`, jansson's `json_incref`.  A null
pointer is ignored. -/
def json_incref (h : Heap) : Ptr → Heap
  | none => h
  | some a =>
    match h.get a with
    | none => h
    | some n => h.put a { n with refcount := n.refcount + 1 }

/-- Modelled from the spec: `release` "frees when count hits zero", and a freed
container releases each of its children.  The addresses still to be released
are kept in a work list. -/
def release : Nat → Heap → List Nat → Heap
  | 0, h, _ => h
  | _ + 1, h, [] => h
  | fuel + 1, h, a :: pending =>
    match h.get a with
    | none => release fuel h pending
    | some n =>
      if n.refcount ≤ 1 then release fuel (h.free a) (n.value.children ++ pending)
      else release fuel (h.put a { n with refcount := n.refcount - 1 }) pending

/-- Modelled from the spec: `release(Node)`, jansson's `json_decref`.  A null
pointer is ignored.  The fuel given always suffices (`release_fuel`). -/
def json_decref (h : Heap) : Ptr → Heap
  | none => h
  | some a => release (h.weight + 1) h [a]

/-- Type predicate `json_is_object`. -/
def json_is_object (h : Heap) : Ptr → Bool
  | none => false
  | some a =>
    match h.get a with
    | some ⟨_, .object _⟩ => true
    | _ => false

/-- Type predicate `json_is_array`. -/
def json_is_array (h : Heap) : Ptr → Bool
  | none => false
  | some a =>
    match h.get a with
    | some ⟨_, .array _⟩ => true
    | _ => false

/-- Type predicate `json_is_string`. -/
def json_is_string (h : Heap) : Ptr → Bool
  | none => false
  | some a =>
    match h.get a with
    | some ⟨_, .string _⟩ => true
    | _ => false

/-- Type predicate `json_is_integer`. -/
def json_is_integer (h : Heap) : Ptr → Bool
  | none => false
  | some a =>
    match h.get a with
    | some ⟨_, .integer _⟩ => true
    | _ => false

/-- Type predicate `json_is_real`. -/
def json_is_real (h : Heap) : Ptr → Bool
  | none => false
  | some a =>
    match h.get a with
    | some ⟨_, .real _⟩ => true
    | _ => false

/-- Type predicate `json_is_boolean`. -/
def json_is_boolean (h : Heap) : Ptr → Bool
  | none => false
  | some a =>
    match h.get a with
    | some ⟨_, .jtrue⟩ => true
    | some ⟨_, .jfalse⟩ => true
    | _ => false

/-- The text of a string node, `json_string_value`; null for any other node. -/
def json_string_value (h : Heap) : Ptr → Option String
  | none => none
  | some a =>
    match h.get a with
    | some ⟨_, .string s⟩ => some s
    | _ => none

/-- The number of an integer node, `json_integer_value`; 0 for any other node. -/
def json_integer_value (h : Heap) : Ptr → Int
  | none => 0
  | some a =>
    match h.get a with
    | some ⟨_, .integer n⟩ => n
    | _ => 0

/-- The bit pattern of a real node, `json_real_value`. -/
def json_real_value (h : Heap) : Ptr → Nat
  | none => 0
  | some a =>
    match h.get a with
    | some ⟨_, .real b⟩ => b
    | _ => 0

/-- The C truth value `json_boolean_value`: 1 for true, 0 otherwise. -/
def json_boolean_value (h : Heap) : Ptr → Int
  | none => 0
  | some a =>
    match h.get a with
    | some ⟨_, .jtrue⟩ => 1
    | _ => 0

/-- Get-by-key `json_object_get`: a borrowed pointer to the value under the
key, null when the node is not an object or has no such key. -/
def json_object_get (h : Heap) (json : Ptr) (key : String) : Ptr :=
  match json with
  | none => none
  | some a =>
    match h.get a with
    | some ⟨_, .object ms⟩ => ms.lookup key
    | _ => none

/-- Store a value under a key of a member list: the first member with that key
gets the new value in place, else the pair is added at the end. -/
def setMember : List (String × Nat) → String → Nat → List (String × Nat)
  | [], k, v => [(k, v)]
  | (k1, v1) :: ms, k, v =>
    if k1 = k then (k, v) :: ms else (k1, v1) :: setMember ms k v

/-- Modelled from the spec: set-by-key-new (transfer semantics),
`json_object_set_new`.  It fails with -1 on a null value, and on a target that
is not an object or is the value itself, in which case the value is released.
On success the reference to `value` moves into the slot and a value that was
under the key before is released. -/
def json_object_set_new (h : Heap) (json : Ptr) (key : String) (value : Ptr) : Heap × Int :=
  match value with
  | none => (h, -1)
  | some v =>
    match json with
    | none => (json_decref h (some v), -1)
    | some o =>
      match h.get o with
      | some ⟨rc, .object ms⟩ =>
        if o = v then (json_decref h (some v), -1)
        else
          (json_decref (h.put o ⟨rc, .object (setMember ms key v)⟩) (ms.lookup key), 0)
      | _ => (json_decref h (some v), -1)

/-- Modelled from the spec: set-by-key (copy semantics: increments the target's
count), `json_object_set`. -/
def json_object_set (h : Heap) (json : Ptr) (key : String) (value : Ptr) : Heap × Int :=
  json_object_set_new (json_incref h value) json key value

/-- Modelled from the spec: array-append-new (transfer semantics),
`json_array_append_new`. -/
def json_array_append_new (h : Heap) (json : Ptr) (value : Ptr) : Heap × Int :=
  match value with
  | none => (h, -1)
  | some v =>
    match json with
    | none => (json_decref h (some v), -1)
    | some o =>
      match h.get o with
      | some ⟨rc, .array es⟩ =>
        if o = v then (json_decref h (some v), -1)
        else (h.put o ⟨rc, .array (es ++ [v])⟩, 0)
      | _ => (json_decref h (some v), -1)

/-- Modelled from the spec: array-append (copy semantics), `json_array_append`. -/
def json_array_append (h : Heap) (json : Ptr) (value : Ptr) : Heap × Int :=
  json_array_append_new (json_incref h value) json value

/-- The number of elements `json_array_size`; 0 for a node that is not an array. -/
def json_array_size (h : Heap) : Ptr → Nat
  | none => 0
  | some a =>
    match h.get a with
    | some ⟨_, .array es⟩ => es.length
    | _ => 0

/-- Array-get-by-index `json_array_get`: a borrowed pointer, null out of range. -/
def json_array_get (h : Heap) (json : Ptr) (i : Nat) : Ptr :=
  match json with
  | none => none
  | some a =>
    match h.get a with
    | some ⟨_, .array es⟩ => es.get? i
    | _ => none

/-! ## Parsing and printing (backend) -/

/-- A JSON document as the backend parser builds it, before it is stored in
the heap. -/
inductive JsonDoc where
  | object (members : List (String × JsonDoc))
  | array (elems : List JsonDoc)
  | string (s : String)
  | integer (n : Int)
  | real (bits : Nat)
  | jtrue
  | jfalse
  | null
  deriving Repr

mutual
/-- Store a parsed document in the heap: every node is new and has reference
count 1, the one reference being its parent's slot, or for the root the
reference returned to the caller. -/
def allocDoc (h : Heap) : JsonDoc → Heap × Nat
  | .object ms =>
    let r := allocMembers h ms
    r.1.alloc (.object r.2)
  | .array es =>
    let r := allocElems h es
    r.1.alloc (.array r.2)
  | .string s => h.alloc (.string s)
  | .integer n => h.alloc (.integer n)
  | .real b => h.alloc (.real b)
  | .jtrue => h.alloc .jtrue
  | .jfalse => h.alloc .jfalse
  | .null => h.alloc .null
/-- Store the members of a parsed object, in order. -/
def allocMembers (h : Heap) : List (String × JsonDoc) → Heap × List (String × Nat)
  | [] => (h, [])
  | (k, d) :: rest =>
    let r1 := allocDoc h d
    let r2 := allocMembers r1.1 rest
    (r2.1, (k, r1.2) :: r2.2)
/-- Store the elements of a parsed array, in order. -/
def allocElems (h : Heap) : List JsonDoc → Heap × List Nat
  | [] => (h, [])
  | d :: rest =>
    let r1 := allocDoc h d
    let r2 := allocElems r1.1 rest
    (r2.1, r1.2 :: r2.2)
end

/-- Modelled from the spec: `parseText(bytes) -> Node | Error`, jansson's
`json_loads(text, 0, NULL)`.  The grammar is the backend's: `parser` says which
document, if any, a text denotes.  "Malformed input yields an error, not a
partial tree": on failure the heap is untouched and the result is null. -/
def json_loads (parser : String → Option JsonDoc) (h : Heap) (text : String) : Heap × Ptr :=
  match parser text with
  | none => (h, none)
  | some d =>
    let r := allocDoc h d
    (r.1, some r.2)

/-- The double quote character. -/
def dquote : String := String.singleton (Char.ofNat 34)

/-- An upper-case hexadecimal digit. -/
def hexDigit (n : Nat) : Char :=
  if n < 10 then Char.ofNat (48 + n) else Char.ofNat (55 + n)

/-- The escape sequence the printer writes for one character of a string:
backslash, double quote and the control characters are escaped. -/
def dump_char (c : Char) : String :=
  if c = Char.ofNat 92 then String.mk [Char.ofNat 92, Char.ofNat 92]
  else if c = Char.ofNat 34 then String.mk [Char.ofNat 92, Char.ofNat 34]
  else if c = Char.ofNat 8 then String.mk [Char.ofNat 92, 'b']
  else if c = Char.ofNat 12 then String.mk [Char.ofNat 92, 'f']
  else if c = Char.ofNat 10 then String.mk [Char.ofNat 92, 'n']
  else if c = Char.ofNat 13 then String.mk [Char.ofNat 92, 'r']
  else if c = Char.ofNat 9 then String.mk [Char.ofNat 92, 't']
  else if c.toNat < 32 then
    String.mk [Char.ofNat 92, 'u', '0', '0', hexDigit (c.toNat / 16), hexDigit (c.toNat % 16)]
  else String.singleton c

/-- A string as the printer writes it: quoted and escaped. -/
def dump_string (s : String) : String :=
  dquote ++ String.join (s.toList.map dump_char) ++ dquote

/-- The decimal text of an integer, as `%lld` writes it. -/
def dump_integer (n : Int) : String :=
  match n with
  | Int.ofNat m => toString m
  | Int.negSucc m => "-" ++ toString (m + 1)

/-- Modelled from the spec: `printNode(Node, flags)` with the flags "compact,
accept any root type".  `dtostr` is the backend's formatting of a real.  The
fuel bounds the nesting depth: the printer refuses a structure that contains
itself. -/
def do_dump (dtostr : Nat → String) : Nat → Heap → Nat → Option String
  | 0, _, _ => none
  | fuel + 1, h, a =>
    match h.get a with
    | none => none
    | some n =>
      match n.value with
      | .null => some "null"
      | .jtrue => some "true"
      | .jfalse => some "false"
      | .integer i => some (dump_integer i)
      | .real b => some (dtostr b)
      | .string s => some (dump_string s)
      | .array es =>
        (es.mapM (do_dump dtostr fuel h)).map fun parts =>
          "[" ++ ",".intercalate parts ++ "]"
      | .object ms =>
        (ms.mapM fun m => (do_dump dtostr fuel h m.2).map fun t =>
            dump_string m.1 ++ ":" ++ t).map fun parts =>
          "\x7b" ++ ",".intercalate parts ++ "\x7d"

/-- The backend's `json_dumps(json, JSON_ENCODE_ANY | JSON_COMPACT)`; null on a
null pointer or when printing fails. -/
def json_dumps (dtostr : Nat → String) (h : Heap) : Ptr → Option String
  | none => none
  | some a => do_dump dtostr (h.length + 1) h a

/-- The text a reader of `s.c_str()` sees: the characters of `s` before its
first NUL. -/
def c_str (s : String) : String :=
  String.mk (s.toList.takeWhile fun c => c ≠ Char.ofNat 0)

/-! ## The handle table -/

/-- The program state: the node heap and, for every `JsonSerializer` object
ever constructed, its member `m_Json`. -/
structure State where
  heap : Heap
  handles : List Ptr
  deriving DecidableEq, Repr

/-- The state before anything is constructed. -/
def State.init : State := ⟨[], []⟩

namespace JsonSerializer

/-- The member `m_Json` of a handle. -/
def m_Json (s : State) (self : Nat) : Ptr := s.handles.getD self none

/-- Assign the member `m_Json` of a handle. -/
def set_m_Json (s : State) (self : Nat) (p : Ptr) : State :=
  { s with handles := s.handles.set self p }

/-- The default constructor `JsonSerializer() : m_Json(0)`.  Returns the new
handle. -/
def default (s : State) : State × Nat :=
  ({ s with handles := s.handles ++ [none] }, s.handles.length)

/-- The constructor `JsonSerializer(json_t* json)`: `m_Json(json)` then
`json_incref(m_Json)`. -/
def fromNode (s : State) (json : Ptr) : State × Nat :=
  ({ heap := json_incref s.heap json, handles := s.handles ++ [json] }, s.handles.length)

/-- The copy constructor: `m_Json = serializer.m_Json; json_incref(m_Json)`. -/
def copy (s : State) (serializer : Nat) : State × Nat :=
  ({ heap := json_incref s.heap (m_Json s serializer),
     handles := s.handles ++ [m_Json s serializer] }, s.handles.length)

/-- The method `Clear()`: `if (m_Json) json_decref(m_Json); m_Json = 0;`. -/
def Clear (s : State) (self : Nat) : State :=
  set_m_Json { s with heap := json_decref s.heap (m_Json s self) } self none

/-- The assignment `operator=`: `Clear(); m_Json = serializer.m_Json; json_incref(m_Json)`.
The right-hand side is read after `Clear()`, as in the source. -/
def assign (s : State) (self serializer : Nat) : State :=
  let s1 := Clear s self
  let s2 := set_m_Json s1 self (m_Json s1 serializer)
  { s2 with heap := json_incref s2.heap (m_Json s2 self) }

/-- The destructor `~JsonSerializer() { Clear(); }`. -/
def destroy (s : State) (self : Nat) : State := Clear s self

/-- The method `Parse(instr)`: `Clear(); m_Json = json_loads(...); return m_Json ? true : false`. -/
def Parse (parser : String → Option JsonDoc) (s : State) (self : Nat) (instr : String) :
    Bool × State :=
  let s1 := Clear s self
  let r := json_loads parser s1.heap instr
  let s2 := set_m_Json { s1 with heap := r.1 } self r.2
  ((m_Json s2 self).isSome, s2)

/-- The method `CreateRootObject()`:
`Clear(); m_Json = json_object(); return m_Json ? true : false`. -/
def CreateRootObject (s : State) (self : Nat) : Bool × State :=
  let s1 := Clear s self
  let r := s1.heap.alloc (.object [])
  let s2 := set_m_Json { s1 with heap := r.1 } self (some r.2)
  ((m_Json s2 self).isSome, s2)

/-- The string `GetValue(key, value)`; the second component is `value` after
the call.  The source looks up `key.c_str()`: `key` is taken to be that C
string (`c_str key = key`). -/
def GetValue (s : State) (self : Nat) (key : String) (value : String) : Bool × String :=
  if (m_Json s self).isSome && json_is_object s.heap (m_Json s self) then
    let item := json_object_get s.heap (m_Json s self) key
    if item.isSome && json_is_string s.heap item then
      (true, (json_string_value s.heap item).getD value)
    else (false, value)
  else (false, value)

/-- The string `PutValue(key, value)`.  The source stores
`json_string(value.c_str())` under `key.c_str()`: `key` and `value` are taken to
be those C strings (`c_str key = key`, `c_str value = value`). -/
def PutValue (s : State) (self : Nat) (key : String) (value : String) : Bool × State :=
  if (m_Json s self).isSome && json_is_object s.heap (m_Json s self) then
    let str := s.heap.alloc (.string value)
    let r := json_object_set_new str.1 (m_Json s self) key (some str.2)
    if r.2 = 0 then (true, { s with heap := r.1 }) else (false, { s with heap := r.1 })
  else (false, s)

/-- The method `GetObject(key, serializer)`. -/
def GetObject (s : State) (self : Nat) (key : String) (serializer : Nat) : Bool × State :=
  if (m_Json s self).isSome && json_is_object s.heap (m_Json s self) then
    let json := json_object_get s.heap (m_Json s self) key
    if json.isSome then
      let s1 := Clear s serializer
      let s2 := set_m_Json s1 serializer json
      (true, { s2 with heap := json_incref s2.heap (m_Json s2 serializer) })
    else (false, s)
  else (false, s)

/-- The method `PutObject(key, object)`: `json_object_set(m_Json, key, object.m_Json)`. -/
def PutObject (s : State) (self : Nat) (key : String) (object : Nat) : Bool × State :=
  let r := json_object_set s.heap (m_Json s self) key (m_Json s object)
  if r.2 = 0 then (true, { s with heap := r.1 }) else (false, { s with heap := r.1 })

end JsonSerializer

/-! ## Standard-library pieces used by the source -/

/-- The insertion `std::set<std::string>::insert` on a set kept as its sorted sequence of
distinct strings. -/
def std_set_insert : List String → String → List String
  | [], x => [x]
  | y :: ys, x =>
    if x < y then x :: y :: ys
    else if x = y then y :: ys
    else y :: std_set_insert ys x

/-- White space of the C locale, skipped by formatted stream input. -/
def isspace (c : Char) : Bool :=
  c = ' ' || (9 ≤ c.toNat && c.toNat ≤ 13)

/-- The value of a run of decimal digits read left to right. -/
def digitsValue (ds : List Char) : Nat :=
  ds.foldl (fun acc c => 10 * acc + (c.toNat - 48)) 0

/-- Formatted input `iss >> val` of a `long long` from a fresh
`std::istringstream` (decimal): leading white space is skipped, then an
optional sign and the longest run of digits are read; whatever follows stays
in the stream.  The result is `none` when the stream's fail bit is set: no
digit was read, or the number does not fit 64 bits. -/
def extract_long_long (text : String) : Option Int :=
  let cs := text.toList.dropWhile isspace
  let neg := cs.head? = some '-'
  let body := if cs.head? = some '-' || cs.head? = some '+' then cs.tail else cs
  let ds := body.takeWhile Char.isDigit
  if ds = [] then none
  else
    let v : Int := if neg then -(digitsValue ds : Int) else (digitsValue ds : Int)
    if -(2 : Int) ^ 63 ≤ v ∧ v < (2 : Int) ^ 63 then some v else none

namespace JsonSerializer

/-- The call `vec.push_back(json)` for a `std::vector<JsonSerializer>` and a raw
`json_t*`: a temporary is built by `JsonSerializer(json_t*)`, the new element is
copy-constructed from it, and the temporary is destroyed.  The vector is the
sequence of its elements (handles). -/
def push_back (s : State) (vec : List Nat) (json : Ptr) : State × List Nat :=
  let t := fromNode s json
  let e := copy t.1 t.2
  (destroy e.1 t.2, vec ++ [e.2])

/-- The loop of `GetCollection`: `for (i = 0; i < sz; ++i)`, with `n = sz - i`
iterations left. -/
def GetCollection.loop (array : Ptr) : Nat → Nat → State → List Nat → Bool × State × List Nat
  | 0, _, s, vec => (true, s, vec)
  | n + 1, i, s, vec =>
    let json := json_array_get s.heap array i
    if json.isNone then (false, s, vec)
    else
      let r := push_back s vec json
      GetCollection.loop array n (i + 1) r.1 r.2

/-- The method `GetCollection(key, vec)`; the last component is `vec` after the
call.  (`vec.reserve(sz)` at most moves the elements, by copy and destroy, which
leaves every count as it is.) -/
def GetCollection (s : State) (self : Nat) (key : String) (vec : List Nat) :
    Bool × State × List Nat :=
  if (m_Json s self).isSome then
    let array : Option Ptr :=
      if key.isEmpty then some (m_Json s self)
      else if !json_is_object s.heap (m_Json s self) then none
      else
        let a := json_object_get s.heap (m_Json s self) key
        if a.isNone then none else some a
    match array with
    | none => (false, s, vec)
    | some array =>
      if !json_is_array s.heap array then (false, s, vec)
      else
        let sz := json_array_size s.heap array
        if sz = 0 then (true, s, vec)
        else GetCollection.loop array sz 0 s vec
  else (false, s, vec)

/-- The loop of `PutCollection` over the elements not yet appended.  A failed
append runs `json_decref(array)` and leaves the loop with `false`. -/
def PutCollection.loop (s : State) (array : Ptr) : List Nat → Heap → Heap × Bool
  | [], h => (h, true)
  | c :: rest, h =>
    let r := json_array_append h array (m_Json s c)
    if r.2 = -1 then (json_decref r.1 array, false)
    else PutCollection.loop s array rest r.1

/-- The method `PutCollection(key, collection)`. -/
def PutCollection (s : State) (self : Nat) (key : String) (collection : List Nat) :
    Bool × State :=
  if (m_Json s self).isNone || !json_is_object s.heap (m_Json s self) then (false, s)
  else
    let a := s.heap.alloc (.array [])
    let l := PutCollection.loop s (some a.2) collection a.1
    if !l.2 then (false, { s with heap := l.1 })
    else
      let r := json_object_set_new l.1 (m_Json s self) key (some a.2)
      if r.2 = -1 then (false, { s with heap := r.1 }) else (true, { s with heap := r.1 })

/-- The constant `DEFAULT_LIMIT_GET_COLLECTION`. -/
def DEFAULT_LIMIT_GET_COLLECTION : Int := -1

/-- The loop of `GetStringCollection`: `for (i = 0; i < sz; ++i)`, with
`n = sz - i` iterations left; the last component is the set so far. -/
def GetStringCollection.loop (h : Heap) (array : Ptr) (limit : Int) :
    Nat → Nat → List String → Bool × List String
  | 0, _, collection => (true, collection)
  | n + 1, i, collection =>
    if limit ≠ DEFAULT_LIMIT_GET_COLLECTION ∧ (i : Int) = limit - 1 then (true, collection)
    else
      let json := json_array_get h array i
      if json.isNone then (false, collection)
      else if json_is_string h json then
        GetStringCollection.loop h array limit n (i + 1)
          (std_set_insert collection ((json_string_value h json).getD ""))
      else (false, collection)

/-- The method `GetStringCollection(key, collection, limit)`; the second component is
`collection` after the call. -/
def GetStringCollection (s : State) (self : Nat) (key : String) (collection : List String)
    (limit : Int) : Bool × List String :=
  if (m_Json s self).isSome then
    let array : Option Ptr :=
      if key.isEmpty then some (m_Json s self)
      else if !json_is_object s.heap (m_Json s self) then none
      else
        let a := json_object_get s.heap (m_Json s self) key
        if a.isNone then none else some a
    match array with
    | none => (false, collection)
    | some array =>
      if !json_is_array s.heap array then (false, collection)
      else
        let sz := json_array_size s.heap array
        if sz = 0 then (true, collection)
        else GetStringCollection.loop s.heap array limit sz 0 collection
  else (false, collection)

/-- The loop of `PutStringCollection` over the strings still to append.  A
failed append runs `json_decref(array)` and leaves the loop with `false`.  The
source appends `json_string(iter->c_str())`: each string of the set is taken to
be that C string (`c_str x = x`). -/
def PutStringCollection.loop (array : Ptr) : List String → Heap → Heap × Bool
  | [], h => (h, true)
  | x :: rest, h =>
    let str := h.alloc (.string x)
    let r := json_array_append_new str.1 array (some str.2)
    if r.2 = -1 then (json_decref r.1 array, false)
    else PutStringCollection.loop array rest r.1

/-- The method `PutStringCollection(key, collection, limit)`.  The set `collection` is
given as its sorted sequence, which is the order its iterator walks. -/
def PutStringCollection (s : State) (self : Nat) (key : String) (collection : List String)
    (limit : Int) : Bool × State :=
  if (m_Json s self).isSome && key.isEmpty then (false, s)
  else if (m_Json s self).isNone && !key.isEmpty then (false, s)
  else if (m_Json s self).isSome && !json_is_object s.heap (m_Json s self) then (false, s)
  else
    let sz : Nat :=
      if limit ≤ DEFAULT_LIMIT_GET_COLLECTION ∨ limit > (collection.length : Int)
      then collection.length else limit.toNat
    let a := s.heap.alloc (.array [])
    let l := PutStringCollection.loop (some a.2) (collection.take sz) a.1
    if !l.2 then (false, { s with heap := l.1 })
    else if (m_Json s self).isNone && key.isEmpty then
      let s1 := set_m_Json { s with heap := l.1 } self (some a.2)
      ((m_Json s1 self).isSome, s1)
    else
      let r := json_object_set_new l.1 (m_Json s self) key (some a.2)
      if r.2 = -1 then (false, { s with heap := r.1 }) else (true, { s with heap := r.1 })

/-- The method `StreamJsonToBuffer()`: the text written to the returned buffer, or `none`
for the null pointer. -/
def StreamJsonToBuffer (dtostr : Nat → String) (s : State) (self : Nat) : Option String :=
  if (m_Json s self).isSome then json_dumps dtostr s.heap (m_Json s self)
  else none

/-- The template `GetValue<T>(key, value, f)`.  The type `T` and the manipulator
`f` enter through `extract`, the formatted input `iss >> f >> value`: it gives
the stream's success and what `value` holds afterwards.  `put_real` is the
formatted output `oss << double`.  The second component is `value` after the
call. -/
def GetValueT {T : Type} (dtostr put_real : Nat → String) (extract : String → T → Bool × T)
    (s : State) (self : Nat) (key : String) (value : T) : Bool × T :=
  if (m_Json s self).isSome && json_is_object s.heap (m_Json s self) then
    let item := json_object_get s.heap (m_Json s self) key
    if item.isSome then
      let oss : Option String :=
        if json_is_integer s.heap item then some (dump_integer (json_integer_value s.heap item))
        else if json_is_real s.heap item then some (put_real (json_real_value s.heap item))
        else if json_is_string s.heap item then some ((json_string_value s.heap item).getD "")
        else if json_is_boolean s.heap item then
          some (dump_integer (json_boolean_value s.heap item))
        else json_dumps dtostr s.heap item
      match oss with
      | none => (false, value)
      | some text => extract text value
    else (false, value)
  else (false, value)

/-- The template `PutValue<T>(key, value, f)`.  `rendered` is the text produced
by `oss << f << value` (`none` when that stream fails) and `ival` is `value`
converted to `json_int_t`, the argument of `json_integer(value)`. -/
def PutValueT (s : State) (self : Nat) (key : String) (rendered : Option String) (ival : Int) :
    Bool × State :=
  if (m_Json s self).isSome && json_is_object s.heap (m_Json s self) then
    match rendered with
    | none => (false, s)
    | some text =>
      if (extract_long_long text).isSome then
        let n := s.heap.alloc (.integer ival)
        let r := json_object_set_new n.1 (m_Json s self) key (some n.2)
        if r.2 = -1 then (false, { s with heap := r.1 }) else (true, { s with heap := r.1 })
      else
        let n := s.heap.alloc (.string text)
        let r := json_object_set_new n.1 (m_Json s self) key (some n.2)
        if r.2 = -1 then (false, { s with heap := r.1 }) else (true, { s with heap := r.1 })
  else (false, s)

end JsonSerializer

/-! ## Formatted input and output of an integer -/

/-- The value of a character as a digit in a base up to 16, as formatted input
reads it: the decimal digits, and the letters `a`..`f` in either case for the
values 10..15; `none` when the character is no digit of the base. -/
def digitOf (base : Nat) (c : Char) : Option Nat :=
  let v :=
    if c.isDigit then c.toNat - 48
    else if 97 ≤ c.toNat ∧ c.toNat ≤ 102 then c.toNat - 87
    else if 65 ≤ c.toNat ∧ c.toNat ≤ 70 then c.toNat - 55
    else base
  if v < base then some v else none

/-- What formatted input of an integer reads from a text in the given base (10
for `std::dec`, 16 for `std::hex`, 8 for `std::oct`): leading white space is
skipped, then an optional sign, in base 16 an optional `0x` or `0X`, and the
longest run of digits of the base.  The result is the sign (true for minus)
and the magnitude of the digits, or `none` when no digit was read. -/
def scan_integer (base : Nat) (text : String) : Option (Bool × Nat) :=
  let cs := text.toList.dropWhile isspace
  let body := if cs.head? = some '-' || cs.head? = some '+' then cs.tail else cs
  let body1 :=
    if base = 16 ∧ body.head? = some '0' ∧ (body.tail.head? = some 'x' ∨ body.tail.head? = some 'X')
    then body.drop 2 else body
  let ds := body1.takeWhile fun c => (digitOf base c).isSome
  if ds = [] then none
  else some (decide (cs.head? = some '-'),
    ds.foldl (fun acc c => base * acc + (digitOf base c).getD 0) 0)

/-- An integer target type of formatted input: its width in bits and whether it
is signed (`short`, `int`, `long`, `long long` and their unsigned forms; the
character types are read as characters, not as numbers). -/
structure IntType where
  bits : Nat
  signed : Bool
  deriving DecidableEq, Repr

/-- The type `long long`. -/
def long_long : IntType := ⟨64, true⟩

/-- The formatted input `iss >> f >> value` into an integer of type `T`, for the
manipulator `f` of the given base: whether the stream is good afterwards (not
`fail()`), and what `value` holds.  When the text is empty or all white space
nothing is extracted: the stream fails and `value` is left untouched.  When no
digit is read the stream fails and 0 is stored; when the number does not fit
the type the stream fails and the nearest limit is stored.  A signed type
takes the number with its sign; an unsigned type takes the magnitude, negated
modulo `2 ^ bits` after a minus sign. -/
def extract_integer (T : IntType) (base : Nat) (text : String) (value : Int) : Bool × Int :=
  if text.toList.dropWhile isspace = [] then (false, value)
  else
    match scan_integer base text with
    | none => (false, 0)
    | some (neg, m) =>
      if T.signed then
        let v : Int := if neg then -(m : Int) else (m : Int)
        if -(2 : Int) ^ (T.bits - 1) ≤ v ∧ v < (2 : Int) ^ (T.bits - 1) then (true, v)
        else (false, if neg then -(2 : Int) ^ (T.bits - 1) else (2 : Int) ^ (T.bits - 1) - 1)
      else
        if (m : Int) < (2 : Int) ^ T.bits then
          (true, if neg then (-(m : Int)) % (2 : Int) ^ T.bits else (m : Int))
        else (false, (2 : Int) ^ T.bits - 1)

/-- The formatted input `iss >> f >> value` into a `long long`. -/
def extract_value (base : Nat) (text : String) (value : Int) : Bool × Int :=
  extract_integer long_long base text value

/-- The formatted output `oss << f << value` of a `long long`, for the
manipulator `f` of the given base: signed decimal text in base 10; in the
other bases the digits of the value taken as an unsigned 64-bit number, in
lower case and without a base prefix. -/
def put_long_long (base : Nat) (value : Int) : String :=
  if base = 10 then dump_integer value
  else (Nat.toDigits base (value % (2 : Int) ^ 64).toNat).asString

namespace JsonSerializer

/-- The template `GetValue<long long>(key, value, f)`, `f` the manipulator of
the given base. -/
def GetValue_long_long (dtostr put_real : Nat → String) (base : Nat) (s : State) (self : Nat)
    (key : String) (value : Int) : Bool × Int :=
  GetValueT dtostr put_real (extract_value base) s self key value

/-- The template `GetValue<T>(key, value, f)` for an integer type `T`, `f` the
manipulator of the given base. -/
def GetValue_integer (dtostr put_real : Nat → String) (T : IntType) (base : Nat) (s : State)
    (self : Nat) (key : String) (value : Int) : Bool × Int :=
  GetValueT dtostr put_real (extract_integer T base) s self key value

/-- The template `PutValue<long long>(key, value, f)`, `f` the manipulator of
the given base: `oss << f << value` gives the rendered text and cannot fail,
and `json_integer(value)` takes the value itself. -/
def PutValue_long_long (base : Nat) (s : State) (self : Nat) (key : String) (value : Int) :
    Bool × State :=
  PutValueT s self key (some (put_long_long base value)) value

end JsonSerializer

/-! ## The backend parser -/

/-- Set a key of a key-value list: the first entry with the key gets the new
value in place, else the pair is added at the end. -/
def setEntry {α : Type} : List (String × α) → String → α → List (String × α)
  | [], k, v => [(k, v)]
  | (k1, v1) :: es, k, v =>
    if k1 = k then (k, v) :: es else (k1, v1) :: setEntry es k v

/-- White space between the tokens of a JSON text: space, tab, line feed and
carriage return. -/
def json_ws (c : Char) : Bool :=
  c = ' ' || c = Char.ofNat 9 || c = Char.ofNat 10 || c = Char.ofNat 13

/-- Four hexadecimal digits as a number, and the characters after them. -/
def hex4 : List Char → Option (Nat × List Char)
  | a :: b :: c :: d :: rest =>
    (digitOf 16 a).bind fun x => (digitOf 16 b).bind fun y => (digitOf 16 c).bind fun z =>
      (digitOf 16 d).map fun w => (((x * 16 + y) * 16 + z) * 16 + w, rest)
  | _ => none

/-- The character a one-letter escape stands for: the character after the
backslash is a double quote, a backslash, a slash or one of `b f n r t`. -/
def unescape (e : Char) : Option Char :=
  if e = Char.ofNat 34 then some (Char.ofNat 34)
  else if e = Char.ofNat 92 then some (Char.ofNat 92)
  else if e = '/' then some '/'
  else if e = 'b' then some (Char.ofNat 8)
  else if e = 'f' then some (Char.ofNat 12)
  else if e = 'n' then some (Char.ofNat 10)
  else if e = 'r' then some (Char.ofNat 13)
  else if e = 't' then some (Char.ofNat 9)
  else none

/-- The lexer on a string token, after its opening quote: the characters the
token denotes and what follows the closing quote.  A raw control character, an
unknown escape, a lone surrogate and the escape of NUL are errors.  The fuel
bounds the number of characters read. -/
def lex_string : Nat → List Char → Option (List Char × List Char)
  | 0, _ => none
  | _ + 1, [] => none
  | fuel + 1, c :: rest =>
    if c = Char.ofNat 34 then some ([], rest)
    else if c = Char.ofNat 92 then
      match rest with
      | [] => none
      | e :: rest1 =>
        if e = 'u' then
          match hex4 rest1 with
          | none => none
          | some (v, rest2) =>
            if 55296 ≤ v ∧ v ≤ 56319 then
              match rest2 with
              | b :: u :: rest3 =>
                if b = Char.ofNat 92 ∧ u = 'u' then
                  match hex4 rest3 with
                  | none => none
                  | some (v2, rest4) =>
                    if 56320 ≤ v2 ∧ v2 ≤ 57343 then
                      (lex_string fuel rest4).map fun r =>
                        (Char.ofNat (65536 + (v - 55296) * 1024 + (v2 - 56320)) :: r.1, r.2)
                    else none
                else none
              | _ => none
            else if 56320 ≤ v ∧ v ≤ 57343 then none
            else if v = 0 then none
            else (lex_string fuel rest2).map fun r => (Char.ofNat v :: r.1, r.2)
        else
          match unescape e with
          | none => none
          | some ch => (lex_string fuel rest1).map fun r => (ch :: r.1, r.2)
    else if c.toNat < 32 then none
    else (lex_string fuel rest).map fun r => (c :: r.1, r.2)

/-- The fraction of a number token: a point and at least one digit, or
nothing.  The result is the text taken and what follows it; `none` is a point
without a digit. -/
def lex_fraction (cs : List Char) : Option (List Char × List Char) :=
  if cs.head? = some '.' then
    if cs.tail.takeWhile Char.isDigit = [] then none
    else some ('.' :: cs.tail.takeWhile Char.isDigit, cs.tail.dropWhile Char.isDigit)
  else some ([], cs)

/-- The exponent of a number token: `e` or `E`, an optional sign and at least
one digit, or nothing. -/
def lex_exponent (cs : List Char) : Option (List Char × List Char) :=
  match cs with
  | [] => some ([], [])
  | e :: rest =>
    if e = 'e' ∨ e = 'E' then
      let sign := if rest.head? = some '+' ∨ rest.head? = some '-' then rest.take 1 else []
      let body := if rest.head? = some '+' ∨ rest.head? = some '-' then rest.tail else rest
      if body.takeWhile Char.isDigit = [] then none
      else some (e :: sign ++ body.takeWhile Char.isDigit, body.dropWhile Char.isDigit)
    else some ([], cs)

/-- The lexer on a number token: an optional minus sign, then `0` or a run of
digits that does not start with `0`; when a point or an exponent follows the
token is a real, converted by the backend's `strtod`, else it is an integer,
which must fit 64 bits. -/
def lex_number (strtod : String → Option Nat) (cs : List Char) : Option (JsonDoc × List Char) :=
  let body := if cs.head? = some '-' then cs.tail else cs
  let ds := body.takeWhile Char.isDigit
  let after := body.dropWhile Char.isDigit
  if ds = [] then none
  else if ds.head? = some '0' ∧ 1 < ds.length then none
  else if after.head? = some '.' ∨ after.head? = some 'e' ∨ after.head? = some 'E' then
    match lex_fraction after with
    | none => none
    | some (frac, after1) =>
      match lex_exponent after1 with
      | none => none
      | some (exp, after2) =>
        (strtod (String.mk ((if cs.head? = some '-' then ['-'] else []) ++ ds ++ frac ++ exp))).map
          fun bits => (JsonDoc.real bits, after2)
  else
    let v : Int := if cs.head? = some '-' then -(digitsValue ds : Int) else (digitsValue ds : Int)
    if -(2 : Int) ^ 63 ≤ v ∧ v < (2 : Int) ^ 63 then some (JsonDoc.integer v, after) else none

/-- The lexer on a word: the letters are read as far as they go, and the word
must be `true`, `false` or `null`. -/
def lex_literal (cs : List Char) : Option (JsonDoc × List Char) :=
  let word := String.mk (cs.takeWhile Char.isAlpha)
  if word = "true" then some (JsonDoc.jtrue, cs.dropWhile Char.isAlpha)
  else if word = "false" then some (JsonDoc.jfalse, cs.dropWhile Char.isAlpha)
  else if word = "null" then some (JsonDoc.null, cs.dropWhile Char.isAlpha)
  else none

/-- The members of an object after its opening brace, the text standing at the
first token of a member: a string, a colon, a value, then a comma and the next
member or the closing brace.  A key that occurs again replaces the value of
the earlier member.  `pv` parses a value; the fuel bounds the number of
members. -/
def parse_members (pv : List Char → Option (JsonDoc × List Char)) :
    Nat → List Char → List (String × JsonDoc) → Option (List (String × JsonDoc) × List Char)
  | 0, _, _ => none
  | _ + 1, [], _ => none
  | fuel + 1, c :: rest, acc =>
    if c = Char.ofNat 34 then
      match lex_string (rest.length + 1) rest with
      | none => none
      | some (key, rest1) =>
        match rest1.dropWhile json_ws with
        | [] => none
        | colon :: rest2 =>
          if colon = ':' then
            match pv (rest2.dropWhile json_ws) with
            | none => none
            | some (v, rest3) =>
              match rest3.dropWhile json_ws with
              | [] => none
              | sep :: rest4 =>
                if sep = ',' then
                  parse_members pv fuel (rest4.dropWhile json_ws) (setEntry acc (String.mk key) v)
                else if sep = Char.ofNat 125 then some (setEntry acc (String.mk key) v, rest4)
                else none
          else none
    else none

/-- The elements of an array after its opening bracket, the text standing at
the first token of an element. -/
def parse_elems (pv : List Char → Option (JsonDoc × List Char)) :
    Nat → List Char → List JsonDoc → Option (List JsonDoc × List Char)
  | 0, _, _ => none
  | fuel + 1, cs, acc =>
    match pv cs with
    | none => none
    | some (v, rest) =>
      match rest.dropWhile json_ws with
      | [] => none
      | sep :: rest1 =>
        if sep = ',' then parse_elems pv fuel (rest1.dropWhile json_ws) (acc ++ [v])
        else if sep = ']' then some (acc ++ [v], rest1)
        else none

/-- The parser on a value, the text standing at its first token: an object, an
array, a string, a number or one of the three words.  The result is the value
and the text after it.  The fuel bounds the nesting depth. -/
def parse_value (strtod : String → Option Nat) : Nat → List Char → Option (JsonDoc × List Char)
  | 0, _ => none
  | _ + 1, [] => none
  | fuel + 1, c :: rest =>
    if c = Char.ofNat 123 then
      match rest.dropWhile json_ws with
      | [] => none
      | c1 :: rest1 =>
        if c1 = Char.ofNat 125 then some (JsonDoc.object [], rest1)
        else
          (parse_members (parse_value strtod fuel) (rest.length + 1) (c1 :: rest1) []).map
            fun r => (JsonDoc.object r.1, r.2)
    else if c = '[' then
      match rest.dropWhile json_ws with
      | [] => none
      | c1 :: rest1 =>
        if c1 = ']' then some (JsonDoc.array [], rest1)
        else
          (parse_elems (parse_value strtod fuel) (rest.length + 1) (c1 :: rest1) []).map
            fun r => (JsonDoc.array r.1, r.2)
    else if c = Char.ofNat 34 then
      (lex_string (rest.length + 1) rest).map fun r => (JsonDoc.string (String.mk r.1), r.2)
    else if c = '-' ∨ c.isDigit = true then lex_number strtod (c :: rest)
    else lex_literal (c :: rest)

/-- Modelled from the spec: `parseText(bytes) -> Node | Error` on a whole text,
as jansson's `json_loads(text, 0, NULL)` reads it: white space around the
tokens is skipped, the root must be an object or an array, and only white
space may follow it.  `strtod` is the backend's conversion of the text of a
real, `none` when it overflows. -/
def json_parse (strtod : String → Option Nat) (text : String) : Option JsonDoc :=
  match text.toList.dropWhile json_ws with
  | [] => none
  | c :: rest =>
    if c = Char.ofNat 123 ∨ c = '[' then
      match parse_value strtod (rest.length + 2) (c :: rest) with
      | none => none
      | some (d, tail) => if tail.dropWhile json_ws = [] then some d else none
    else none

/-! ## Reference-count balance -/

/-- The reference count stored at an address; 0 where no node is allocated. -/
def refcountAt (h : Heap) (a : Nat) : Nat :=
  match h.get a with
  | none => 0
  | some n => n.refcount

/-- The number of object/array slots of allocated nodes that refer to an address. -/
def slotCount (h : Heap) (a : Nat) : Nat :=
  (h.map fun c => match c with
    | none => 0
    | some n => n.value.children.count a).sum

/-- The number of handles that hold an address. -/
def holders (s : State) (a : Nat) : Nat := s.handles.count (some a)

/-- Balance of a heap against a handle table and a list `ext` of references
owned by local variables: at every address the stored count is the number of
handles, slots and local references to it (so nothing refers to a freed
address), and no allocated node has count zero. -/
def BalancedExt (h : Heap) (hs : List Ptr) (ext : List Nat) : Prop :=
  (∀ a, refcountAt h a = hs.count (some a) + slotCount h a + ext.count a) ∧
  (∀ a n, h.get a = some n → 0 < n.refcount)

/-- Reference-count balance of a state, between calls. -/
def State.Balanced (s : State) : Prop := BalancedExt s.heap s.handles []

/-- The heap `h1` comes from `h` by lowering counts and freeing nodes: it has
the same cells, and a node allocated in `h1` is allocated in `h` with the
same payload. -/
def Heap.shrunkFrom (h1 h : Heap) : Prop :=
  h1.length = h.length ∧
  ∀ a m, h1.get a = some m → ∃ n, h.get a = some n ∧ n.value = m.value

/-- The node at an address is allocated. -/
def Heap.live (h : Heap) (a : Nat) : Prop := (h.get a).isSome = true

/-- The state-changing operations of a handle. -/
inductive Op where
  | default
  | fromNode (json : Ptr)
  | copy (serializer : Nat)
  | assign (self serializer : Nat)
  | Clear (self : Nat)
  | destroy (self : Nat)
  | Parse (self : Nat) (instr : String)
  | CreateRootObject (self : Nat)
  | GetObject (self : Nat) (key : String) (serializer : Nat)
  | PutObject (self : Nat) (key : String) (object : Nat)
  | GetCollection (self : Nat) (key : String) (vec : List Nat)
  | PutCollection (self : Nat) (key : String) (collection : List Nat)
  | PutStringCollection (self : Nat) (key : String) (collection : List String) (limit : Int)
  | PutValue (self : Nat) (key : String) (value : String)
  | PutValueT (self : Nat) (key : String) (rendered : Option String) (ival : Int)
  deriving Repr

/-- The state after an operation. -/
def Op.step (parser : String → Option JsonDoc) (s : State) : Op → State
  | .default => (JsonSerializer.default s).1
  | .fromNode json => (JsonSerializer.fromNode s json).1
  | .copy x => (JsonSerializer.copy s x).1
  | .assign self x => JsonSerializer.assign s self x
  | .Clear self => JsonSerializer.Clear s self
  | .destroy self => JsonSerializer.destroy s self
  | .Parse self instr => (JsonSerializer.Parse parser s self instr).2
  | .CreateRootObject self => (JsonSerializer.CreateRootObject s self).2
  | .GetObject self key out => (JsonSerializer.GetObject s self key out).2
  | .PutObject self key object => (JsonSerializer.PutObject s self key object).2
  | .GetCollection self key vec => (JsonSerializer.GetCollection s self key vec).2.1
  | .PutCollection self key c => (JsonSerializer.PutCollection s self key c).2
  | .PutStringCollection self key c limit =>
    (JsonSerializer.PutStringCollection s self key c limit).2
  | .PutValue self key value => (JsonSerializer.PutValue s self key value).2
  | .PutValueT self key rendered ival => (JsonSerializer.PutValueT s self key rendered ival).2

/-- What a caller owes an operation: the handle it is called on, or assigns
to, exists; a raw pointer given to the node constructor is null or points to
an allocated node; and the output handle of `GetObject` is not the receiver. -/
def Op.admissible (s : State) : Op → Bool
  | .default => true
  | .fromNode json =>
    match json with
    | none => true
    | some a => (s.heap.get a).isSome
  | .copy _ => true
  | .assign self _ => decide (self < s.handles.length)
  | .Clear _ => true
  | .destroy _ => true
  | .Parse self _ => decide (self < s.handles.length)
  | .CreateRootObject self => decide (self < s.handles.length)
  | .GetObject self _ out => decide (out < s.handles.length) && decide (out ≠ self)
  | .PutObject _ _ _ => true
  | .GetCollection _ _ _ => true
  | .PutCollection _ _ _ => true
  | .PutStringCollection self _ _ _ => decide (self < s.handles.length)
  | .PutValue _ _ _ => true
  | .PutValueT _ _ _ _ => true

/-- The state after a sequence of operations. -/
def run (parser : String → Option JsonDoc) (s : State) : List Op → State
  | [] => s
  | op :: ops => run parser (op.step parser s) ops

/-- Every operation of the sequence is admissible in the state it is applied to. -/
def admissibleRun (parser : String → Option JsonDoc) (s : State) : List Op → Bool
  | [] => true
  | op :: ops => op.admissible s && admissibleRun parser (op.step parser s) ops

/-- A document for examples: the object
`{"dbtype":"mongo","mongo":{"hostip":"127.0.0.1","port":30000}}`. -/
def sampleDoc : JsonDoc :=
  .object [("dbtype", .string "mongo"),
    ("mongo", .object [("hostip", .string "127.0.0.1"), ("port", .integer 30000)])]

/-- A backend parser for examples: it accepts the one text `"sample"`, as
`sampleDoc`, and rejects every other text. -/
def sampleParser (text : String) : Option JsonDoc :=
  if text = "sample" then some sampleDoc else none

/-- A state for examples: handle 0 holds the parsed `sampleDoc`, handle 1 is
empty. -/
def sampleState : State :=
  run sampleParser State.init [.default, .Parse 0 "sample", .default]

/-- What the reading accessors return through handle `x` in state `s1` is what
they return through handle `y` in state `s2`: the string and the typed
`GetValue`, `GetStringCollection` and `StreamJsonToBuffer`, for all their
arguments. -/
def SameReads (s1 : State) (x : Nat) (s2 : State) (y : Nat) : Prop :=
  (∀ key value, JsonSerializer.GetValue s1 x key value = JsonSerializer.GetValue s2 y key value) ∧
  (∀ (T : Type) (dtostr put_real : Nat → String) (extract : String → T → Bool × T)
      (key : String) (value : T),
      JsonSerializer.GetValueT dtostr put_real extract s1 x key value
        = JsonSerializer.GetValueT dtostr put_real extract s2 y key value) ∧
  (∀ key collection limit,
      JsonSerializer.GetStringCollection s1 x key collection limit
        = JsonSerializer.GetStringCollection s2 y key collection limit) ∧
  (∀ dtostr, JsonSerializer.StreamJsonToBuffer dtostr s1 x
      = JsonSerializer.StreamJsonToBuffer dtostr s2 y)

/-- A state for examples: as `sampleState`, and handle 1 is a view of the
object under "mongo", taken by `GetObject`. -/
def sampleView : State :=
  run sampleParser State.init [.default, .Parse 0 "sample", .default, .GetObject 0 "mongo" 1]

/-- No container is its own member: the backend never stores an object or an
array in itself (`json_object_set_new` and `json_array_append_new` refuse
`json == value`). -/
def Heap.NoSelfMember (h : Heap) : Prop :=
  ∀ a n, h.get a = some n → a ∉ n.value.children

/-- The document stored at an address, read back from the heap; the fuel
bounds the nesting depth. -/
def readDoc : Nat → Heap → Nat → Option JsonDoc
  | 0, _, _ => none
  | fuel + 1, h, a =>
    match h.get a with
    | none => none
    | some n =>
      match n.value with
      | .object ms =>
        (ms.mapM fun m => (readDoc fuel h m.2).map fun d => (m.1, d)).map JsonDoc.object
      | .array es => (es.mapM (readDoc fuel h)).map JsonDoc.array
      | .string s => some (.string s)
      | .integer i => some (.integer i)
      | .real b => some (.real b)
      | .jtrue => some .jtrue
      | .jfalse => some .jfalse
      | .null => some .null

/-- The node a collection accessor resolves, in the words of the spec: the
handle's own node when the key is empty, otherwise the value under the key of
the held object (null when the handle holds no object with that key). -/
def resolveArray (s : State) (self : Nat) (key : String) : Ptr :=
  if key.isEmpty then JsonSerializer.m_Json s self
  else json_object_get s.heap (JsonSerializer.m_Json s self) key

/-- The handles `GetCollection` adds to the handle table for the elements of
an array: for each element the destroyed temporary, then the vector's new
element, which holds the array element. -/
def pushedHandles : List Nat → List Ptr
  | [] => []
  | e :: es => none :: some e :: pushedHandles es

/-- A document for examples: the object `{"list":["a",42]}`, whose array has a
string at position 0 and an integer at position 1. -/
def listDoc : JsonDoc :=
  .object [("list", .array [.string "a", .integer 42])]

/-- A backend parser for examples: it accepts the one text `"list"`, as
`listDoc`, and rejects every other text. -/
def listParser (text : String) : Option JsonDoc :=
  if text = "list" then some listDoc else none

/-- A state for examples: handle 0 holds the parsed `listDoc`. -/
def listState : State :=
  run listParser State.init [.default, .Parse 0 "list"]

/-- The heap `H` is the heap `B` in which the array at `arr` holds `nodes` and
the count of every other node is raised by the number of times the node occurs
in `nodes`: the heap while `PutCollection` builds its array. -/
def Heap.arrayOver (H B : Heap) (arr : Nat) (nodes : List Nat) : Prop :=
  H.length = B.length ∧ H.get arr = some ⟨1, .array nodes⟩ ∧
  ∀ x, x ≠ arr → H.get x = (B.get x).map fun n => ⟨n.refcount + nodes.count x, n.value⟩

/-- The number of strings `PutStringCollection` takes from the set: the
source's local `sz`. -/
def JsonSerializer.PutStringCollection.sz (collection : List String) (limit : Int) : Nat :=
  if limit ≤ JsonSerializer.DEFAULT_LIMIT_GET_COLLECTION ∨ limit > (collection.length : Int)
  then collection.length else limit.toNat

/-- The elements the loop of `GetStringCollection` goes through from position
`i` on, unless it fails before: with the sentinel limit, or a limit whose
predecessor lies below `i`, all the elements from `i` on; otherwise the
elements at the positions from `i` up to, and without, `limit - 1`, where the
loop breaks. -/
def examinedFrom (limit : Int) (i : Nat) (es : List Nat) : List Nat :=
  if limit ≠ JsonSerializer.DEFAULT_LIMIT_GET_COLLECTION ∧ (i : Int) ≤ limit - 1
  then (es.drop i).take (limit - 1 - i).toNat else es.drop i

/-- The integer a text denotes when in its entirety it is a decimal integer
literal that fits a signed 64-bit integer: an optional minus sign followed by
one or more digits and nothing else; `none` for every other text. -/
def decimalLiteral (text : String) : Option Int :=
  let cs := text.toList
  let ds := if cs.head? = some '-' then cs.tail else cs
  if ds ≠ [] ∧ ds.all Char.isDigit = true then
    let v : Int := if cs.head? = some '-' then -(digitsValue ds : Int) else (digitsValue ds : Int)
    if -(2 : Int) ^ 63 ≤ v ∧ v < (2 : Int) ^ 63 then some v else none
  else none

/-- A string or integer value, what the string `PutValue` and the typed
`PutValue` of an integer store. -/
inductive Scalar where
  | str (value : String)
  | int (value : Int)
  deriving DecidableEq, Repr

/-- The payload of the node that holds a scalar. -/
def Scalar.value : Scalar → JsonValue
  | .str v => .string v
  | .int n => .integer n

/-- The document that is a scalar. -/
def Scalar.doc : Scalar → JsonDoc
  | .str v => .string v
  | .int n => .integer n

/-- The compact text of a scalar: the quoted, escaped string or the decimal
digits. -/
def Scalar.text : Scalar → String
  | .str v => dump_string v
  | .int n => dump_integer n

/-- An integer scalar fits a signed 64-bit integer. -/
def Scalar.inRange : Scalar → Prop
  | .str _ => True
  | .int n => -(2 : Int) ^ 63 ≤ n ∧ n < (2 : Int) ^ 63

/-- One call that stores a scalar under a key: the string `PutValue`, or the
typed `PutValue` of a `long long` with the default decimal radix. -/
def putScalar (s : State) (self : Nat) (key : String) : Scalar → Bool × State
  | .str v => JsonSerializer.PutValue s self key v
  | .int n => JsonSerializer.PutValue_long_long 10 s self key n

/-- A sequence of such calls on one handle: whether every call returned true,
and the state after the last. -/
def runPuts (s : State) (self : Nat) : List (String × Scalar) → Bool × State
  | [] => (true, s)
  | p :: ps =>
    ((putScalar s self p.1 p.2).1 && (runPuts (putScalar s self p.1 p.2).2 self ps).1,
     (runPuts (putScalar s self p.1 p.2).2 self ps).2)

/-- The key-value mapping a sequence of stores builds, starting from the empty
object. -/
def flatOf (ps : List (String × Scalar)) : List (String × Scalar) :=
  ps.foldl (fun acc p => setEntry acc p.1 p.2) []

/-- The document of a flat object. -/
def flatDoc (flat : List (String × Scalar)) : JsonDoc :=
  .object (flat.map fun e => (e.1, e.2.doc))

/-- The compact JSON text of a flat object: the members in order, each the
quoted key, a colon and the text of the value, separated by commas between
braces, with no white space between the tokens. -/
def flatText (flat : List (String × Scalar)) : String :=
  "\x7b" ++ ",".intercalate (flat.map fun e => dump_string e.1 ++ ":" ++ e.2.text) ++ "\x7d"

/-- The node at `o` is an object whose members are, in order, the keys of
`flat`, each with a node that holds the scalar of that key. -/
def FlatAt (h : Heap) (o : Nat) (flat : List (String × Scalar)) : Prop :=
  ∃ rc ms, h.get o = some ⟨rc, .object ms⟩ ∧
    List.Forall₂ (fun m e => m.1 = e.1 ∧ ∃ rc1, h.get m.2 = some ⟨rc1, e.2.value⟩) ms flat

/-- The state after `CreateRootObject()` and a sequence of stores on a handle. -/
def builtState (s : State) (self : Nat) (ps : List (String × Scalar)) : State :=
  (runPuts (JsonSerializer.CreateRootObject s self).2 self ps).2

/-- The text the typed `GetValue` hands to the formatted input for a scalar:
the string itself, or the decimal digits of the integer. -/
def Scalar.rendered : Scalar → String
  | .str v => v
  | .int n => dump_integer n

/-- Whether the number with the given sign and magnitude fits the integer type
as formatted input takes it: a signed type takes the signed number, an
unsigned type the magnitude. -/
def IntType.fits (T : IntType) (neg : Bool) (m : Nat) : Prop :=
  if T.signed then
    -(2 : Int) ^ (T.bits - 1) ≤ (if neg then -(m : Int) else (m : Int)) ∧
      (if neg then -(m : Int) else (m : Int)) < (2 : Int) ^ (T.bits - 1)
  else (m : Int) < (2 : Int) ^ T.bits

/-- The value of the type that formatted input stores for a number that fits. -/
def IntType.taken (T : IntType) (neg : Bool) (m : Nat) : Int :=
  if T.signed then (if neg then -(m : Int) else (m : Int))
  else if neg then (-(m : Int)) % (2 : Int) ^ T.bits else (m : Int)

/-- Every accessor but one reports failure on the handle `h` and leaves what it
was given as it was: the string and the typed `GetValue`, the string and the
typed `PutValue`, `GetObject`, `PutObject`, `GetCollection`, `PutCollection`
and `GetStringCollection` for every key (the empty key included) and every
other argument, `PutStringCollection` for every non-empty key; and
`StreamJsonToBuffer` returns nothing.  The one accessor left out is
`PutStringCollection` with the empty key. -/
def AccessorsFail (s : State) (h : Nat) : Prop :=
  (∀ key value, JsonSerializer.GetValue s h key value = (false, value)) ∧
  (∀ (T : Type) (dtostr put_real : Nat → String) (extract : String → T → Bool × T)
      (key : String) (value : T),
      JsonSerializer.GetValueT dtostr put_real extract s h key value = (false, value)) ∧
  (∀ key value, JsonSerializer.PutValue s h key value = (false, s)) ∧
  (∀ key rendered ival, JsonSerializer.PutValueT s h key rendered ival = (false, s)) ∧
  (∀ key out, JsonSerializer.GetObject s h key out = (false, s)) ∧
  (∀ key object, (JsonSerializer.PutObject s h key object).1 = false ∧
      (JsonSerializer.PutObject s h key object).2.handles = s.handles ∧
      (s.Balanced → (JsonSerializer.PutObject s h key object).2 = s)) ∧
  (∀ key vec, JsonSerializer.GetCollection s h key vec = (false, s, vec)) ∧
  (∀ key collection, JsonSerializer.PutCollection s h key collection = (false, s)) ∧
  (∀ key collection limit,
      JsonSerializer.GetStringCollection s h key collection limit = (false, collection)) ∧
  (∀ key collection limit, key ≠ "" →
      JsonSerializer.PutStringCollection s h key collection limit = (false, s)) ∧
  (∀ dtostr, JsonSerializer.StreamJsonToBuffer dtostr s h = none)

/-- The characters the printer writes for the characters of a string, without
the quotes. -/
def escChars : List Char → List Char
  | [] => []
  | c :: cs => (dump_char c).toList ++ escChars cs

/-- The characters of the compact text of a scalar. -/
def scalarChars : Scalar → List Char
  | .str v => Char.ofNat 34 :: (escChars v.toList ++ [Char.ofNat 34])
  | .int n => (dump_integer n).toList

/-- The characters of a member in a compact text: the quoted key, a colon and
the value. -/
def memberChars (e : String × Scalar) : List Char :=
  Char.ofNat 34 :: (escChars e.1.toList ++ Char.ofNat 34 :: ':' :: scalarChars e.2)

/-- The characters after a member in a compact text: each further member after
a comma, then the closing brace. -/
def tailChars : List (String × Scalar) → List Char
  | [] => [Char.ofNat 125]
  | e :: es => ',' :: (memberChars e ++ tailChars es)

/-- The characters of the compact text of a flat object. -/
def flatChars : List (String × Scalar) → List Char
  | [] => [Char.ofNat 123, Char.ofNat 125]
  | e :: es => Char.ofNat 123 :: (memberChars e ++ tailChars es)

/-- A string scalar is passed whole: `c_str()` loses nothing of it. -/
def Scalar.whole : Scalar → Prop
  | .str v => c_str v = v
  | .int _ => True

/-! ## Heap lemmas -/

theorem Heap.get_eq (h : Heap) (a : Nat) : h.get a = (h[a]?).getD none := by
  unfold Heap.get
  rw [List.getD_eq_getElem?_getD]

theorem Heap.get_eq_some_iff (h : Heap) (a : Nat) (n : json_t) :
    h.get a = some n ↔ ∃ hlt : a < h.length, h[a] = some n := by
  rw [Heap.get_eq]
  by_cases hlt : a < h.length
  · simp [hlt]
  · rw [List.getElem?_eq_none (Nat.le_of_not_lt hlt)]
    simp [hlt]

theorem Heap.get_lt {h : Heap} {a : Nat} {n : json_t} (hg : h.get a = some n) :
    a < h.length := by
  rw [Heap.get_eq_some_iff] at hg
  exact hg.1

theorem Heap.get_of_le {h : Heap} {a : Nat} (hle : h.length ≤ a) : h.get a = none := by
  rw [Heap.get_eq, List.getElem?_eq_none hle]
  rfl

theorem Heap.get_set_eq {h : Heap} {a : Nat} (c : Option json_t) (hlt : a < h.length) :
    Heap.get (List.set h a c) a = c := by
  rw [Heap.get_eq]
  simp [hlt]

theorem Heap.get_set_ne {h : Heap} {a b : Nat} (c : Option json_t) (hne : a ≠ b) :
    Heap.get (List.set h a c) b = h.get b := by
  rw [Heap.get_eq, Heap.get_eq]
  simp [hne]

theorem Heap.get_append_left {h : Heap} {a : Nat} (c : Option json_t) (hlt : a < h.length) :
    Heap.get (h ++ [c]) a = h.get a := by
  rw [Heap.get_eq, Heap.get_eq]
  simp [hlt, List.getElem?_append_left]

theorem Heap.get_append_length (h : Heap) (c : Option json_t) :
    Heap.get (h ++ [c]) h.length = c := by
  rw [Heap.get_eq]
  simp

theorem sum_set_nat (l : List Nat) (i : Nat) (x : Nat) (hi : i < l.length) :
    (l.set i x).sum + l[i] = l.sum + x := by
  induction l generalizing i with
  | nil => simp at hi
  | cons y ys ih =>
    cases i with
    | zero => simp only [List.set_cons_zero, List.sum_cons, List.getElem_cons_zero]; omega
    | succ j =>
      have hj : j < ys.length := by simpa using hi
      have := ih j hj
      simp only [List.set_cons_succ, List.sum_cons, List.getElem_cons_succ]
      omega

theorem sum_map_set {α : Type} (g : α → Nat) (l : List α) (i : Nat) (x : α)
    (hi : i < l.length) :
    ((l.set i x).map g).sum + g l[i] = (l.map g).sum + g x := by
  have h1 := sum_set_nat (l.map g) i (g x) (by simpa using hi)
  rw [List.map_set]
  simpa using h1

/-! ## Counting references -/

theorem slotCount_set {h : Heap} {a : Nat} {n : json_t} (hg : h.get a = some n)
    (c : Option json_t) (x : Nat) :
    slotCount (List.set h a c) x + n.value.children.count x
      = slotCount h x + (match c with
          | none => 0
          | some m => m.value.children.count x) := by
  obtain ⟨hlt, hcell⟩ := (Heap.get_eq_some_iff h a n).1 hg
  have := sum_map_set (fun c : Option json_t => match c with
    | none => 0
    | some m => m.value.children.count x) h a c hlt
  rw [hcell] at this
  exact this

theorem slotCount_append (h : Heap) (c : Option json_t) (x : Nat) :
    slotCount (h ++ [c]) x
      = slotCount h x + (match c with
          | none => 0
          | some m => m.value.children.count x) := by
  unfold slotCount
  simp

theorem weight_set {h : Heap} {a : Nat} {n : json_t} (hg : h.get a = some n)
    (c : Option json_t) :
    Heap.weight (List.set h a c) + (n.refcount + 1 + n.value.children.length)
      = Heap.weight h + (match c with
          | none => 0
          | some m => m.refcount + 1 + m.value.children.length) := by
  obtain ⟨hlt, hcell⟩ := (Heap.get_eq_some_iff h a n).1 hg
  have := sum_map_set (fun c : Option json_t => match c with
    | none => 0
    | some m => m.refcount + 1 + m.value.children.length) h a c hlt
  rw [hcell] at this
  exact this

theorem children_count_le_slotCount {h : Heap} {a : Nat} {n : json_t}
    (hg : h.get a = some n) (x : Nat) :
    n.value.children.count x ≤ slotCount h x := by
  have := slotCount_set hg none x
  simp only at this
  omega

theorem refcountAt_set_eq {h : Heap} {a : Nat} (c : Option json_t) (hlt : a < h.length) :
    refcountAt (List.set h a c) a = (match c with
      | none => 0
      | some m => m.refcount) := by
  unfold refcountAt
  rw [Heap.get_set_eq c hlt]

theorem refcountAt_set_ne {h : Heap} {a b : Nat} (c : Option json_t) (hne : a ≠ b) :
    refcountAt (List.set h a c) b = refcountAt h b := by
  unfold refcountAt
  rw [Heap.get_set_ne c hne]

theorem refcountAt_of_get {h : Heap} {a : Nat} {n : json_t} (hg : h.get a = some n) :
    refcountAt h a = n.refcount := by
  unfold refcountAt
  rw [hg]

theorem refcountAt_pos_iff {h : Heap} {hs : List Ptr} {E : List Nat}
    (hb : BalancedExt h hs E) (a : Nat) :
    0 < refcountAt h a ↔ (h.get a).isSome = true := by
  unfold refcountAt
  cases hg : h.get a with
  | none => simp
  | some n => simpa using hb.2 a n hg

theorem BalancedExt.live_of_ext {h : Heap} {hs : List Ptr} {E : List Nat}
    (hb : BalancedExt h hs E) {a : Nat} (hm : a ∈ E) : (h.get a).isSome = true := by
  rw [← refcountAt_pos_iff hb, hb.1 a]
  have := List.count_pos_iff.2 hm
  omega

theorem BalancedExt.live_of_handle {h : Heap} {hs : List Ptr} {E : List Nat}
    (hb : BalancedExt h hs E) {a : Nat} (hm : some a ∈ hs) : (h.get a).isSome = true := by
  rw [← refcountAt_pos_iff hb, hb.1 a]
  have := List.count_pos_iff.2 hm
  omega

theorem BalancedExt.live_of_slot {h : Heap} {hs : List Ptr} {E : List Nat}
    (hb : BalancedExt h hs E) {p a : Nat} {n : json_t} (hp : h.get p = some n)
    (hm : a ∈ n.value.children) : (h.get a).isSome = true := by
  rw [← refcountAt_pos_iff hb, hb.1 a]
  have h1 := List.count_pos_iff.2 hm
  have h2 := children_count_le_slotCount hp a
  omega

theorem BalancedExt.congr_ext {h : Heap} {hs : List Ptr} {E E1 : List Nat}
    (hb : BalancedExt h hs E) (hc : ∀ a, E.count a = E1.count a) : BalancedExt h hs E1 :=
  ⟨fun a => by rw [hb.1 a, hc a], hb.2⟩

/-! ## The primitives keep the balance -/

theorem json_incref_of_get {h : Heap} {a : Nat} {n : json_t} (hg : h.get a = some n) :
    json_incref h (some a) = h.put a { n with refcount := n.refcount + 1 } := by
  simp only [json_incref, hg]

theorem BalancedExt.incref {h : Heap} {hs : List Ptr} {E : List Nat} {a : Nat}
    (hb : BalancedExt h hs E) (hl : (h.get a).isSome = true) :
    BalancedExt (json_incref h (some a)) hs (a :: E) := by
  obtain ⟨n, hg⟩ := Option.isSome_iff_exists.1 hl
  rw [json_incref_of_get hg]
  have hlt := Heap.get_lt hg
  refine ⟨fun x => ?_, fun x m hx => ?_⟩
  · have hs1 := slotCount_set hg (some { n with refcount := n.refcount + 1 }) x
    simp only at hs1
    have hbx := hb.1 x
    by_cases hxa : x = a
    · subst hxa
      unfold Heap.put
      rw [refcountAt_set_eq _ hlt]
      rw [refcountAt_of_get hg] at hbx
      simp only [List.count_cons_self]
      omega
    · unfold Heap.put
      rw [refcountAt_set_ne _ (Ne.symm hxa)]
      rw [List.count_cons_of_ne hxa]
      omega
  · by_cases hxa : x = a
    · subst hxa
      unfold Heap.put at hx
      rw [Heap.get_set_eq _ hlt] at hx
      cases hx
      simp
    · unfold Heap.put at hx
      rw [Heap.get_set_ne _ (Ne.symm hxa)] at hx
      exact hb.2 x m hx

theorem BalancedExt.fresh_unreferenced {h : Heap} {hs : List Ptr} {E : List Nat}
    (hb : BalancedExt h hs E) {a : Nat} (hle : h.length ≤ a) :
    hs.count (some a) = 0 ∧ slotCount h a = 0 ∧ E.count a = 0 := by
  have := hb.1 a
  unfold refcountAt at this
  rw [Heap.get_of_le hle] at this
  simp only at this
  omega

theorem BalancedExt.alloc {h : Heap} {hs : List Ptr} {E : List Nat} {v : JsonValue}
    (hb : BalancedExt h hs (v.children ++ E)) :
    BalancedExt (h.alloc v).1 hs ((h.alloc v).2 :: E) := by
  unfold Heap.alloc
  refine ⟨fun x => ?_, fun x m hx => ?_⟩
  · rw [slotCount_append]
    simp only
    have hbx := hb.1 x
    rw [List.count_append] at hbx
    by_cases hxa : x = h.length
    · subst hxa
      have hf := hb.fresh_unreferenced (Nat.le_refl h.length)
      rw [List.count_append] at hf
      unfold refcountAt
      rw [Heap.get_append_length]
      simp only [List.count_cons_self]
      omega
    · rw [List.count_cons_of_ne hxa]
      unfold refcountAt at hbx ⊢
      by_cases hlt : x < h.length
      · rw [Heap.get_append_left _ hlt]
        omega
      · have hle : (h ++ [some (⟨1, v⟩ : json_t)]).length ≤ x := by
          simp only [List.length_append, List.length_singleton]
          omega
        rw [Heap.get_of_le hle]
        rw [Heap.get_of_le (Nat.le_of_not_lt hlt)] at hbx
        simp only at hbx ⊢
        omega
  · by_cases hlt : x < h.length
    · rw [Heap.get_append_left _ hlt] at hx
      exact hb.2 x m hx
    · by_cases hxa : x = h.length
      · subst hxa
        rw [Heap.get_append_length] at hx
        cases hx
        simp
      · have hle : (h ++ [some (⟨1, v⟩ : json_t)]).length ≤ x := by
          simp only [List.length_append, List.length_singleton]
          omega
        rw [Heap.get_of_le hle] at hx
        cases hx

theorem release_balanced (hs : List Ptr) (E : List Nat) :
    ∀ (fuel : Nat) (h : Heap) (p : List Nat),
      BalancedExt h hs (p ++ E) → h.weight + p.length ≤ fuel →
      BalancedExt (release fuel h p) hs E := by
  intro fuel
  induction fuel with
  | zero =>
    intro h p hb hf
    have hp : p = [] := List.length_eq_zero.1 (by omega)
    subst hp
    simpa [release] using hb
  | succ fuel ih =>
    intro h p hb hf
    cases p with
    | nil => simpa [release] using hb
    | cons a rest =>
      have hlive := hb.live_of_ext (a := a) (by simp)
      obtain ⟨n, hg⟩ := Option.isSome_iff_exists.1 hlive
      have hlt := Heap.get_lt hg
      have hpos := hb.2 a n hg
      have hba := hb.1 a
      rw [refcountAt_of_get hg] at hba
      simp only [List.cons_append, List.count_cons_self] at hba
      simp only [release, hg]
      by_cases h1 : n.refcount ≤ 1
      · rw [if_pos h1]
        apply ih
        · refine ⟨fun x => ?_, fun x m hx => ?_⟩
          · have hs1 := slotCount_set hg none x
            simp only at hs1
            have hbx := hb.1 x
            have hcl := children_count_le_slotCount hg x
            simp only [List.append_assoc, List.count_append]
            by_cases hxa : x = a
            · subst hxa
              unfold Heap.free
              rw [refcountAt_set_eq _ hlt]
              simp only
              simp only [List.count_append] at hba
              omega
            · unfold Heap.free
              rw [refcountAt_set_ne _ (Ne.symm hxa)]
              rw [List.cons_append, List.count_cons_of_ne hxa, List.count_append] at hbx
              omega
          · by_cases hxa : x = a
            · subst hxa
              unfold Heap.free at hx
              rw [Heap.get_set_eq _ hlt] at hx
              cases hx
            · unfold Heap.free at hx
              rw [Heap.get_set_ne _ (Ne.symm hxa)] at hx
              exact hb.2 x m hx
        · have hw := weight_set hg none
          simp only at hw
          unfold Heap.free
          simp only [List.length_append, List.length_cons] at hf ⊢
          omega
      · rw [if_neg h1]
        apply ih
        · refine ⟨fun x => ?_, fun x m hx => ?_⟩
          · have hs1 := slotCount_set hg (some { n with refcount := n.refcount - 1 }) x
            simp only at hs1
            have hbx := hb.1 x
            simp only [List.cons_append] at hbx
            by_cases hxa : x = a
            · subst hxa
              unfold Heap.put
              rw [refcountAt_set_eq _ hlt]
              simp only
              omega
            · unfold Heap.put
              rw [refcountAt_set_ne _ (Ne.symm hxa)]
              rw [List.count_cons_of_ne hxa] at hbx
              omega
          · by_cases hxa : x = a
            · subst hxa
              unfold Heap.put at hx
              rw [Heap.get_set_eq _ hlt] at hx
              cases hx
              simp only
              omega
            · unfold Heap.put at hx
              rw [Heap.get_set_ne _ (Ne.symm hxa)] at hx
              exact hb.2 x m hx
        · have hw := weight_set hg (some { n with refcount := n.refcount - 1 })
          simp only at hw
          unfold Heap.put
          simp only [List.length_cons] at hf ⊢
          omega

theorem BalancedExt.decref {h : Heap} {hs : List Ptr} {E : List Nat} {a : Nat}
    (hb : BalancedExt h hs (a :: E)) : BalancedExt (json_decref h (some a)) hs E := by
  unfold json_decref
  exact release_balanced hs E _ h [a] hb (by simp)

theorem release_fuel :
    ∀ (f1 f2 : Nat) (h : Heap) (p : List Nat),
      h.weight + p.length ≤ f1 → h.weight + p.length ≤ f2 →
      release f1 h p = release f2 h p := by
  intro f1
  induction f1 with
  | zero =>
    intro f2 h p h1 _
    have hp : p = [] := List.length_eq_zero.1 (by omega)
    subst hp
    cases f2 <;> simp [release]
  | succ f1 ih =>
    intro f2 h p h1 h2
    cases p with
    | nil => cases f2 <;> simp [release]
    | cons a rest =>
      cases f2 with
      | zero => simp at h2
      | succ f2 =>
        simp only [release]
        simp only [List.length_cons] at h1 h2
        cases hg : h.get a with
        | none =>
          simp only
          exact ih f2 h rest (by omega) (by omega)
        | some n =>
          simp only
          by_cases hc : n.refcount ≤ 1
          · rw [if_pos hc, if_pos hc]
            have hw := weight_set hg none
            simp only at hw
            apply ih
            · unfold Heap.free
              simp only [List.length_append]
              omega
            · unfold Heap.free
              simp only [List.length_append]
              omega
          · rw [if_neg hc, if_neg hc]
            have hw := weight_set hg (some { n with refcount := n.refcount - 1 })
            simp only at hw
            apply ih
            · unfold Heap.put
              omega
            · unfold Heap.put
              omega

theorem Heap.shrunkFrom_refl (h : Heap) : h.shrunkFrom h :=
  ⟨rfl, fun _ m hm => ⟨m, hm, rfl⟩⟩

theorem Heap.shrunkFrom_trans {h2 h1 h : Heap} (h21 : h2.shrunkFrom h1) (h10 : h1.shrunkFrom h) :
    h2.shrunkFrom h := by
  refine ⟨h21.1.trans h10.1, fun a m hm => ?_⟩
  obtain ⟨n1, hn1, hv1⟩ := h21.2 a m hm
  obtain ⟨n, hn, hv⟩ := h10.2 a n1 hn1
  exact ⟨n, hn, hv.trans hv1⟩

theorem release_shrunk :
    ∀ (fuel : Nat) (h : Heap) (p : List Nat), (release fuel h p).shrunkFrom h := by
  intro fuel
  induction fuel with
  | zero => intro h p; exact Heap.shrunkFrom_refl h
  | succ fuel ih =>
    intro h p
    cases p with
    | nil => exact Heap.shrunkFrom_refl h
    | cons a rest =>
      simp only [release]
      cases hg : h.get a with
      | none => exact ih h rest
      | some n =>
        simp only
        have hlt := Heap.get_lt hg
        by_cases hc : n.refcount ≤ 1
        · rw [if_pos hc]
          refine Heap.shrunkFrom_trans (ih _ _) ⟨by simp [Heap.free], fun x m hm => ?_⟩
          by_cases hxa : x = a
          · subst hxa
            unfold Heap.free at hm
            rw [Heap.get_set_eq _ hlt] at hm
            cases hm
          · unfold Heap.free at hm
            rw [Heap.get_set_ne _ (Ne.symm hxa)] at hm
            exact ⟨m, hm, rfl⟩
        · rw [if_neg hc]
          refine Heap.shrunkFrom_trans (ih _ _) ⟨by simp [Heap.put], fun x m hm => ?_⟩
          by_cases hxa : x = a
          · subst hxa
            unfold Heap.put at hm
            rw [Heap.get_set_eq _ hlt] at hm
            cases hm
            exact ⟨n, hg, rfl⟩
          · unfold Heap.put at hm
            rw [Heap.get_set_ne _ (Ne.symm hxa)] at hm
            exact ⟨m, hm, rfl⟩

theorem json_decref_shrunk (h : Heap) (p : Ptr) : (json_decref h p).shrunkFrom h := by
  cases p with
  | none => exact Heap.shrunkFrom_refl h
  | some a => exact release_shrunk _ h [a]

/-! ### The handle table -/

theorem count_set_ptr (l : List Ptr) (i : Nat) (p q : Ptr) (hi : i < l.length) :
    (l.set i p).count q + (if l.getD i none = q then 1 else 0)
      = l.count q + (if p = q then 1 else 0) := by
  induction l generalizing i with
  | nil => simp at hi
  | cons y ys ih =>
    cases i with
    | zero =>
      simp only [List.set_cons_zero, List.getD_cons_zero, List.count_cons, beq_iff_eq]
      omega
    | succ j =>
      have hj : j < ys.length := by simpa using hi
      have := ih j hj
      simp only [List.set_cons_succ, List.getD_cons_succ, List.count_cons, beq_iff_eq]
      omega

theorem BalancedExt.set_handle {h : Heap} {hs : List Ptr} {E : List Nat} {a i : Nat}
    (hb : BalancedExt h hs (a :: E)) (hi : i < hs.length) (hnone : hs.getD i none = none) :
    BalancedExt h (hs.set i (some a)) E := by
  refine ⟨fun x => ?_, hb.2⟩
  have hc := count_set_ptr hs i (some a) (some x) hi
  rw [hnone] at hc
  have hbx := hb.1 x
  simp only [List.count_cons, beq_iff_eq] at hbx
  simp only [Option.some.injEq] at hc
  simp only [reduceCtorEq, if_false] at hc
  omega

theorem BalancedExt.clear_handle {h : Heap} {hs : List Ptr} {E : List Nat} {a i : Nat}
    (hb : BalancedExt h hs E) (hi : i < hs.length) (hsome : hs.getD i none = some a) :
    BalancedExt h (hs.set i none) (a :: E) := by
  refine ⟨fun x => ?_, hb.2⟩
  have hc := count_set_ptr hs i none (some x) hi
  rw [hsome] at hc
  have hbx := hb.1 x
  simp only [List.count_cons, beq_iff_eq]
  simp only [Option.some.injEq] at hc
  simp only [reduceCtorEq, if_false] at hc
  omega

theorem BalancedExt.push_handle {h : Heap} {hs : List Ptr} {E : List Nat} {a : Nat}
    (hb : BalancedExt h hs (a :: E)) : BalancedExt h (hs ++ [some a]) E := by
  refine ⟨fun x => ?_, hb.2⟩
  have hbx := hb.1 x
  simp only [List.count_cons, beq_iff_eq] at hbx
  simp only [List.count_append, List.count_cons, List.count_nil, beq_iff_eq, Option.some.injEq]
  omega

theorem BalancedExt.push_null {h : Heap} {hs : List Ptr} {E : List Nat}
    (hb : BalancedExt h hs E) : BalancedExt h (hs ++ [none]) E := by
  refine ⟨fun x => ?_, hb.2⟩
  have hbx := hb.1 x
  simp only [List.count_append, List.count_cons, List.count_nil, beq_iff_eq]
  simp only [reduceCtorEq, if_false]
  omega

/-! ### Object and array slots -/

theorem lookup_setMember_self (ms : List (String × Nat)) (k : String) (v : Nat) :
    (setMember ms k v).lookup k = some v := by
  induction ms with
  | nil => simp [setMember, List.lookup]
  | cons m ms ih =>
    obtain ⟨k1, v1⟩ := m
    by_cases hk : k1 = k
    · simp [setMember, hk, List.lookup]
    · have hk2 : (k == k1) = false := by simpa using fun h => hk h.symm
      simp [setMember, hk, List.lookup, hk2, ih]

theorem lookup_setMember_ne (ms : List (String × Nat)) (k k2 : String) (v : Nat)
    (hne : k2 ≠ k) : (setMember ms k v).lookup k2 = ms.lookup k2 := by
  induction ms with
  | nil =>
    have : (k2 == k) = false := by simpa using hne
    simp [setMember, List.lookup, this]
  | cons m ms ih =>
    obtain ⟨k1, v1⟩ := m
    by_cases hk : k1 = k
    · subst hk
      have : (k2 == k1) = false := by simpa using hne
      simp [setMember, List.lookup, this]
    · by_cases hk2 : k2 = k1
      · subst hk2
        simp [setMember, hk, List.lookup]
      · have : (k2 == k1) = false := by simpa using hk2
        simp [setMember, hk, List.lookup, this, ih]

theorem count_children_setMember (ms : List (String × Nat)) (k : String) (v x : Nat) :
    ((setMember ms k v).map Prod.snd).count x + (ms.lookup k).toList.count x
      = (ms.map Prod.snd).count x + [v].count x := by
  induction ms with
  | nil => simp [setMember, List.lookup]
  | cons m ms ih =>
    obtain ⟨k1, v1⟩ := m
    by_cases hk : k1 = k
    · subst hk
      simp only [setMember, if_true, List.lookup, beq_self_eq_true, List.map_cons,
        List.count_cons, Option.toList, beq_iff_eq]
      simp only [List.count_nil]
      clear ih
      omega
    · have hk2 : (k == k1) = false := by simpa using fun h => hk h.symm
      simp only [setMember, hk, if_false, List.lookup, hk2, List.map_cons, List.count_cons,
        beq_iff_eq]
      simp only [List.count_cons, List.count_nil, beq_iff_eq] at ih ⊢
      omega

theorem lookup_mem_children {ms : List (String × Nat)} {k : String} {v : Nat}
    (hl : ms.lookup k = some v) : v ∈ ms.map Prod.snd := by
  induction ms with
  | nil => simp [List.lookup] at hl
  | cons m ms ih =>
    obtain ⟨k1, v1⟩ := m
    by_cases hk : (k == k1) = true
    · simp only [List.lookup, hk] at hl
      cases hl
      simp
    · have hk2 : (k == k1) = false := by simpa using hk
      simp only [List.lookup, hk2] at hl
      simp only [List.map_cons, List.mem_cons]
      exact Or.inr (ih hl)

theorem BalancedExt.put_value {h : Heap} {hs : List Ptr} {E E1 : List Nat} {o rc : Nat}
    {v v1 : JsonValue} (hb : BalancedExt h hs E) (hg : h.get o = some ⟨rc, v⟩)
    (hc : ∀ x, v1.children.count x + E1.count x = v.children.count x + E.count x) :
    BalancedExt (h.put o ⟨rc, v1⟩) hs E1 := by
  have hlt := Heap.get_lt hg
  refine ⟨fun x => ?_, fun x m hx => ?_⟩
  · have hs1 := slotCount_set hg (some ⟨rc, v1⟩) x
    simp only at hs1
    have hbx := hb.1 x
    have hcx := hc x
    have hcl := children_count_le_slotCount hg x
    by_cases hxo : x = o
    · subst hxo
      unfold Heap.put
      rw [refcountAt_set_eq _ hlt]
      rw [refcountAt_of_get hg] at hbx
      simp only at hbx ⊢
      omega
    · unfold Heap.put
      rw [refcountAt_set_ne _ (Ne.symm hxo)]
      omega
  · by_cases hxo : x = o
    · subst hxo
      unfold Heap.put at hx
      rw [Heap.get_set_eq _ hlt] at hx
      cases hx
      have hp := hb.2 x _ hg
      exact hp
    · unfold Heap.put at hx
      rw [Heap.get_set_ne _ (Ne.symm hxo)] at hx
      exact hb.2 x m hx

theorem BalancedExt.decref_ptr {h : Heap} {hs : List Ptr} {E : List Nat} {p : Ptr}
    (hb : BalancedExt h hs (p.toList ++ E)) : BalancedExt (json_decref h p) hs E := by
  cases p with
  | none => simpa [json_decref] using hb
  | some a => exact BalancedExt.decref (by simpa using hb)

theorem BalancedExt.object_set_new {h : Heap} {hs : List Ptr} {E : List Nat} {v : Nat}
    (json : Ptr) (key : String) (hb : BalancedExt h hs (v :: E)) :
    BalancedExt (json_object_set_new h json key (some v)).1 hs E := by
  unfold json_object_set_new
  cases json with
  | none => exact hb.decref
  | some o =>
    simp only
    cases hg : h.get o with
    | none => exact hb.decref
    | some n =>
      obtain ⟨rc, val⟩ := n
      cases val with
      | object ms =>
        simp only
        by_cases hov : o = v
        · rw [if_pos hov]
          exact hb.decref
        · rw [if_neg hov]
          apply BalancedExt.decref_ptr
          apply BalancedExt.put_value hb hg
          intro x
          have := count_children_setMember ms key v x
          simp only [JsonValue.children, List.count_append, List.count_cons, List.count_nil,
            beq_iff_eq] at this ⊢
          omega
      | _ => exact hb.decref

theorem BalancedExt.array_append_new {h : Heap} {hs : List Ptr} {E : List Nat} {v : Nat}
    (json : Ptr) (hb : BalancedExt h hs (v :: E)) :
    BalancedExt (json_array_append_new h json (some v)).1 hs E := by
  unfold json_array_append_new
  cases json with
  | none => exact hb.decref
  | some o =>
    simp only
    cases hg : h.get o with
    | none => exact hb.decref
    | some n =>
      obtain ⟨rc, val⟩ := n
      cases val with
      | array es =>
        simp only
        by_cases hov : o = v
        · rw [if_pos hov]
          exact hb.decref
        · rw [if_neg hov]
          apply BalancedExt.put_value hb hg
          intro x
          simp only [JsonValue.children, List.count_append, List.count_cons, List.count_nil,
            beq_iff_eq]
          omega
      | _ => exact hb.decref

theorem BalancedExt.incref_ptr {h : Heap} {hs : List Ptr} {E : List Nat} {p : Ptr}
    (hb : BalancedExt h hs E) (hl : ∀ a, p = some a → (h.get a).isSome = true) :
    BalancedExt (json_incref h p) hs (p.toList ++ E) := by
  cases p with
  | none => simpa [json_incref] using hb
  | some a => exact hb.incref (hl a rfl)

theorem BalancedExt.object_set {h : Heap} {hs : List Ptr} {E : List Nat}
    (json : Ptr) (key : String) (value : Ptr) (hb : BalancedExt h hs E)
    (hl : ∀ a, value = some a → (h.get a).isSome = true) :
    BalancedExt (json_object_set h json key value).1 hs E := by
  unfold json_object_set
  cases value with
  | none => simpa [json_incref, json_object_set_new] using hb
  | some v => exact BalancedExt.object_set_new json key (hb.incref (hl v rfl))

theorem BalancedExt.array_append {h : Heap} {hs : List Ptr} {E : List Nat}
    (json : Ptr) (value : Ptr) (hb : BalancedExt h hs E)
    (hl : ∀ a, value = some a → (h.get a).isSome = true) :
    BalancedExt (json_array_append h json value).1 hs E := by
  unfold json_array_append
  cases value with
  | none => simpa [json_incref, json_array_append_new] using hb
  | some v => exact BalancedExt.array_append_new json (hb.incref (hl v rfl))

/-! ### Storing a parsed document -/

theorem BalancedExt.alloc_leaf {h : Heap} {hs : List Ptr} {E : List Nat} {v : JsonValue}
    (hb : BalancedExt h hs E) (hv : v.children = []) :
    BalancedExt (h.alloc v).1 hs ((h.alloc v).2 :: E) := by
  apply BalancedExt.alloc
  rw [hv]
  exact hb

mutual
theorem allocDoc_balanced (hs : List Ptr) :
    ∀ (d : JsonDoc) (h : Heap) (E : List Nat), BalancedExt h hs E →
      BalancedExt (allocDoc h d).1 hs ((allocDoc h d).2 :: E)
  | .object ms, h, E, hb => by
    rw [allocDoc]
    exact BalancedExt.alloc (allocMembers_balanced hs ms h E hb)
  | .array es, h, E, hb => by
    rw [allocDoc]
    exact BalancedExt.alloc (allocElems_balanced hs es h E hb)
  | .string s, h, E, hb => by
    rw [allocDoc]
    exact hb.alloc_leaf rfl
  | .integer n, h, E, hb => by
    rw [allocDoc]
    exact hb.alloc_leaf rfl
  | .real b, h, E, hb => by
    rw [allocDoc]
    exact hb.alloc_leaf rfl
  | .jtrue, h, E, hb => by
    rw [allocDoc]
    exact hb.alloc_leaf rfl
  | .jfalse, h, E, hb => by
    rw [allocDoc]
    exact hb.alloc_leaf rfl
  | .null, h, E, hb => by
    rw [allocDoc]
    exact hb.alloc_leaf rfl
theorem allocMembers_balanced (hs : List Ptr) :
    ∀ (ms : List (String × JsonDoc)) (h : Heap) (E : List Nat), BalancedExt h hs E →
      BalancedExt (allocMembers h ms).1 hs ((allocMembers h ms).2.map Prod.snd ++ E)
  | [], h, E, hb => by
    rw [allocMembers]
    exact hb
  | (k, d) :: rest, h, E, hb => by
    rw [allocMembers]
    have h1 := allocDoc_balanced hs d h E hb
    have h2 := allocMembers_balanced hs rest (allocDoc h d).1 ((allocDoc h d).2 :: E) h1
    refine h2.congr_ext fun a => ?_
    simp only [List.map_cons, List.count_append, List.count_cons]
    omega
theorem allocElems_balanced (hs : List Ptr) :
    ∀ (es : List JsonDoc) (h : Heap) (E : List Nat), BalancedExt h hs E →
      BalancedExt (allocElems h es).1 hs ((allocElems h es).2 ++ E)
  | [], h, E, hb => by
    rw [allocElems]
    exact hb
  | d :: rest, h, E, hb => by
    rw [allocElems]
    have h1 := allocDoc_balanced hs d h E hb
    have h2 := allocElems_balanced hs rest (allocDoc h d).1 ((allocDoc h d).2 :: E) h1
    refine h2.congr_ext fun a => ?_
    simp only [List.count_append, List.count_cons]
    omega
end

/-! ## The handle operations keep the balance -/

namespace JsonSerializer

theorem m_Json_lt {s : State} {i a : Nat} (hm : m_Json s i = some a) : i < s.handles.length := by
  unfold m_Json at hm
  by_contra hge
  rw [List.getD_eq_getElem?_getD, List.getElem?_eq_none (Nat.le_of_not_lt hge)] at hm
  cases hm

theorem m_Json_mem {s : State} {i a : Nat} (hm : m_Json s i = some a) : some a ∈ s.handles := by
  have hlt := m_Json_lt hm
  unfold m_Json at hm
  rw [List.getD_eq_getElem?_getD, List.getElem?_eq_getElem hlt] at hm
  simp only [Option.getD_some] at hm
  rw [← hm]
  exact List.getElem_mem hlt

theorem m_Json_set_eq {s : State} {i : Nat} (p : Ptr) (hlt : i < s.handles.length) :
    m_Json (set_m_Json s i p) i = p := by
  unfold m_Json set_m_Json
  rw [List.getD_eq_getElem?_getD]
  simp [hlt]

theorem m_Json_set_mk (hp : Heap) (hs : List Ptr) (i : Nat) (p : Ptr) (hlt : i < hs.length) :
    m_Json (set_m_Json ⟨hp, hs⟩ i p) i = p :=
  m_Json_set_eq (s := ⟨hp, hs⟩) p hlt

theorem m_Json_set_ne {s : State} {i j : Nat} (p : Ptr) (hne : i ≠ j) :
    m_Json (set_m_Json s i p) j = m_Json s j := by
  unfold m_Json set_m_Json
  rw [List.getD_eq_getElem?_getD, List.getD_eq_getElem?_getD]
  simp [hne]

theorem m_Json_set_ge {s : State} {i : Nat} (p : Ptr) (hge : s.handles.length ≤ i) :
    set_m_Json s i p = s := by
  unfold set_m_Json
  rw [List.set_eq_of_length_le hge]

theorem BalancedExt.set_null {h : Heap} {hs : List Ptr} {E : List Nat} {i : Nat}
    (hb : BalancedExt h hs E) (hnone : hs.getD i none = none) :
    BalancedExt h (hs.set i none) E := by
  by_cases hi : i < hs.length
  · refine ⟨fun x => ?_, hb.2⟩
    have hc := count_set_ptr hs i none (some x) hi
    rw [hnone] at hc
    have hbx := hb.1 x
    omega
  · rw [List.set_eq_of_length_le (Nat.le_of_not_lt hi)]
    exact hb

theorem Clear_heap (s : State) (self : Nat) :
    (Clear s self).heap = json_decref s.heap (m_Json s self) := rfl

theorem Clear_handles (s : State) (self : Nat) :
    (Clear s self).handles = s.handles.set self none := rfl

theorem Clear_balancedExt {s : State} {E : List Nat} (self : Nat)
    (hb : BalancedExt s.heap s.handles E) :
    BalancedExt (Clear s self).heap (Clear s self).handles E := by
  rw [Clear_heap, Clear_handles]
  cases hm : m_Json s self with
  | none =>
    simp only [json_decref]
    exact BalancedExt.set_null hb hm
  | some a =>
    exact (hb.clear_handle (m_Json_lt hm) hm).decref

theorem Clear_balanced {s : State} (self : Nat) (hb : s.Balanced) : (Clear s self).Balanced :=
  Clear_balancedExt self hb

theorem Clear_m_Json_self (s : State) (self : Nat) : m_Json (Clear s self) self = none := by
  by_cases hlt : self < s.handles.length
  · exact m_Json_set_eq (s := { s with heap := json_decref s.heap (m_Json s self) }) none hlt
  · unfold m_Json
    rw [Clear_handles, List.getD_eq_getElem?_getD, List.getElem?_eq_none]
    · rfl
    · simp only [List.length_set]
      omega

theorem Clear_m_Json_ne (s : State) {self other : Nat} (hne : self ≠ other) :
    m_Json (Clear s self) other = m_Json s other :=
  m_Json_set_ne (s := { s with heap := json_decref s.heap (m_Json s self) }) none hne

theorem Clear_shrunk (s : State) (self : Nat) : (Clear s self).heap.shrunkFrom s.heap :=
  json_decref_shrunk _ _

theorem Clear_length (s : State) (self : Nat) :
    (Clear s self).handles.length = s.handles.length := by
  rw [Clear_handles, List.length_set]

theorem Balanced.live_of_m_Json {s : State} (hb : s.Balanced) {i a : Nat}
    (hm : m_Json s i = some a) : (s.heap.get a).isSome = true :=
  BalancedExt.live_of_handle hb (m_Json_mem hm)

theorem default_balanced {s : State} (hb : s.Balanced) : (default s).1.Balanced :=
  BalancedExt.push_null hb

theorem fromNode_balanced {s : State} (hb : s.Balanced) (json : Ptr)
    (hl : ∀ a, json = some a → (s.heap.get a).isSome = true) :
    (fromNode s json).1.Balanced := by
  unfold fromNode State.Balanced
  cases json with
  | none => exact BalancedExt.push_null hb
  | some a => exact (BalancedExt.incref hb (hl a rfl)).push_handle

theorem copy_balanced {s : State} (hb : s.Balanced) (x : Nat) : (copy s x).1.Balanced := by
  unfold copy State.Balanced
  cases hm : m_Json s x with
  | none => exact BalancedExt.push_null hb
  | some a => exact (BalancedExt.incref hb (Balanced.live_of_m_Json hb hm)).push_handle

theorem acquire_balanced {s : State} (hb : s.Balanced) {self : Nat} (p : Ptr)
    (hlt : self < s.handles.length) (hnone : m_Json s self = none)
    (hl : ∀ a, p = some a → (s.heap.get a).isSome = true) :
    State.Balanced { heap := json_incref s.heap p, handles := s.handles.set self p } := by
  unfold State.Balanced
  cases p with
  | none => exact BalancedExt.set_null hb hnone
  | some a => exact (BalancedExt.incref hb (hl a rfl)).set_handle hlt hnone

theorem assign_balanced {s : State} (hb : s.Balanced) {self : Nat} (x : Nat)
    (hlt : self < s.handles.length) : (assign s self x).Balanced := by
  have hb1 := Clear_balanced self hb
  have hlt1 : self < (Clear s self).handles.length := by rw [Clear_length]; exact hlt
  have key := acquire_balanced hb1 (m_Json (Clear s self) x) hlt1 (Clear_m_Json_self s self)
    (fun a ha => Balanced.live_of_m_Json hb1 ha)
  have he : assign s self x
      = { heap := json_incref (Clear s self).heap (m_Json (Clear s self) x),
          handles := (Clear s self).handles.set self (m_Json (Clear s self) x) } := by
    unfold assign
    simp only
    rw [m_Json_set_eq _ hlt1]
    rfl
  rw [he]
  exact key

theorem take_balanced {s : State} {self a : Nat} {h : Heap}
    (hb : BalancedExt h s.handles [a]) (hlt : self < s.handles.length)
    (hnone : m_Json s self = none) :
    State.Balanced (set_m_Json { s with heap := h } self (some a)) :=
  BalancedExt.set_handle hb hlt hnone

theorem Parse_balanced (parser : String → Option JsonDoc) {s : State} (hb : s.Balanced)
    {self : Nat} (instr : String) (hlt : self < s.handles.length) :
    (Parse parser s self instr).2.Balanced := by
  have hb1 := Clear_balanced self hb
  have hlt1 : self < (Clear s self).handles.length := by rw [Clear_length]; exact hlt
  unfold Parse json_loads
  simp only
  cases hp : parser instr with
  | none =>
    simp only
    exact BalancedExt.set_null hb1 (Clear_m_Json_self s self)
  | some d =>
    simp only
    exact take_balanced (s := Clear s self) (allocDoc_balanced _ d _ [] hb1) hlt1
      (Clear_m_Json_self s self)

theorem CreateRootObject_balanced {s : State} (hb : s.Balanced) {self : Nat}
    (hlt : self < s.handles.length) : (CreateRootObject s self).2.Balanced := by
  have hb1 := Clear_balanced self hb
  have hlt1 : self < (Clear s self).handles.length := by rw [Clear_length]; exact hlt
  unfold CreateRootObject
  simp only
  exact take_balanced (s := Clear s self) (BalancedExt.alloc_leaf hb1 rfl) hlt1
    (Clear_m_Json_self s self)

end JsonSerializer

namespace JsonSerializer

theorem PutValue_balanced {s : State} (hb : s.Balanced) (self : Nat) (key value : String) :
    (PutValue s self key value).2.Balanced := by
  unfold PutValue
  split
  · have h1 : BalancedExt (s.heap.alloc (.string value)).1 s.handles
        [(s.heap.alloc (.string value)).2] := BalancedExt.alloc_leaf hb rfl
    have h2 := BalancedExt.object_set_new (m_Json s self) key h1
    simp only
    split <;> exact h2
  · exact hb

theorem PutValueT_balanced {s : State} (hb : s.Balanced) (self : Nat) (key : String)
    (rendered : Option String) (ival : Int) :
    (PutValueT s self key rendered ival).2.Balanced := by
  unfold PutValueT
  split
  · cases rendered with
    | none => exact hb
    | some text =>
      simp only
      split
      · have h1 : BalancedExt (s.heap.alloc (.integer ival)).1 s.handles
            [(s.heap.alloc (.integer ival)).2] := BalancedExt.alloc_leaf hb rfl
        have h2 := BalancedExt.object_set_new (m_Json s self) key h1
        split <;> exact h2
      · have h1 : BalancedExt (s.heap.alloc (.string text)).1 s.handles
            [(s.heap.alloc (.string text)).2] := BalancedExt.alloc_leaf hb rfl
        have h2 := BalancedExt.object_set_new (m_Json s self) key h1
        split <;> exact h2
  · exact hb

theorem PutObject_balanced {s : State} (hb : s.Balanced) (self : Nat) (key : String)
    (object : Nat) : (PutObject s self key object).2.Balanced := by
  unfold PutObject
  have h2 := BalancedExt.object_set (m_Json s self) key (m_Json s object) hb
    (fun a ha => Balanced.live_of_m_Json hb ha)
  simp only
  split <;> exact h2

theorem json_object_get_live {h : Heap} {hs : List Ptr} {E : List Nat}
    (hb : BalancedExt h hs E) {p : Ptr} {key : String} {j : Nat}
    (hj : json_object_get h p key = some j) : (h.get j).isSome = true := by
  unfold json_object_get at hj
  cases p with
  | none => cases hj
  | some o =>
    simp only at hj
    cases hg : h.get o with
    | none => rw [hg] at hj; cases hj
    | some n =>
      obtain ⟨rc, val⟩ := n
      rw [hg] at hj
      cases val with
      | object ms =>
        simp only at hj
        exact hb.live_of_slot hg (lookup_mem_children hj)
      | _ => cases hj

theorem json_array_get_live {h : Heap} {hs : List Ptr} {E : List Nat}
    (hb : BalancedExt h hs E) {p : Ptr} {i j : Nat}
    (hj : json_array_get h p i = some j) : (h.get j).isSome = true := by
  unfold json_array_get at hj
  cases p with
  | none => cases hj
  | some o =>
    simp only at hj
    cases hg : h.get o with
    | none => rw [hg] at hj; cases hj
    | some n =>
      obtain ⟨rc, val⟩ := n
      rw [hg] at hj
      cases val with
      | array es =>
        simp only at hj
        exact hb.live_of_slot hg (List.get?_mem hj)
      | _ => cases hj

/-- What survives a release keeps its members: a lookup in a node that is
still allocated gives what it gave before. -/
theorem json_object_get_shrunk {h1 h : Heap} (hsh : h1.shrunkFrom h) {o : Nat}
    (hl : (h1.get o).isSome = true) (key : String) :
    json_object_get h1 (some o) key = json_object_get h (some o) key := by
  obtain ⟨m, hm⟩ := Option.isSome_iff_exists.1 hl
  obtain ⟨n, hn, hv⟩ := hsh.2 o m hm
  unfold json_object_get
  simp only [hm, hn]
  obtain ⟨rc, val⟩ := n
  obtain ⟨rc1, val1⟩ := m
  simp only at hv
  subst hv
  cases val <;> rfl

theorem GetObject_balanced {s : State} (hb : s.Balanced) {self out : Nat} (key : String)
    (hlt : out < s.handles.length) (hne : out ≠ self) :
    (GetObject s self key out).2.Balanced := by
  unfold GetObject
  split
  · cases hj : json_object_get s.heap (m_Json s self) key with
    | none => exact hb
    | some j =>
      simp only [Option.isSome_some, if_true]
      have hb1 := Clear_balanced out hb
      have hlt1 : out < (Clear s out).handles.length := by rw [Clear_length]; exact hlt
      have hlive : ((Clear s out).heap.get j).isSome = true := by
        cases hm : m_Json s self with
        | none => rw [hm] at hj; cases hj
        | some o =>
          have hm1 : m_Json (Clear s out) self = some o := by
            rw [Clear_m_Json_ne s hne]; exact hm
          have hol := Balanced.live_of_m_Json hb1 hm1
          have hget := json_object_get_shrunk (Clear_shrunk s out) hol key
          rw [hm] at hj
          rw [hj] at hget
          exact json_object_get_live hb1 hget
      have key2 := acquire_balanced hb1 (some j) hlt1 (Clear_m_Json_self s out)
        (fun a ha => by cases ha; exact hlive)
      have he : m_Json (set_m_Json (Clear s out) out (some j)) out = some j :=
        m_Json_set_eq _ hlt1
      rw [he]
      exact key2
  · exact hb

theorem push_back_balanced {s : State} (hb : s.Balanced) (vec : List Nat) (json : Ptr)
    (hl : ∀ a, json = some a → (s.heap.get a).isSome = true) :
    (push_back s vec json).1.Balanced := by
  unfold push_back destroy
  exact Clear_balanced _ (copy_balanced (fromNode_balanced hb json hl) _)

theorem GetCollection_loop_balanced (array : Ptr) :
    ∀ (n i : Nat) (s : State) (vec : List Nat), s.Balanced →
      (GetCollection.loop array n i s vec).2.1.Balanced := by
  intro n
  induction n with
  | zero => intro i s vec hb; exact hb
  | succ n ih =>
    intro i s vec hb
    unfold GetCollection.loop
    simp only
    split
    · exact hb
    · apply ih
      apply push_back_balanced hb
      intro a ha
      exact json_array_get_live hb ha

theorem GetCollection_balanced {s : State} (hb : s.Balanced) (self : Nat) (key : String)
    (vec : List Nat) : (GetCollection s self key vec).2.1.Balanced := by
  unfold GetCollection
  split
  · simp only
    split
    · exact hb
    · split
      · exact hb
      · split
        · exact hb
        · exact GetCollection_loop_balanced _ _ _ _ _ hb
  · exact hb

theorem PutCollection_loop_balanced (s : State) (arr : Nat) :
    ∀ (collection : List Nat) (h : Heap), BalancedExt h s.handles [arr] →
      BalancedExt (PutCollection.loop s (some arr) collection h).1 s.handles
        (if (PutCollection.loop s (some arr) collection h).2 then [arr] else []) := by
  intro collection
  induction collection with
  | nil => intro h hb; simpa [PutCollection.loop] using hb
  | cons c rest ih =>
    intro h hb
    have h1 := BalancedExt.array_append (some arr) (m_Json s c) hb
      (fun a ha => BalancedExt.live_of_handle hb (m_Json_mem ha))
    unfold PutCollection.loop
    simp only
    split
    · simpa using h1.decref
    · exact ih _ h1

theorem PutCollection_balanced {s : State} (hb : s.Balanced) (self : Nat) (key : String)
    (collection : List Nat) : (PutCollection s self key collection).2.Balanced := by
  unfold PutCollection
  split
  · exact hb
  · have h0 : BalancedExt (s.heap.alloc (.array [])).1 s.handles
        [(s.heap.alloc (.array [])).2] := BalancedExt.alloc_leaf hb rfl
    have h1 := PutCollection_loop_balanced s _ collection _ h0
    simp only
    split
    · rename_i hf
      have hf2 : (PutCollection.loop s (some (s.heap.alloc (.array [])).2) collection
          (s.heap.alloc (.array [])).1).2 = false := by simpa using hf
      rw [hf2] at h1
      exact h1
    · rename_i hf
      have hf2 : (PutCollection.loop s (some (s.heap.alloc (.array [])).2) collection
          (s.heap.alloc (.array [])).1).2 = true := by simpa using hf
      rw [hf2] at h1
      have h2 := BalancedExt.object_set_new (m_Json s self) key h1
      split <;> exact h2

theorem PutStringCollection_loop_balanced (hs : List Ptr) (arr : Nat) :
    ∀ (collection : List String) (h : Heap), BalancedExt h hs [arr] →
      BalancedExt (PutStringCollection.loop (some arr) collection h).1 hs
        (if (PutStringCollection.loop (some arr) collection h).2 then [arr] else []) := by
  intro collection
  induction collection with
  | nil => intro h hb; simpa [PutStringCollection.loop] using hb
  | cons c rest ih =>
    intro h hb
    have h0 : BalancedExt (h.alloc (.string c)).1 hs [(h.alloc (.string c)).2, arr] :=
      BalancedExt.alloc_leaf hb rfl
    have h1 := BalancedExt.array_append_new (some arr) h0
    unfold PutStringCollection.loop
    simp only
    split
    · simpa using h1.decref
    · exact ih _ h1

theorem PutStringCollection_balanced {s : State} (hb : s.Balanced) {self : Nat} (key : String)
    (collection : List String) (limit : Int) (hlt : self < s.handles.length) :
    (PutStringCollection s self key collection limit).2.Balanced := by
  unfold PutStringCollection
  split
  · exact hb
  · split
    · exact hb
    · split
      · exact hb
      · have h0 : BalancedExt (s.heap.alloc (.array [])).1 s.handles
            [(s.heap.alloc (.array [])).2] := BalancedExt.alloc_leaf hb rfl
        simp only
        generalize hsz : (if limit ≤ DEFAULT_LIMIT_GET_COLLECTION ∨ limit > (collection.length : Int)
          then collection.length else limit.toNat) = sz
        have h1 := PutStringCollection_loop_balanced s.handles _ (collection.take sz) _ h0
        split
        · rename_i hf
          have hf2 : (PutStringCollection.loop (some (s.heap.alloc (.array [])).2)
              (collection.take sz) (s.heap.alloc (.array [])).1).2 = false := by simpa using hf
          rw [hf2] at h1
          exact h1
        · rename_i hf
          have hf2 : (PutStringCollection.loop (some (s.heap.alloc (.array [])).2)
              (collection.take sz) (s.heap.alloc (.array [])).1).2 = true := by simpa using hf
          rw [hf2] at h1
          split
          · rename_i hnone
            have hn : m_Json s self = none := by
              cases hm : m_Json s self with
              | none => rfl
              | some a => rw [hm] at hnone; simp at hnone
            exact take_balanced (s := s) h1 hlt hn
          · have h2 := BalancedExt.object_set_new (m_Json s self) key h1
            split <;> exact h2

end JsonSerializer

/-- Every admissible operation keeps the state balanced. -/
theorem Op.step_balanced (parser : String → Option JsonDoc) {s : State} (hb : s.Balanced)
    (op : Op) (hadm : op.admissible s = true) : (op.step parser s).Balanced := by
  cases op with
  | default => exact JsonSerializer.default_balanced hb
  | fromNode json =>
    apply JsonSerializer.fromNode_balanced hb
    intro a ha
    subst ha
    simpa [Op.admissible] using hadm
  | copy x => exact JsonSerializer.copy_balanced hb x
  | assign self x =>
    exact JsonSerializer.assign_balanced hb x (by simpa [Op.admissible] using hadm)
  | Clear self => exact JsonSerializer.Clear_balanced self hb
  | destroy self => exact JsonSerializer.Clear_balanced self hb
  | Parse self instr =>
    exact JsonSerializer.Parse_balanced parser hb instr (by simpa [Op.admissible] using hadm)
  | CreateRootObject self =>
    exact JsonSerializer.CreateRootObject_balanced hb (by simpa [Op.admissible] using hadm)
  | GetObject self key out =>
    have h2 : out < s.handles.length ∧ out ≠ self := by simpa [Op.admissible] using hadm
    exact JsonSerializer.GetObject_balanced hb key h2.1 h2.2
  | PutObject self key object => exact JsonSerializer.PutObject_balanced hb self key object
  | GetCollection self key vec => exact JsonSerializer.GetCollection_balanced hb self key vec
  | PutCollection self key c => exact JsonSerializer.PutCollection_balanced hb self key c
  | PutStringCollection self key c limit =>
    exact JsonSerializer.PutStringCollection_balanced hb key c limit
      (by simpa [Op.admissible] using hadm)
  | PutValue self key value => exact JsonSerializer.PutValue_balanced hb self key value
  | PutValueT self key rendered ival =>
    exact JsonSerializer.PutValueT_balanced hb self key rendered ival

theorem init_balanced : State.init.Balanced :=
  ⟨fun a => by simp [State.init, refcountAt, Heap.get, slotCount],
   fun a n hn => by simp [State.init, Heap.get] at hn⟩

/-- Balance is an invariant of every admissible run from a balanced state. -/
theorem run_balanced (parser : String → Option JsonDoc) :
    ∀ (ops : List Op) (s : State), s.Balanced → admissibleRun parser s ops = true →
      (run parser s ops).Balanced := by
  intro ops
  induction ops with
  | nil => intro s hb _; exact hb
  | cons op ops ih =>
    intro s hb hadm
    simp only [admissibleRun, Bool.and_eq_true] at hadm
    exact ih _ (Op.step_balanced parser hb op hadm.1) hadm.2

/-! ## Accessors on a handle that holds no node -/

namespace JsonSerializer

theorem list_set_self {α : Type} (l : List α) (i : Nat) (hi : i < l.length) :
    l.set i l[i] = l := by
  induction l generalizing i with
  | nil => simp at hi
  | cons y ys ih =>
    cases i with
    | zero => rfl
    | succ j =>
      have hj : j < ys.length := by simpa using hi
      simp only [List.set_cons_succ, List.getElem_cons_succ, ih j hj]

theorem release_nil (fuel : Nat) (h : Heap) : release fuel h [] = h := by
  cases fuel <;> rfl

theorem json_decref_incref {h : Heap} {hs : List Ptr} {E : List Nat}
    (hb : BalancedExt h hs E) (p : Ptr) : json_decref (json_incref h p) p = h := by
  cases p with
  | none => rfl
  | some a =>
    cases hg : h.get a with
    | none =>
      simp only [json_incref, hg, json_decref, release, release_nil]
    | some n =>
      obtain ⟨hlt, hcell⟩ := (Heap.get_eq_some_iff h a n).1 hg
      have hpos := hb.2 a n hg
      have hg1 : Heap.get (h.put a { n with refcount := n.refcount + 1 }) a
          = some { n with refcount := n.refcount + 1 } := Heap.get_set_eq _ hlt
      simp only [json_incref, hg, json_decref, release, hg1, release_nil]
      rw [if_neg (by omega)]
      simp only [Heap.put, List.set_set, Nat.add_sub_cancel]
      rw [← hcell]
      exact list_set_self h a hlt

theorem GetValue_cases (s : State) (h : Nat) (k out : String) :
    (∃ o rc ms c rc1 str, m_Json s h = some o ∧ s.heap.get o = some ⟨rc, .object ms⟩ ∧
        ms.lookup k = some c ∧ s.heap.get c = some ⟨rc1, .string str⟩ ∧
        GetValue s h k out = (true, str)) ∨
    ((¬ ∃ o rc ms c rc1 str, m_Json s h = some o ∧ s.heap.get o = some ⟨rc, .object ms⟩ ∧
        ms.lookup k = some c ∧ s.heap.get c = some ⟨rc1, .string str⟩) ∧
      GetValue s h k out = (false, out)) := by
  cases hm : m_Json s h with
  | none => right; simp [GetValue, hm]
  | some o =>
    cases hg : s.heap.get o with
    | none => right; simp [GetValue, hm, json_is_object, hg]
    | some n =>
      obtain ⟨rc, val⟩ := n
      cases val with
      | object ms =>
        cases hl : ms.lookup k with
        | none => right; simp [GetValue, hm, json_is_object, json_object_get, hg, hl]
        | some c =>
          cases hc : s.heap.get c with
          | none =>
            right
            simp [GetValue, hm, json_is_object, json_object_get, hg, hl, json_is_string, hc]
          | some n1 =>
            obtain ⟨rc1, val1⟩ := n1
            cases val1 with
            | string str =>
              left
              exact ⟨o, rc, ms, c, rc1, str, rfl, hg, hl, hc, by
                simp [GetValue, hm, json_is_object, json_object_get, hg, hl, json_is_string, hc,
                  json_string_value]⟩
            | _ =>
              right
              simp [GetValue, hm, json_is_object, json_object_get, hg, hl, json_is_string, hc]
      | _ => right; simp [GetValue, hm, json_is_object, hg]


end JsonSerializer

/-! ## Reading after a release -/

theorem prims_shrunk {h1 h : Heap} (hsh : h1.shrunkFrom h) {p : Ptr}
    (hl : ∀ a, p = some a → (h1.get a).isSome = true) :
    json_is_object h1 p = json_is_object h p ∧
    json_is_array h1 p = json_is_array h p ∧
    json_is_string h1 p = json_is_string h p ∧
    json_is_integer h1 p = json_is_integer h p ∧
    json_is_real h1 p = json_is_real h p ∧
    json_is_boolean h1 p = json_is_boolean h p ∧
    json_string_value h1 p = json_string_value h p ∧
    json_integer_value h1 p = json_integer_value h p ∧
    json_real_value h1 p = json_real_value h p ∧
    json_boolean_value h1 p = json_boolean_value h p ∧
    json_array_size h1 p = json_array_size h p ∧
    (∀ key, json_object_get h1 p key = json_object_get h p key) ∧
    (∀ i, json_array_get h1 p i = json_array_get h p i) := by
  cases p with
  | none => simp [json_is_object, json_is_array, json_is_string, json_is_integer, json_is_real,
      json_is_boolean, json_string_value, json_integer_value, json_real_value,
      json_boolean_value, json_array_size, json_object_get, json_array_get]
  | some a =>
    obtain ⟨m, hm⟩ := Option.isSome_iff_exists.1 (hl a rfl)
    obtain ⟨n, hn, hv⟩ := hsh.2 a m hm
    obtain ⟨rc, val⟩ := n
    obtain ⟨rc1, val1⟩ := m
    simp only at hv
    subst hv
    cases val <;>
      simp [json_is_object, json_is_array, json_is_string, json_is_integer, json_is_real,
        json_is_boolean, json_string_value, json_integer_value, json_real_value,
        json_boolean_value, json_array_size, json_object_get, json_array_get, hm, hn]

theorem mapM_option_congr {α β : Type} (f g : α → Option β) (l : List α)
    (h : ∀ x ∈ l, f x = g x) : l.mapM f = l.mapM g := by
  induction l with
  | nil => rfl
  | cons a l ih =>
    rw [List.mapM_cons, List.mapM_cons, h a (List.mem_cons_self a l),
      ih (fun x hx => h x (List.mem_cons_of_mem a hx))]

theorem do_dump_shrunk (dtostr : Nat → String) {h1 h : Heap} {hs : List Ptr} {E : List Nat}
    (hsh : h1.shrunkFrom h) (hb : BalancedExt h1 hs E) :
    ∀ (fuel a : Nat), (h1.get a).isSome = true →
      do_dump dtostr fuel h1 a = do_dump dtostr fuel h a := by
  intro fuel
  induction fuel with
  | zero => intro a _; rfl
  | succ fuel ih =>
    intro a hl
    obtain ⟨m, hm⟩ := Option.isSome_iff_exists.1 hl
    obtain ⟨n, hn, hv⟩ := hsh.2 a m hm
    obtain ⟨rc, val⟩ := n
    obtain ⟨rc1, val1⟩ := m
    simp only at hv
    subst hv
    cases val with
    | object ms =>
      simp only [do_dump, hm, hn]
      congr 1
      apply mapM_option_congr
      intro x hx
      have hx2 : x.2 ∈ (JsonValue.object ms).children := by
        simp only [JsonValue.children, List.mem_map]
        exact ⟨x, hx, rfl⟩
      rw [ih x.2 (hb.live_of_slot hm hx2)]
    | array es =>
      simp only [do_dump, hm, hn]
      congr 1
      apply mapM_option_congr
      intro x hx
      exact ih x (hb.live_of_slot hm hx)
    | _ => simp only [do_dump, hm, hn]

theorem json_dumps_shrunk (dtostr : Nat → String) {h1 h : Heap} {hs : List Ptr} {E : List Nat}
    (hsh : h1.shrunkFrom h) (hb : BalancedExt h1 hs E) {p : Ptr}
    (hl : ∀ a, p = some a → (h1.get a).isSome = true) :
    json_dumps dtostr h1 p = json_dumps dtostr h p := by
  cases p with
  | none => rfl
  | some a =>
    simp only [json_dumps]
    rw [hsh.1]
    exact do_dump_shrunk dtostr hsh hb _ a (hl a rfl)

namespace JsonSerializer

theorem GetStringCollection_loop_shrunk {h1 h : Heap} {hs : List Ptr} {E : List Nat}
    (hsh : h1.shrunkFrom h) (hb : BalancedExt h1 hs E) {array : Ptr}
    (hl : ∀ a, array = some a → (h1.get a).isSome = true) (limit : Int) :
    ∀ (n i : Nat) (collection : List String),
      GetStringCollection.loop h1 array limit n i collection
        = GetStringCollection.loop h array limit n i collection := by
  intro n
  induction n with
  | zero => intro i collection; rfl
  | succ n ih =>
    intro i collection
    have hget := (prims_shrunk hsh hl).2.2.2.2.2.2.2.2.2.2.2.2 i
    have hel : ∀ a, json_array_get h1 array i = some a → (h1.get a).isSome = true :=
      fun a ha => json_array_get_live hb ha
    have hp := prims_shrunk hsh hel
    simp only [GetStringCollection.loop]
    rw [← hget, ← hp.2.2.1, ← hp.2.2.2.2.2.2.1]
    simp only [ih]

theorem sameReads_of_shrunk {s1 s2 : State} {x y : Nat}
    (hsh : s1.heap.shrunkFrom s2.heap) (hb : s1.Balanced) (hm : m_Json s1 x = m_Json s2 y) :
    SameReads s1 x s2 y := by
  have hl : ∀ a, m_Json s1 x = some a → (s1.heap.get a).isSome = true :=
    fun a ha => Balanced.live_of_m_Json hb ha
  have hp := prims_shrunk hsh hl
  have hil : ∀ key a, json_object_get s1.heap (m_Json s1 x) key = some a →
      (s1.heap.get a).isSome = true := fun key a ha => json_object_get_live hb ha
  refine ⟨?_, ?_, ?_, ?_⟩
  · intro key value
    have hi := prims_shrunk hsh (hil key)
    simp only [GetValue]
    rw [← hm, ← hp.1, ← hp.2.2.2.2.2.2.2.2.2.2.2.1 key, ← hi.2.2.1, ← hi.2.2.2.2.2.2.1]
  · intro T dtostr put_real extract key value
    have hi := prims_shrunk hsh (hil key)
    have hd := json_dumps_shrunk dtostr hsh hb (hil key)
    simp only [GetValueT]
    rw [← hm, ← hp.1, ← hp.2.2.2.2.2.2.2.2.2.2.2.1 key, ← hi.2.2.1, ← hi.2.2.2.2.2.2.1,
      ← hi.2.2.2.1, ← hi.2.2.2.2.1, ← hi.2.2.2.2.2.1, ← hi.2.2.2.2.2.2.2.1,
      ← hi.2.2.2.2.2.2.2.2.1, ← hi.2.2.2.2.2.2.2.2.2.1, ← hd]
  · intro key collection limit
    have hi := prims_shrunk hsh (hil key)
    simp only [GetStringCollection]
    rw [← hm, ← hp.1, ← hp.2.2.2.2.2.2.2.2.2.2.2.1 key]
    by_cases hs : (m_Json s1 x).isSome = true
    · simp only [hs, if_true]
      by_cases hk : key.isEmpty = true
      · simp only [hk, if_true]
        rw [← hp.2.1, ← hp.2.2.2.2.2.2.2.2.2.2.1,
          GetStringCollection_loop_shrunk hsh hb hl limit]
      · simp only [hk]
        by_cases ho : json_is_object s1.heap (m_Json s1 x) = true
        · simp only [ho]
          cases hj : json_object_get s1.heap (m_Json s1 x) key with
          | none => rfl
          | some c =>
            have hcl : ∀ a, (some c : Ptr) = some a → (s1.heap.get a).isSome = true := by
              intro a ha
              cases ha
              exact hil key c hj
            have hc := prims_shrunk hsh hcl
            simp only [Option.isNone_some, Bool.false_eq_true, if_false, Bool.not_true]
            rw [← hc.2.1, ← hc.2.2.2.2.2.2.2.2.2.2.1,
              GetStringCollection_loop_shrunk hsh hb hcl limit]
        · simp [hk, ho]
    · simp [hs]
  · intro dtostr
    simp only [StreamJsonToBuffer]
    rw [← hm, ← json_dumps_shrunk dtostr hsh hb hl]

end JsonSerializer

/-! ## What `PutValue` and `GetValue` do to an object -/

theorem json_object_set_new_object {h : Heap} {o rc : Nat} {ms : List (String × Nat)}
    (hg : h.get o = some ⟨rc, .object ms⟩) (key : String) {v : Nat} (hne : o ≠ v) :
    json_object_set_new h (some o) key (some v)
      = (json_decref (h.put o ⟨rc, .object (setMember ms key v)⟩) (ms.lookup key), 0) := by
  simp only [json_object_set_new, hg, hne, if_false]

theorem json_object_set_new_fail {h : Heap} {json : Ptr} (key : String) (v : Nat)
    (hno : json_is_object h json = false) :
    json_object_set_new h json key (some v) = (json_decref h (some v), -1) := by
  cases json with
  | none => rfl
  | some o =>
    simp only [json_is_object] at hno
    simp only [json_object_set_new]
    cases hg : h.get o with
    | none => rfl
    | some n =>
      obtain ⟨rc, val⟩ := n
      rw [hg] at hno
      cases val <;> first | rfl | simp at hno

theorem json_is_object_iff (h : Heap) (p : Ptr) :
    json_is_object h p = true ↔
      ∃ o rc ms, p = some o ∧ h.get o = some ⟨rc, .object ms⟩ := by
  cases p with
  | none => simp [json_is_object]
  | some o =>
    simp only [json_is_object]
    cases hg : h.get o with
    | none => simp [hg]
    | some n =>
      obtain ⟨rc, val⟩ := n
      cases val <;> simp [hg]

namespace JsonSerializer

theorem GetValue_of {s : State} {h o rc c rc1 : Nat} {ms : List (String × Nat)} {k str : String}
    (hm : m_Json s h = some o) (hg : s.heap.get o = some ⟨rc, .object ms⟩)
    (hl : ms.lookup k = some c) (hc : s.heap.get c = some ⟨rc1, .string str⟩) (out : String) :
    GetValue s h k out = (true, str) := by
  simp [GetValue, hm, json_is_object, json_object_get, hg, hl, json_is_string, hc,
    json_string_value]

theorem PutValue_not_object {s : State} {self : Nat} (key value : String)
    (hno : json_is_object s.heap (m_Json s self) = false) :
    PutValue s self key value = (false, s) := by
  simp [PutValue, hno]

/-- The state after a string `PutValue` on a handle that holds an object. -/
theorem PutValue_object {s : State} {self o rc : Nat} {ms : List (String × Nat)}
    (hm : m_Json s self = some o) (hg : s.heap.get o = some ⟨rc, .object ms⟩)
    (key value : String) :
    PutValue s self key value
      = (true, State.mk (json_decref
          ((s.heap.alloc (.string value)).1.put o
            ⟨rc, .object (setMember ms key s.heap.length)⟩) (ms.lookup key)) s.handles) := by
  have hlt := Heap.get_lt hg
  have hne : o ≠ s.heap.length := Nat.ne_of_lt hlt
  have hg1 : Heap.get (s.heap.alloc (.string value)).1 o = some ⟨rc, .object ms⟩ := by
    unfold Heap.alloc
    rw [Heap.get_append_left _ hlt]
    exact hg
  have hobj : json_is_object s.heap (some o) = true := by
    simp [json_is_object, hg]
  have hne2 : o ≠ (s.heap.alloc (.string value)).2 := hne
  simp only [PutValue, hm, hobj, Option.isSome_some, Bool.and_self, if_true]
  rw [json_object_set_new_object hg1 key hne2]
  rfl

/-- After a string `PutValue` on a balanced state where the handle holds an
object: the handle table is as before, the object is still allocated and has
the key set to a new node, which is a string node with the given text. -/
theorem PutValue_spec {s : State} (hb : s.Balanced) {self o rc : Nat}
    {ms : List (String × Nat)} (hm : m_Json s self = some o)
    (hg : s.heap.get o = some ⟨rc, .object ms⟩) (key value : String) :
    (PutValue s self key value).1 = true ∧
    (PutValue s self key value).2.handles = s.handles ∧
    (PutValue s self key value).2.heap.shrunkFrom
      ((s.heap.alloc (.string value)).1.put o
        ⟨rc, .object (setMember ms key s.heap.length)⟩) ∧
    (∃ rc1, (PutValue s self key value).2.heap.get o
      = some ⟨rc1, .object (setMember ms key s.heap.length)⟩) ∧
    (∃ rc2, (PutValue s self key value).2.heap.get s.heap.length
      = some ⟨rc2, .string value⟩) := by
  have hbal := PutValue_balanced hb self key value
  have hlt := Heap.get_lt hg
  have hne : o ≠ s.heap.length := Nat.ne_of_lt hlt
  rw [PutValue_object hm hg key value] at hbal ⊢
  simp only at hbal ⊢
  have hsh := json_decref_shrunk ((s.heap.alloc (.string value)).1.put o
        ⟨rc, .object (setMember ms key s.heap.length)⟩) (ms.lookup key)
  have hlt1 : o < (s.heap.alloc (.string value)).1.length := by
    simp only [Heap.alloc, List.length_append, List.length_singleton]
    omega
  have ho : ∃ rc1, Heap.get (json_decref ((s.heap.alloc (.string value)).1.put o
        ⟨rc, .object (setMember ms key s.heap.length)⟩) (ms.lookup key)) o
      = some ⟨rc1, .object (setMember ms key s.heap.length)⟩ := by
    have hlive := BalancedExt.live_of_handle hbal (m_Json_mem hm)
    obtain ⟨m, hmm⟩ := Option.isSome_iff_exists.1 hlive
    obtain ⟨n, hn, hv⟩ := hsh.2 o m hmm
    unfold Heap.put at hn
    rw [Heap.get_set_eq _ hlt1] at hn
    cases hn
    obtain ⟨rc1, val1⟩ := m
    simp only at hv
    subst hv
    exact ⟨rc1, hmm⟩
  refine ⟨trivial, trivial, hsh, ho, ?_⟩
  obtain ⟨rc1, ho1⟩ := ho
  have hmem : s.heap.length ∈ (JsonValue.object (setMember ms key s.heap.length)).children :=
    lookup_mem_children (lookup_setMember_self ms key s.heap.length)
  have hlive := BalancedExt.live_of_slot hbal ho1 hmem
  obtain ⟨m, hmm⟩ := Option.isSome_iff_exists.1 hlive
  obtain ⟨n, hn, hv⟩ := hsh.2 _ m hmm
  unfold Heap.put Heap.alloc at hn
  rw [Heap.get_set_ne _ hne, Heap.get_append_length] at hn
  cases hn
  obtain ⟨rc2, val2⟩ := m
  simp only at hv
  subst hv
  exact ⟨rc2, hmm⟩

/-- A string `PutValue` through one handle is read by `GetValue` through every
handle that holds the same node. -/
theorem PutValue_GetValue {s : State} (hb : s.Balanced) {a b : Nat}
    (hab : m_Json s a = m_Json s b) (key value : String)
    (hok : (PutValue s a key value).1 = true) (out : String) :
    GetValue (PutValue s a key value).2 b key out = (true, value) := by
  have hobj : json_is_object s.heap (m_Json s a) = true := by
    cases hc : json_is_object s.heap (m_Json s a) with
    | true => rfl
    | false => rw [PutValue_not_object key value hc] at hok; cases hok
  obtain ⟨o, rc, ms, hm, hg⟩ := (json_is_object_iff _ _).1 hobj
  obtain ⟨_, hh, _, ⟨rc1, ho⟩, ⟨rc2, hn⟩⟩ := PutValue_spec hb hm hg key value
  have hmb : m_Json (PutValue s a key value).2 b = some o := by
    unfold m_Json
    rw [hh]
    rw [← hm, hab]
    rfl
  exact GetValue_of hmb ho (lookup_setMember_self ms key s.heap.length) hn out

end JsonSerializer

namespace JsonSerializer

/-- A string `PutValue` leaves what `GetValue` reads under every other key. -/
theorem PutValue_GetValue_other {s : State} (hb : s.Balanced) {self o rc : Nat}
    {ms : List (String × Nat)} (hm : m_Json s self = some o)
    (hg : s.heap.get o = some ⟨rc, .object ms⟩) (key value : String)
    {k2 : String} (hk : k2 ≠ key) (out : String) :
    GetValue (PutValue s self key value).2 self k2 out = GetValue s self k2 out := by
  have hbal := PutValue_balanced hb self key value
  obtain ⟨_, hh, hsh, ⟨rc1, ho⟩, _⟩ := PutValue_spec hb hm hg key value
  have hm1 : m_Json (PutValue s self key value).2 self = some o := by
    unfold m_Json
    rw [hh]
    exact hm
  have hlk := lookup_setMember_ne ms key k2 s.heap.length hk
  have hlto := Heap.get_lt hg
  cases hl : ms.lookup k2 with
  | none =>
    simp [GetValue, hm, hm1, json_is_object, json_object_get, hg, ho, hlk, hl]
  | some c =>
    have hl1 : (setMember ms key s.heap.length).lookup k2 = some c := by rw [hlk, hl]
    have hlive1 := BalancedExt.live_of_slot hbal ho (lookup_mem_children hl1)
    have hlive := BalancedExt.live_of_slot hb hg (lookup_mem_children hl)
    obtain ⟨m1, hm1c⟩ := Option.isSome_iff_exists.1 hlive1
    obtain ⟨m0, hm0c⟩ := Option.isSome_iff_exists.1 hlive
    by_cases hco : c = o
    · subst hco
      rw [ho] at hm1c
      rw [hg] at hm0c
      simp [GetValue, hm, hm1, json_is_object, json_object_get, hg, ho, hlk, hl, json_is_string]
    · obtain ⟨n, hn, hv⟩ := hsh.2 c m1 hm1c
      unfold Heap.put Heap.alloc at hn
      rw [Heap.get_set_ne _ (Ne.symm hco), Heap.get_append_left _ (Heap.get_lt hm0c),
        hm0c] at hn
      cases hn
      obtain ⟨r0, v0⟩ := m0
      obtain ⟨r1, v1⟩ := m1
      simp only at hv
      subst hv
      cases v0 <;>
        simp [GetValue, hm, hm1, json_is_object, json_object_get, hg, ho, hlk, hl,
          json_is_string, json_string_value, hm1c, hm0c]

end JsonSerializer

/-! ## What `GetObject` and `PutObject` do -/

theorem json_incref_shrunk (h : Heap) (p : Ptr) : (json_incref h p).shrunkFrom h := by
  cases p with
  | none => exact Heap.shrunkFrom_refl h
  | some a =>
    cases hg : h.get a with
    | none =>
      simp only [json_incref, hg]
      exact Heap.shrunkFrom_refl h
    | some n =>
      have hlt := Heap.get_lt hg
      simp only [json_incref, hg]
      refine ⟨by simp [Heap.put], fun x m hm => ?_⟩
      by_cases hxa : x = a
      · subst hxa
        unfold Heap.put at hm
        rw [Heap.get_set_eq _ hlt] at hm
        cases hm
        exact ⟨n, hg, rfl⟩
      · unfold Heap.put at hm
        rw [Heap.get_set_ne _ (Ne.symm hxa)] at hm
        exact ⟨m, hm, rfl⟩

theorem json_object_get_iff (h : Heap) (p : Ptr) (key : String) (c : Nat) :
    json_object_get h p key = some c ↔
      ∃ o rc ms, p = some o ∧ h.get o = some ⟨rc, .object ms⟩ ∧ ms.lookup key = some c := by
  cases p with
  | none => simp [json_object_get]
  | some o =>
    simp only [json_object_get]
    cases hg : h.get o with
    | none => simp [hg]
    | some n =>
      obtain ⟨rc, val⟩ := n
      cases val with
      | object ms =>
        simp only [hg]
        constructor
        · intro hl
          exact ⟨o, rc, ms, rfl, hg, hl⟩
        · rintro ⟨o1, rc1, ms1, ho1, hg1, hl1⟩
          cases ho1
          rw [hg] at hg1
          cases hg1
          exact hl1
      | _ => simp [hg]

namespace JsonSerializer

theorem GetObject_fail {s : State} {self : Nat} {key : String} (out : Nat)
    (hno : json_object_get s.heap (m_Json s self) key = none) :
    GetObject s self key out = (false, s) := by
  simp [GetObject, hno]

theorem GetObject_ok {s : State} {self o rc c : Nat} {ms : List (String × Nat)} {key : String}
    (hm : m_Json s self = some o) (hg : s.heap.get o = some ⟨rc, .object ms⟩)
    (hl : ms.lookup key = some c) {out : Nat} (hlt : out < s.handles.length) :
    GetObject s self key out
      = (true, State.mk (json_incref (Clear s out).heap (some c))
          ((Clear s out).handles.set out (some c))) := by
  have hobj : json_is_object s.heap (some o) = true := by simp [json_is_object, hg]
  have hget : json_object_get s.heap (some o) key = some c := by
    simp [json_object_get, hg, hl]
  have hlt1 : out < (Clear s out).handles.length := by rw [Clear_length]; exact hlt
  simp only [GetObject, hm, hobj, hget, Option.isSome_some, Bool.and_self, if_true]
  rw [m_Json_set_eq _ hlt1]
  rfl

/-- After a successful `GetObject` into another handle, in a balanced state. -/
theorem GetObject_spec {s : State} (hb : s.Balanced) {self o rc c : Nat}
    {ms : List (String × Nat)} {key : String}
    (hm : m_Json s self = some o) (hg : s.heap.get o = some ⟨rc, .object ms⟩)
    (hl : ms.lookup key = some c) {out : Nat} (hlt : out < s.handles.length)
    (hne : out ≠ self) :
    (GetObject s self key out).1 = true ∧
    (GetObject s self key out).2.Balanced ∧
    (GetObject s self key out).2.heap.shrunkFrom s.heap ∧
    m_Json (GetObject s self key out).2 out = some c ∧
    (∀ j, j ≠ out → m_Json (GetObject s self key out).2 j = m_Json s j) ∧
    (GetObject s self key out).2.handles.length = s.handles.length := by
  have hbal : (GetObject s self key out).2.Balanced := GetObject_balanced hb key hlt hne
  have hlt1 : out < (Clear s out).handles.length := by rw [Clear_length]; exact hlt
  rw [GetObject_ok hm hg hl hlt] at hbal ⊢
  refine ⟨rfl, hbal, ?_, ?_, ?_, ?_⟩
  · show (json_incref (Clear s out).heap (some c)).shrunkFrom s.heap
    exact Heap.shrunkFrom_trans (json_incref_shrunk _ _) (Clear_shrunk s out)
  · exact m_Json_set_mk _ _ _ _ hlt1
  · intro j hj
    have h1 : m_Json (State.mk (json_incref (Clear s out).heap (some c))
        ((Clear s out).handles.set out (some c))) j = m_Json (Clear s out) j :=
      m_Json_set_ne (s := Clear s out) (some c) (Ne.symm hj)
    rw [h1, Clear_m_Json_ne s (Ne.symm hj)]
  · simp only [List.length_set]
    exact Clear_length s out

end JsonSerializer

/-! ## Handles that hold the same node -/

namespace JsonSerializer

theorem m_Json_append_left (hp hp1 : Heap) {hs : List Ptr} {i : Nat} (p : Ptr)
    (hlt : i < hs.length) : m_Json ⟨hp1, hs ++ [p]⟩ i = m_Json ⟨hp, hs⟩ i := by
  unfold m_Json
  rw [List.getD_eq_getElem?_getD, List.getD_eq_getElem?_getD]
  simp [hlt, List.getElem?_append_left]

theorem m_Json_append_new (hp : Heap) (hs : List Ptr) (p : Ptr) :
    m_Json ⟨hp, hs ++ [p]⟩ hs.length = p := by
  unfold m_Json
  rw [List.getD_eq_getElem?_getD]
  simp

/-- Assigning a handle to itself leaves it empty, whatever it held. -/
theorem assign_self_empty (s : State) (a : Nat) : m_Json (assign s a a) a = none := by
  have h1 : m_Json (Clear s a) a = none := Clear_m_Json_self s a
  have h2 : m_Json (set_m_Json (Clear s a) a (m_Json (Clear s a) a)) a = none := by
    rw [h1]
    by_cases hlt : a < (Clear s a).handles.length
    · exact m_Json_set_eq none hlt
    · rw [m_Json_set_ge none (Nat.le_of_not_lt hlt)]
      exact h1
  exact h2

end JsonSerializer

/-! ## Writing through a view -/

namespace JsonSerializer

end JsonSerializer

/-! ## The printed text of an object -/

namespace JsonSerializer

end JsonSerializer

/-! ## No container is its own member -/

theorem Heap.NoSelfMember.alloc_keeps {h : Heap} (hns : h.NoSelfMember) {v : JsonValue}
    (hv : ∀ x ∈ v.children, x < h.length) : (h.alloc v).1.NoSelfMember := by
  intro a n hn
  unfold Heap.alloc at hn
  by_cases hlt : a < h.length
  · rw [Heap.get_append_left _ hlt] at hn
    exact hns a n hn
  · by_cases hal : a = h.length
    · subst hal
      rw [Heap.get_append_length] at hn
      cases hn
      intro hmem
      exact Nat.lt_irrefl _ (hv _ hmem)
    · have hle : (h ++ [some (⟨1, v⟩ : json_t)]).length ≤ a := by
        simp only [List.length_append, List.length_singleton]
        omega
      rw [Heap.get_of_le hle] at hn
      cases hn

mutual
theorem allocDoc_noSelf :
    ∀ (d : JsonDoc) (h : Heap), h.NoSelfMember →
      (allocDoc h d).1.NoSelfMember ∧ (allocDoc h d).2 < (allocDoc h d).1.length ∧
      h.length ≤ (allocDoc h d).1.length
  | .object ms, h, hns => by
    rw [allocDoc]
    obtain ⟨h1, h2, h3⟩ := allocMembers_noSelf ms h hns
    refine ⟨h1.alloc_keeps ?_, by simp [Heap.alloc], by simp only [Heap.alloc, List.length_append]; omega⟩
    intro x hx
    simp only [JsonValue.children, List.mem_map] at hx
    obtain ⟨y, hy, rfl⟩ := hx
    exact h2 y hy
  | .array es, h, hns => by
    rw [allocDoc]
    obtain ⟨h1, h2, h3⟩ := allocElems_noSelf es h hns
    refine ⟨h1.alloc_keeps ?_, by simp [Heap.alloc], by simp only [Heap.alloc, List.length_append]; omega⟩
    intro x hx
    exact h2 x hx
  | .string s, h, hns => by
    rw [allocDoc]
    exact ⟨hns.alloc_keeps (fun x hx => by cases hx), by simp [Heap.alloc], by simp [Heap.alloc]⟩
  | .integer n, h, hns => by
    rw [allocDoc]
    exact ⟨hns.alloc_keeps (fun x hx => by cases hx), by simp [Heap.alloc], by simp [Heap.alloc]⟩
  | .real b, h, hns => by
    rw [allocDoc]
    exact ⟨hns.alloc_keeps (fun x hx => by cases hx), by simp [Heap.alloc], by simp [Heap.alloc]⟩
  | .jtrue, h, hns => by
    rw [allocDoc]
    exact ⟨hns.alloc_keeps (fun x hx => by cases hx), by simp [Heap.alloc], by simp [Heap.alloc]⟩
  | .jfalse, h, hns => by
    rw [allocDoc]
    exact ⟨hns.alloc_keeps (fun x hx => by cases hx), by simp [Heap.alloc], by simp [Heap.alloc]⟩
  | .null, h, hns => by
    rw [allocDoc]
    exact ⟨hns.alloc_keeps (fun x hx => by cases hx), by simp [Heap.alloc], by simp [Heap.alloc]⟩
theorem allocMembers_noSelf :
    ∀ (ms : List (String × JsonDoc)) (h : Heap), h.NoSelfMember →
      (allocMembers h ms).1.NoSelfMember ∧
      (∀ y ∈ (allocMembers h ms).2, y.2 < (allocMembers h ms).1.length) ∧
      h.length ≤ (allocMembers h ms).1.length
  | [], h, hns => by
    rw [allocMembers]
    exact ⟨hns, (fun y hy => by cases hy), Nat.le_refl _⟩
  | (k, d) :: rest, h, hns => by
    rw [allocMembers]
    obtain ⟨a1, a2, a3⟩ := allocDoc_noSelf d h hns
    obtain ⟨b1, b2, b3⟩ := allocMembers_noSelf rest (allocDoc h d).1 a1
    refine ⟨b1, fun y hy => ?_, Nat.le_trans a3 b3⟩
    rcases List.mem_cons.1 hy with rfl | hy
    · exact Nat.lt_of_lt_of_le a2 b3
    · exact b2 y hy
theorem allocElems_noSelf :
    ∀ (es : List JsonDoc) (h : Heap), h.NoSelfMember →
      (allocElems h es).1.NoSelfMember ∧
      (∀ y ∈ (allocElems h es).2, y < (allocElems h es).1.length) ∧
      h.length ≤ (allocElems h es).1.length
  | [], h, hns => by
    rw [allocElems]
    exact ⟨hns, (fun y hy => by cases hy), Nat.le_refl _⟩
  | d :: rest, h, hns => by
    rw [allocElems]
    obtain ⟨a1, a2, a3⟩ := allocDoc_noSelf d h hns
    obtain ⟨b1, b2, b3⟩ := allocElems_noSelf rest (allocDoc h d).1 a1
    refine ⟨b1, fun y hy => ?_, Nat.le_trans a3 b3⟩
    rcases List.mem_cons.1 hy with rfl | hy
    · exact Nat.lt_of_lt_of_le a2 b3
    · exact b2 y hy
end

namespace JsonSerializer

end JsonSerializer

theorem mapM_option_mono {α β : Type} {f g : α → Option β} :
    ∀ (l : List α) (ys : List β), l.mapM f = some ys →
      (∀ x ∈ l, ∀ y, f x = some y → g x = some y) → l.mapM g = some ys := by
  intro l
  induction l with
  | nil => intro ys h _; exact h
  | cons a l ih =>
    intro ys hys hfg
    rw [List.mapM_cons] at hys ⊢
    cases hfa : f a with
    | none => rw [hfa] at hys; cases hys
    | some b =>
      cases hl : l.mapM f with
      | none => rw [hfa, hl] at hys; cases hys
      | some bs =>
        rw [hfa, hl] at hys
        rw [hfg a (List.mem_cons_self a l) b hfa,
          ih bs hl (fun x hx => hfg x (List.mem_cons_of_mem a hx))]
        exact hys

theorem Heap.get_append_of_some {h : Heap} {a : Nat} {n : json_t} (l : Heap)
    (hg : h.get a = some n) : Heap.get (h ++ l) a = some n := by
  have hlt := Heap.get_lt hg
  rw [Heap.get_eq] at hg ⊢
  rw [List.getElem?_append_left hlt]
  exact hg

theorem readDoc_append (l : Heap) :
    ∀ (fuel : Nat) (h : Heap) (a : Nat) (d : JsonDoc),
      readDoc fuel h a = some d → readDoc fuel (h ++ l) a = some d := by
  intro fuel
  induction fuel with
  | zero => intro h a d hd; simp [readDoc] at hd
  | succ fuel ih =>
    intro h a d hd
    cases hg : h.get a with
    | none => simp [readDoc, hg] at hd
    | some n =>
      obtain ⟨rc, val⟩ := n
      have hg2 := Heap.get_append_of_some l hg
      cases val with
      | object ms =>
        simp only [readDoc, hg, hg2] at hd ⊢
        cases hm : ms.mapM (fun m => (readDoc fuel h m.2).map fun d => (m.1, d)) with
        | none => rw [hm] at hd; cases hd
        | some ys =>
          rw [hm] at hd
          rw [mapM_option_mono ms ys hm]
          · exact hd
          · intro x _ y hy
            cases hx : readDoc fuel h x.2 with
            | none => rw [hx] at hy; cases hy
            | some dx =>
              rw [hx] at hy
              rw [ih h x.2 dx hx]
              exact hy
      | array es =>
        simp only [readDoc, hg, hg2] at hd ⊢
        cases hm : es.mapM (readDoc fuel h) with
        | none => rw [hm] at hd; cases hd
        | some ys =>
          rw [hm] at hd
          rw [mapM_option_mono es ys hm (fun x _ y hy => ih h x y hy)]
          exact hd
      | _ =>
        simp only [readDoc, hg, hg2] at hd ⊢
        exact hd

theorem readDoc_succ :
    ∀ (fuel : Nat) (h : Heap) (a : Nat) (d : JsonDoc),
      readDoc fuel h a = some d → readDoc (fuel + 1) h a = some d := by
  intro fuel
  induction fuel with
  | zero => intro h a d hd; simp [readDoc] at hd
  | succ fuel ih =>
    intro h a d hd
    cases hg : h.get a with
    | none => simp [readDoc, hg] at hd
    | some n =>
      obtain ⟨rc, val⟩ := n
      cases val with
      | object ms =>
        rw [readDoc] at hd ⊢
        simp only [hg] at hd ⊢
        cases hm : ms.mapM (fun m => (readDoc fuel h m.2).map fun d => (m.1, d)) with
        | none => rw [hm] at hd; cases hd
        | some ys =>
          rw [hm] at hd
          rw [mapM_option_mono ms ys hm]
          · exact hd
          · intro x _ y hy
            cases hx : readDoc fuel h x.2 with
            | none => rw [hx] at hy; cases hy
            | some dx =>
              rw [hx] at hy
              rw [ih h x.2 dx hx]
              exact hy
      | array es =>
        rw [readDoc] at hd ⊢
        simp only [hg] at hd ⊢
        cases hm : es.mapM (readDoc fuel h) with
        | none => rw [hm] at hd; cases hd
        | some ys =>
          rw [hm] at hd
          rw [mapM_option_mono es ys hm (fun x _ y hy => ih h x y hy)]
          exact hd
      | _ =>
        rw [readDoc] at hd ⊢
        simp only [hg] at hd ⊢
        exact hd

theorem readDoc_le {f1 f2 : Nat} (hle : f1 ≤ f2) {h : Heap} {a : Nat} {d : JsonDoc}
    (hd : readDoc f1 h a = some d) : readDoc f2 h a = some d := by
  induction hle with
  | refl => exact hd
  | step _ ih => exact readDoc_succ _ h a d ih

mutual
theorem allocDoc_append : ∀ (d : JsonDoc) (h : Heap), ∃ l, (allocDoc h d).1 = h ++ l
  | .object ms, h => by
    rw [allocDoc]
    obtain ⟨l, hl⟩ := allocMembers_append ms h
    exact ⟨l ++ [some ⟨1, .object (allocMembers h ms).2⟩], by simp [Heap.alloc, hl]⟩
  | .array es, h => by
    rw [allocDoc]
    obtain ⟨l, hl⟩ := allocElems_append es h
    exact ⟨l ++ [some ⟨1, .array (allocElems h es).2⟩], by simp [Heap.alloc, hl]⟩
  | .string s, h => by rw [allocDoc]; exact ⟨_, rfl⟩
  | .integer n, h => by rw [allocDoc]; exact ⟨_, rfl⟩
  | .real b, h => by rw [allocDoc]; exact ⟨_, rfl⟩
  | .jtrue, h => by rw [allocDoc]; exact ⟨_, rfl⟩
  | .jfalse, h => by rw [allocDoc]; exact ⟨_, rfl⟩
  | .null, h => by rw [allocDoc]; exact ⟨_, rfl⟩
theorem allocMembers_append :
    ∀ (ms : List (String × JsonDoc)) (h : Heap), ∃ l, (allocMembers h ms).1 = h ++ l
  | [], h => by rw [allocMembers]; exact ⟨[], by simp⟩
  | (k, d) :: rest, h => by
    rw [allocMembers]
    obtain ⟨l1, h1⟩ := allocDoc_append d h
    obtain ⟨l2, h2⟩ := allocMembers_append rest (allocDoc h d).1
    exact ⟨l1 ++ l2, by rw [h2, h1, List.append_assoc]⟩
theorem allocElems_append : ∀ (es : List JsonDoc) (h : Heap), ∃ l, (allocElems h es).1 = h ++ l
  | [], h => by rw [allocElems]; exact ⟨[], by simp⟩
  | d :: rest, h => by
    rw [allocElems]
    obtain ⟨l1, h1⟩ := allocDoc_append d h
    obtain ⟨l2, h2⟩ := allocElems_append rest (allocDoc h d).1
    exact ⟨l1 ++ l2, by rw [h2, h1, List.append_assoc]⟩
end

mutual
theorem allocDoc_read :
    ∀ (d : JsonDoc) (h : Heap),
      ∃ f, ∀ f1, f ≤ f1 → readDoc f1 (allocDoc h d).1 (allocDoc h d).2 = some d
  | .object ms, h => by
    obtain ⟨f, hf⟩ := allocMembers_read ms h
    refine ⟨f + 1, fun f1 hle => ?_⟩
    obtain ⟨f2, rfl⟩ : ∃ f2, f1 = f2 + 1 := ⟨f1 - 1, by omega⟩
    rw [allocDoc]
    simp only [readDoc, Heap.alloc, Heap.get_append_length]
    have hm := hf f2 (by omega)
    rw [mapM_option_mono _ ms hm]
    · rfl
    · intro x _ y hy
      cases hx : readDoc f2 (allocMembers h ms).1 x.2 with
      | none => rw [hx] at hy; cases hy
      | some dx =>
        rw [hx] at hy
        rw [readDoc_append _ f2 _ x.2 dx hx]
        exact hy
  | .array es, h => by
    obtain ⟨f, hf⟩ := allocElems_read es h
    refine ⟨f + 1, fun f1 hle => ?_⟩
    obtain ⟨f2, rfl⟩ : ∃ f2, f1 = f2 + 1 := ⟨f1 - 1, by omega⟩
    rw [allocDoc]
    simp only [readDoc, Heap.alloc, Heap.get_append_length]
    have hm := hf f2 (by omega)
    rw [mapM_option_mono _ es hm (fun x _ y hy => readDoc_append _ f2 _ x y hy)]
    rfl
  | .string s, h => by
    refine ⟨1, fun f1 hle => readDoc_le hle ?_⟩
    rw [allocDoc]
    simp [readDoc, Heap.alloc, Heap.get_append_length]
  | .integer n, h => by
    refine ⟨1, fun f1 hle => readDoc_le hle ?_⟩
    rw [allocDoc]
    simp [readDoc, Heap.alloc, Heap.get_append_length]
  | .real b, h => by
    refine ⟨1, fun f1 hle => readDoc_le hle ?_⟩
    rw [allocDoc]
    simp [readDoc, Heap.alloc, Heap.get_append_length]
  | .jtrue, h => by
    refine ⟨1, fun f1 hle => readDoc_le hle ?_⟩
    rw [allocDoc]
    simp [readDoc, Heap.alloc, Heap.get_append_length]
  | .jfalse, h => by
    refine ⟨1, fun f1 hle => readDoc_le hle ?_⟩
    rw [allocDoc]
    simp [readDoc, Heap.alloc, Heap.get_append_length]
  | .null, h => by
    refine ⟨1, fun f1 hle => readDoc_le hle ?_⟩
    rw [allocDoc]
    simp [readDoc, Heap.alloc, Heap.get_append_length]
theorem allocMembers_read :
    ∀ (ms : List (String × JsonDoc)) (h : Heap),
      ∃ f, ∀ f1, f ≤ f1 →
        (allocMembers h ms).2.mapM (fun m =>
          (readDoc f1 (allocMembers h ms).1 m.2).map fun d => (m.1, d)) = some ms
  | [], h => ⟨0, fun f1 _ => by rw [allocMembers]; rfl⟩
  | (k, d) :: rest, h => by
    obtain ⟨fa, ha⟩ := allocDoc_read d h
    obtain ⟨fb, hb⟩ := allocMembers_read rest (allocDoc h d).1
    obtain ⟨l, hl⟩ := allocMembers_append rest (allocDoc h d).1
    refine ⟨max fa fb, fun f1 hle => ?_⟩
    rw [allocMembers]
    simp only [List.mapM_cons]
    have h1 := ha f1 (le_trans (le_max_left fa fb) hle)
    have h2 := hb f1 (le_trans (le_max_right fa fb) hle)
    have h3 : readDoc f1 (allocMembers (allocDoc h d).1 rest).1 (allocDoc h d).2 = some d := by
      rw [hl]
      exact readDoc_append l f1 _ _ d h1
    rw [h3, h2]
    rfl
theorem allocElems_read :
    ∀ (es : List JsonDoc) (h : Heap),
      ∃ f, ∀ f1, f ≤ f1 →
        (allocElems h es).2.mapM (readDoc f1 (allocElems h es).1) = some es
  | [], h => ⟨0, fun f1 _ => by rw [allocElems]; rfl⟩
  | d :: rest, h => by
    obtain ⟨fa, ha⟩ := allocDoc_read d h
    obtain ⟨fb, hb⟩ := allocElems_read rest (allocDoc h d).1
    obtain ⟨l, hl⟩ := allocElems_append rest (allocDoc h d).1
    refine ⟨max fa fb, fun f1 hle => ?_⟩
    rw [allocElems]
    simp only [List.mapM_cons]
    have h1 := ha f1 (le_trans (le_max_left fa fb) hle)
    have h2 := hb f1 (le_trans (le_max_right fa fb) hle)
    have h3 : readDoc f1 (allocElems (allocDoc h d).1 rest).1 (allocDoc h d).2 = some d := by
      rw [hl]
      exact readDoc_append l f1 _ _ d h1
    rw [h3, h2]
    rfl
end

/-! ## Installing a node under a key -/

/-- The heap after a successful `json_object_set_new`, from a balanced heap in
which the value carries a reference of its own: the object is still
allocated and has the key set, and the value is still allocated with the
payload it had. -/
theorem object_set_new_spec {h : Heap} {hs : List Ptr} {E : List Nat} {o rc v : Nat}
    {ms : List (String × Nat)} (hb : BalancedExt h hs (v :: E))
    (hg : h.get o = some ⟨rc, .object ms⟩) (ho : some o ∈ hs) (hov : o ≠ v) (key : String) :
    (json_object_set_new h (some o) key (some v)).2 = 0 ∧
    BalancedExt (json_object_set_new h (some o) key (some v)).1 hs E ∧
    (json_object_set_new h (some o) key (some v)).1.shrunkFrom
      (h.put o ⟨rc, .object (setMember ms key v)⟩) ∧
    (∃ rc1, (json_object_set_new h (some o) key (some v)).1.get o
      = some ⟨rc1, .object (setMember ms key v)⟩) ∧
    (∃ n1 n, (json_object_set_new h (some o) key (some v)).1.get v = some n1 ∧
      h.get v = some n ∧ n.value = n1.value) := by
  have hbal := BalancedExt.object_set_new (some o) key hb
  rw [json_object_set_new_object hg key hov] at hbal ⊢
  have hlt := Heap.get_lt hg
  have hsh := json_decref_shrunk (h.put o ⟨rc, .object (setMember ms key v)⟩) (ms.lookup key)
  have hoget : ∃ rc1, Heap.get (json_decref (h.put o ⟨rc, .object (setMember ms key v)⟩)
      (ms.lookup key)) o = some ⟨rc1, .object (setMember ms key v)⟩ := by
    obtain ⟨m, hmm⟩ := Option.isSome_iff_exists.1 (BalancedExt.live_of_handle hbal ho)
    obtain ⟨n, hn, hv⟩ := hsh.2 o m hmm
    unfold Heap.put at hn
    rw [Heap.get_set_eq _ hlt] at hn
    cases hn
    obtain ⟨rc1, val1⟩ := m
    simp only at hv
    subst hv
    exact ⟨rc1, hmm⟩
  refine ⟨rfl, hbal, hsh, hoget, ?_⟩
  obtain ⟨rc1, ho1⟩ := hoget
  have hmem : v ∈ (JsonValue.object (setMember ms key v)).children :=
    lookup_mem_children (lookup_setMember_self ms key v)
  obtain ⟨m, hmm⟩ := Option.isSome_iff_exists.1 (BalancedExt.live_of_slot hbal ho1 hmem)
  obtain ⟨n, hn, hv⟩ := hsh.2 v m hmm
  unfold Heap.put at hn
  rw [Heap.get_set_ne _ hov] at hn
  exact ⟨m, n, hmm, hn, hv⟩

theorem json_is_object_incref_false {h : Heap} {p : Ptr} (q : Ptr)
    (hno : json_is_object h p = false) : json_is_object (json_incref h q) p = false := by
  cases hc : json_is_object (json_incref h q) p with
  | false => rfl
  | true =>
    obtain ⟨o, rc, ms, hp, hg⟩ := (json_is_object_iff _ _).1 hc
    obtain ⟨n, hn, hv⟩ := (json_incref_shrunk h q).2 o _ hg
    obtain ⟨rc0, val0⟩ := n
    simp only at hv
    subst hv
    rw [(json_is_object_iff h p).2 ⟨o, rc0, ms, hp, hn⟩] at hno
    cases hno

namespace JsonSerializer

theorem PutObject_child_empty (s : State) (P C : Nat) (key : String)
    (hC : m_Json s C = none) : PutObject s P key C = (false, s) := by
  simp only [PutObject, hC, json_object_set, json_incref, json_object_set_new]
  rfl

theorem PutObject_not_object {s : State} (hb : s.Balanced) (P C : Nat) (key : String)
    (hno : json_is_object s.heap (m_Json s P) = false) : PutObject s P key C = (false, s) := by
  cases hC : m_Json s C with
  | none => exact PutObject_child_empty s P C key hC
  | some c =>
    have h1 := json_is_object_incref_false (some c) hno
    simp only [PutObject, hC, json_object_set, json_object_set_new_fail key c h1]
    have h2 := json_decref_incref hb (some c)
    rw [h2]
    rfl

end JsonSerializer

/-! ## What `GetCollection` does -/

theorem json_incref_get_value {h : Heap} {a rc : Nat} {v : JsonValue} (p : Ptr)
    (hg : h.get a = some ⟨rc, v⟩) : ∃ rc1, (json_incref h p).get a = some ⟨rc1, v⟩ := by
  cases p with
  | none => exact ⟨rc, hg⟩
  | some b =>
    cases hb : h.get b with
    | none =>
      simp only [json_incref, hb]
      exact ⟨rc, hg⟩
    | some n =>
      have hlt := Heap.get_lt hb
      simp only [json_incref, hb]
      by_cases hab : a = b
      · subst hab
        rw [hg] at hb
        cases hb
        unfold Heap.put
        rw [Heap.get_set_eq _ hlt]
        exact ⟨rc + 1, rfl⟩
      · unfold Heap.put
        rw [Heap.get_set_ne _ (Ne.symm hab)]
        exact ⟨rc, hg⟩

theorem json_array_get_of {h : Heap} {a rc : Nat} {es : List Nat}
    (hg : h.get a = some ⟨rc, .array es⟩) (i : Nat) :
    json_array_get h (some a) i = es.get? i := by
  simp only [json_array_get, hg]

namespace JsonSerializer

/-- In a balanced state `vec.push_back(json)` adds one reference to the node,
one dead temporary and one new handle that holds the node. -/
theorem push_back_eq {s : State} (hb : s.Balanced) (vec : List Nat) {e : Nat}
    (hl : (s.heap.get e).isSome = true) :
    push_back s vec (some e)
      = (State.mk (json_incref s.heap (some e)) (s.handles ++ [none, some e]),
         vec ++ [s.handles.length + 1]) := by
  have hb1 : BalancedExt (json_incref s.heap (some e)) (s.handles ++ [some e]) [] :=
    fromNode_balanced hb (some e) (fun a ha => by cases ha; exact hl)
  have hm1 : m_Json (fromNode s (some e)).1 (fromNode s (some e)).2 = some e :=
    m_Json_append_new _ _ _
  have hm2 : m_Json (copy (fromNode s (some e)).1 (fromNode s (some e)).2).1
      (fromNode s (some e)).2 = some e := by
    unfold copy
    rw [hm1]
    have : (fromNode s (some e)).2 < (fromNode s (some e)).1.handles.length := by
      simp [fromNode]
    rw [m_Json_append_left (fromNode s (some e)).1.heap _ _ this]
    exact hm1
  simp only [push_back, destroy, Clear]
  rw [hm2]
  simp only [copy]
  rw [hm1]
  simp only [fromNode, set_m_Json]
  rw [json_decref_incref hb1 (some e)]
  simp

theorem GetCollection_loop_eq {a : Nat} {es : List Nat} :
    ∀ (n i : Nat) (s : State) (vec : List Nat), s.Balanced →
      (∃ rc, s.heap.get a = some ⟨rc, .array es⟩) → i + n = es.length →
      GetCollection.loop (some a) n i s vec
        = (true,
           State.mk ((es.drop i).foldl (fun h e => json_incref h (some e)) s.heap)
             (s.handles ++ pushedHandles (es.drop i)),
           vec ++ (List.range n).map (fun t => s.handles.length + 2 * t + 1)) := by
  intro n
  induction n with
  | zero =>
    intro i s vec _ _ hin
    have hi : es.length ≤ i := by omega
    simp [GetCollection.loop, List.drop_eq_nil_of_le hi, pushedHandles]
  | succ n ih =>
    intro i s vec hb ⟨rc, hg⟩ hin
    have hi : i < es.length := by omega
    have hget : json_array_get s.heap (some a) i = some es[i] := by
      rw [json_array_get_of hg, List.get?_eq_getElem?, List.getElem?_eq_getElem hi]
    have hl := json_array_get_live hb hget
    have hb1 := push_back_balanced hb vec (some es[i]) (fun x hx => by cases hx; exact hl)
    rw [push_back_eq hb vec hl] at hb1
    obtain ⟨rc1, hg1⟩ := json_incref_get_value (some es[i]) hg
    have := ih (i + 1) _ (vec ++ [s.handles.length + 1]) hb1 ⟨rc1, hg1⟩ (by omega)
    unfold GetCollection.loop
    simp only [hget, Option.isNone_some, Bool.false_eq_true, if_false]
    rw [push_back_eq hb vec hl]
    simp only
    rw [this]
    have hd : es.drop i = es[i] :: es.drop (i + 1) := (List.drop_eq_getElem_cons hi)
    rw [hd]
    simp only [List.foldl_cons, pushedHandles, List.length_append, List.length_cons,
      List.length_nil, List.append_assoc, List.cons_append, List.nil_append,
      List.range_succ_eq_map, List.map_cons, List.map_map]
    refine Prod.ext rfl (Prod.ext rfl ?_)
    simp only [Nat.mul_zero, Nat.add_zero]
    congr 2
    apply List.map_congr_left
    intro t _
    simp only [Function.comp]
    omega

end JsonSerializer

theorem pushedHandles_getD :
    ∀ (es : List Nat) (t : Nat) (ht : t < es.length),
      (pushedHandles es).getD (2 * t + 1) none = some es[t] := by
  intro es
  induction es with
  | nil => intro t ht; simp at ht
  | cons e es ih =>
    intro t ht
    cases t with
    | zero => rfl
    | succ t =>
      have ht1 : t < es.length := by simpa using ht
      have h2 : 2 * (t + 1) + 1 = (2 * t + 1) + 1 + 1 := by omega
      rw [h2]
      simp only [pushedHandles, List.getD_cons_succ, List.getElem_cons_succ]
      exact ih t ht1

namespace JsonSerializer

theorem m_Json_append_right (hp : Heap) (hs l : List Ptr) (i : Nat) :
    m_Json ⟨hp, hs ++ l⟩ (hs.length + i) = l.getD i none := by
  unfold m_Json
  rw [List.getD_eq_getElem?_getD, List.getD_eq_getElem?_getD,
    List.getElem?_append_right (Nat.le_add_right _ _)]
  simp

theorem m_Json_append_list_left (hp hp1 : Heap) (hs l : List Ptr) {i : Nat}
    (hlt : i < hs.length) : m_Json ⟨hp1, hs ++ l⟩ i = m_Json ⟨hp, hs⟩ i := by
  unfold m_Json
  rw [List.getD_eq_getElem?_getD, List.getD_eq_getElem?_getD]
  simp [hlt, List.getElem?_append_left]

theorem json_is_array_iff (h : Heap) (p : Ptr) :
    json_is_array h p = true ↔ ∃ a rc es, p = some a ∧ h.get a = some ⟨rc, .array es⟩ := by
  cases p with
  | none => simp [json_is_array]
  | some a =>
    simp only [json_is_array]
    cases hg : h.get a with
    | none => simp [hg]
    | some n =>
      obtain ⟨rc, val⟩ := n
      cases val <;> simp [hg]

/-- The result of `GetCollection` when the resolved node is an array, in a
balanced state. -/
theorem GetCollection_array {s : State} (hb : s.Balanced) {self a rc : Nat} {es : List Nat}
    {key : String} (vec : List Nat) (hr : resolveArray s self key = some a)
    (hg : s.heap.get a = some ⟨rc, .array es⟩) :
    GetCollection s self key vec
      = (true,
         State.mk (es.foldl (fun h e => json_incref h (some e)) s.heap)
           (s.handles ++ pushedHandles es),
         vec ++ (List.range es.length).map (fun t => s.handles.length + 2 * t + 1)) := by
  have harr : json_is_array s.heap (some a) = true :=
    (json_is_array_iff _ _).2 ⟨a, rc, es, rfl, hg⟩
  have hsz : json_array_size s.heap (some a) = es.length := by
    simp only [json_array_size, hg]
  have hloop := GetCollection_loop_eq es.length 0 s vec hb ⟨rc, hg⟩ (Nat.zero_add _)
  rw [List.drop_zero] at hloop
  have hnil : es.length = 0 →
      (true, s, vec) = (true,
         State.mk (es.foldl (fun h e => json_incref h (some e)) s.heap)
           (s.handles ++ pushedHandles es),
         vec ++ (List.range es.length).map (fun t => s.handles.length + 2 * t + 1)) := by
    intro h0
    have : es = [] := List.length_eq_zero.1 h0
    subst this
    simp [pushedHandles]
  unfold resolveArray at hr
  unfold GetCollection
  cases hm : m_Json s self with
  | none =>
    rw [hm] at hr
    by_cases hk : key.isEmpty = true
    · simp [hk] at hr
    · simp [hk, json_object_get] at hr
  | some o =>
    rw [hm] at hr
    simp only [Option.isSome_some, if_true]
    by_cases hk : key.isEmpty = true
    · simp only [hk, if_true] at hr ⊢
      cases hr
      simp only [harr, hsz, Bool.not_true, Bool.false_eq_true, if_false]
      by_cases h0 : es.length = 0
      · rw [if_pos h0]
        exact hnil h0
      · rw [if_neg h0]
        exact hloop
    · have hk1 : key.isEmpty = false := by simpa using hk
      simp only [hk1, Bool.false_eq_true, if_false] at hr ⊢
      obtain ⟨o1, rco, ms, ho1, hgo, _⟩ := (json_object_get_iff _ _ _ _).1 hr
      cases ho1
      have hobj : json_is_object s.heap (some o) = true :=
        (json_is_object_iff _ _).2 ⟨o, rco, ms, rfl, hgo⟩
      simp only [hobj, hr, Bool.not_true, Bool.false_eq_true, if_false, Option.isNone_some,
        harr, hsz]
      by_cases h0 : es.length = 0
      · rw [if_pos h0]
        exact hnil h0
      · rw [if_neg h0]
        exact hloop

end JsonSerializer

/-! ## PutCollection -/

theorem json_incref_get (h : Heap) (e x : Nat) :
    (json_incref h (some e)).get x
      = (h.get x).map fun n => ⟨n.refcount + (if x = e then 1 else 0), n.value⟩ := by
  cases hg : h.get e with
  | none =>
    have h0 : json_incref h (some e) = h := by simp only [json_incref, hg]
    rw [h0]
    by_cases hx : x = e
    · subst hx
      rw [hg]
      rfl
    · simp only [hx, if_false, Nat.add_zero]
      cases h.get x <;> rfl
  | some n =>
    rw [json_incref_of_get hg]
    by_cases hx : x = e
    · subst hx
      unfold Heap.put
      rw [Heap.get_set_eq _ (Heap.get_lt hg), hg]
      simp
    · unfold Heap.put
      rw [Heap.get_set_ne _ (Ne.symm hx)]
      simp only [hx, if_false, Nat.add_zero]
      cases h.get x <;> rfl

theorem json_incref_length (h : Heap) (p : Ptr) : (json_incref h p).length = h.length :=
  (json_incref_shrunk h p).1

/-- Releasing a list of references, each to a node whose count exceeds the
number of its occurrences in the list, only lowers counts. -/
theorem release_undo :
    ∀ (p : List Nat) (fuel : Nat) (h : Heap),
      (∀ e, e ∈ p → ∃ n, h.get e = some n ∧ p.count e < n.refcount) → p.length ≤ fuel →
      (release fuel h p).length = h.length ∧
      ∀ x, (release fuel h p).get x
        = (h.get x).map fun n => ⟨n.refcount - p.count x, n.value⟩ := by
  intro p
  induction p with
  | nil =>
    intro fuel h _ _
    rw [JsonSerializer.release_nil]
    refine ⟨rfl, fun x => ?_⟩
    cases h.get x <;> rfl
  | cons e p ih =>
    intro fuel h hp hf
    cases fuel with
    | zero => simp at hf
    | succ f =>
      obtain ⟨n, hg, hc⟩ := hp e (List.mem_cons_self _ _)
      have hc1 : p.count e + 1 < n.refcount := by simpa using hc
      have hlt := Heap.get_lt hg
      have hnot : ¬ n.refcount ≤ 1 := by omega
      have hstep : release (f + 1) h (e :: p)
          = release f (h.put e { n with refcount := n.refcount - 1 }) p := by
        simp only [release, hg, hnot, if_false]
      rw [hstep]
      have hp1 : ∀ e1, e1 ∈ p → ∃ n1,
          (h.put e { n with refcount := n.refcount - 1 }).get e1 = some n1 ∧
            p.count e1 < n1.refcount := by
        intro e1 he1
        by_cases he : e1 = e
        · subst he
          refine ⟨_, Heap.get_set_eq _ hlt, ?_⟩
          simp only
          omega
        · obtain ⟨n1, hg1, hc2⟩ := hp e1 (List.mem_cons_of_mem _ he1)
          refine ⟨n1, (Heap.get_set_ne _ (Ne.symm he)).trans hg1, ?_⟩
          rw [List.count_cons_of_ne he] at hc2
          exact hc2
      obtain ⟨h1, h2⟩ := ih f _ hp1 (by simpa using hf)
      refine ⟨h1.trans (by simp [Heap.put]), fun x => ?_⟩
      rw [h2 x]
      by_cases hx : x = e
      · subst hx
        unfold Heap.put
        rw [Heap.get_set_eq _ hlt, hg]
        simp only [Option.map_some', List.count_cons_self]
        congr 2
        omega
      · unfold Heap.put
        rw [Heap.get_set_ne _ (Ne.symm hx), List.count_cons_of_ne hx]

theorem weight_ge_cell {h : Heap} {a : Nat} {n : json_t} (hg : h.get a = some n) :
    n.refcount + 1 + n.value.children.length ≤ h.weight := by
  have := weight_set hg none
  simp only at this
  omega

theorem json_decref_array_undo {H B : Heap} {arr : Nat} {nodes : List Nat}
    (hinv : H.arrayOver B arr nodes)
    (hn : ∀ e, e ∈ nodes → e ≠ arr ∧ ∃ n, B.get e = some n ∧ 0 < n.refcount) :
    (json_decref H (some arr)).length = B.length ∧ (json_decref H (some arr)).get arr = none ∧
    ∀ x, x ≠ arr → (json_decref H (some arr)).get x = B.get x := by
  obtain ⟨hlen, harr, hoth⟩ := hinv
  have hlt := Heap.get_lt harr
  have hw := weight_ge_cell harr
  simp only [JsonValue.children] at hw
  have hstep : json_decref H (some arr) = release H.weight (H.free arr) nodes := by
    simp only [json_decref, release, harr, Nat.le_refl, if_true, JsonValue.children,
      List.append_nil]
  rw [hstep]
  have hfree : ∀ x, x ≠ arr → (H.free arr).get x = H.get x := fun x hx =>
    Heap.get_set_ne _ (Ne.symm hx)
  have hp : ∀ e, e ∈ nodes → ∃ n, (H.free arr).get e = some n ∧ nodes.count e < n.refcount := by
    intro e he
    obtain ⟨hne, n, hg, hpos⟩ := hn e he
    refine ⟨⟨n.refcount + nodes.count e, n.value⟩, ?_, ?_⟩
    · rw [hfree e hne, hoth e hne, hg]
      rfl
    · simp only
      omega
  obtain ⟨h1, h2⟩ := release_undo nodes H.weight (H.free arr) hp (by omega)
  refine ⟨?_, ?_, fun x hx => ?_⟩
  · rw [h1]
    simpa [Heap.free] using hlen
  · rw [h2 arr]
    unfold Heap.free
    rw [Heap.get_set_eq _ hlt]
    rfl
  · rw [h2 x, hfree x hx, hoth x hx]
    cases B.get x with
    | none => rfl
    | some n => simp

namespace JsonSerializer

theorem PutCollection_loop_spec (s : State) (B : Heap) (arr : Nat)
    (hB : ∀ c e, m_Json s c = some e → e ≠ arr ∧ ∃ n, B.get e = some n ∧ 0 < n.refcount) :
    ∀ (coll : List Nat) (H : Heap) (nodes : List Nat),
      H.arrayOver B arr nodes →
      (∀ e, e ∈ nodes → e ≠ arr ∧ ∃ n, B.get e = some n ∧ 0 < n.refcount) →
      ((∀ c, c ∈ coll → (m_Json s c).isSome = true) →
        (PutCollection.loop s (some arr) coll H).2 = true ∧
        (PutCollection.loop s (some arr) coll H).1.arrayOver B arr
          (nodes ++ coll.map fun c => (m_Json s c).getD 0)) ∧
      ((∃ c, c ∈ coll ∧ m_Json s c = none) →
        (PutCollection.loop s (some arr) coll H).2 = false ∧
        (PutCollection.loop s (some arr) coll H).1.length = B.length ∧
        (PutCollection.loop s (some arr) coll H).1.get arr = none ∧
        ∀ x, x ≠ arr → (PutCollection.loop s (some arr) coll H).1.get x = B.get x) := by
  intro coll
  induction coll with
  | nil =>
    intro H nodes hinv _
    refine ⟨fun _ => ?_, fun hex => ?_⟩
    · simpa [PutCollection.loop] using hinv
    · obtain ⟨c, hc, _⟩ := hex
      cases hc
  | cons c rest ih =>
    intro H nodes hinv hn
    cases hm : m_Json s c with
    | none =>
      have hloop : PutCollection.loop s (some arr) (c :: rest) H
          = (json_decref H (some arr), false) := by
        simp [PutCollection.loop, hm, json_array_append, json_incref, json_array_append_new]
      rw [hloop]
      refine ⟨fun hall => ?_, fun _ => ?_⟩
      · have := hall c (List.mem_cons_self _ _)
        rw [hm] at this
        cases this
      · exact ⟨rfl, json_decref_array_undo hinv hn⟩
    | some e =>
      obtain ⟨hne, n, hgB, hpos⟩ := hB c e hm
      obtain ⟨hlen, harr, hoth⟩ := hinv
      have harr1 : (json_incref H (some e)).get arr = some ⟨1, .array nodes⟩ := by
        rw [json_incref_get, harr]
        simp [Ne.symm hne]
      have hstep : json_array_append H (some arr) (some e)
          = ((json_incref H (some e)).put arr ⟨1, .array (nodes ++ [e])⟩, 0) := by
        simp only [json_array_append, json_array_append_new, harr1, Ne.symm hne, if_false]
      have hloop : PutCollection.loop s (some arr) (c :: rest) H
          = PutCollection.loop s (some arr) rest
              ((json_incref H (some e)).put arr ⟨1, .array (nodes ++ [e])⟩) := by
        simp [PutCollection.loop, hm, hstep]
      have hinv1 : ((json_incref H (some e)).put arr ⟨1, .array (nodes ++ [e])⟩).arrayOver
          B arr (nodes ++ [e]) := by
        have hlt1 : arr < (json_incref H (some e)).length := Heap.get_lt harr1
        refine ⟨?_, Heap.get_set_eq _ hlt1, fun x hx => ?_⟩
        · simp only [Heap.put, List.length_set]
          exact (json_incref_length _ _).trans hlen
        · unfold Heap.put
          rw [Heap.get_set_ne _ (Ne.symm hx), json_incref_get, hoth x hx]
          cases B.get x with
          | none => rfl
          | some m =>
            by_cases hxe : x = e
            · simp [hxe, List.count_append, Nat.add_assoc]
            · simp [hxe, List.count_append, List.count_cons_of_ne hxe]
      have hn1 : ∀ e1, e1 ∈ nodes ++ [e] → e1 ≠ arr ∧ ∃ n, B.get e1 = some n ∧ 0 < n.refcount := by
        intro e1 he1
        rcases List.mem_append.1 he1 with h1 | h1
        · exact hn e1 h1
        · have : e1 = e := by simpa using h1
          subst this
          exact ⟨hne, n, hgB, hpos⟩
      obtain ⟨ih1, ih2⟩ := ih _ (nodes ++ [e]) hinv1 hn1
      rw [hloop]
      refine ⟨fun hall => ?_, fun hex => ?_⟩
      · have := ih1 (fun c1 hc1 => hall c1 (List.mem_cons_of_mem _ hc1))
        simpa [hm] using this
      · obtain ⟨c1, hc1, hnone⟩ := hex
        rcases List.mem_cons.1 hc1 with h1 | h1
        · subst h1
          rw [hm] at hnone
          cases hnone
        · exact ih2 ⟨c1, h1, hnone⟩

end JsonSerializer

namespace JsonSerializer

theorem alloc_array_over (h : Heap) :
    (h.alloc (.array [])).1.arrayOver (h.alloc (.array [])).1 (h.alloc (.array [])).2 [] := by
  refine ⟨rfl, Heap.get_append_length h _, fun x _ => ?_⟩
  cases Heap.get (h.alloc (.array [])).1 x <;> rfl

theorem handles_below_alloc {s : State} (hb : s.Balanced) (v : JsonValue) :
    ∀ c e, m_Json s c = some e →
      e ≠ (s.heap.alloc v).2 ∧ ∃ n, (s.heap.alloc v).1.get e = some n ∧ 0 < n.refcount := by
  intro c e hm
  obtain ⟨n, hg⟩ := Option.isSome_iff_exists.1 (Balanced.live_of_m_Json hb hm)
  have hlt := Heap.get_lt hg
  refine ⟨Nat.ne_of_lt hlt, n, ?_, hb.2 e n hg⟩
  exact (Heap.get_append_left _ hlt).trans hg

theorem get_alloc_old (h : Heap) (v : JsonValue) {x : Nat} (hx : x ≠ (h.alloc v).2) :
    (h.alloc v).1.get x = h.get x := by
  have hx1 : x ≠ h.length := hx
  rcases Nat.lt_or_gt_of_ne hx1 with hlt | hgt
  · exact Heap.get_append_left _ hlt
  · rw [Heap.get_of_le (Nat.le_of_lt hgt)]
    apply Heap.get_of_le
    simp only [Heap.alloc, List.length_append, List.length_singleton]
    omega

/-- A `PutCollection` whose receiver holds an object fails when some handle of
the sequence is empty, and then every heap cell reads as before. -/
theorem PutCollection_append_fails {s : State} (hb : s.Balanced) {self o rc : Nat}
    {ms : List (String × Nat)} (hm : m_Json s self = some o)
    (hg : s.heap.get o = some ⟨rc, .object ms⟩) (key : String) {coll : List Nat}
    (hex : ∃ c, c ∈ coll ∧ m_Json s c = none) :
    (PutCollection s self key coll).1 = false ∧
    (PutCollection s self key coll).2.handles = s.handles ∧
    (PutCollection s self key coll).2.heap.length = s.heap.length + 1 ∧
    ∀ x, (PutCollection s self key coll).2.heap.get x = s.heap.get x := by
  have hobj : json_is_object s.heap (some o) = true :=
    (json_is_object_iff _ _).2 ⟨o, rc, ms, rfl, hg⟩
  obtain ⟨l1, l2, l3, l4⟩ := (PutCollection_loop_spec s _ _ (handles_below_alloc hb (.array []))
    coll _ [] (alloc_array_over s.heap) (fun e he => by cases he)).2 hex
  have heq : PutCollection s self key coll
      = (false, State.mk (PutCollection.loop s (some (s.heap.alloc (.array [])).2) coll
          (s.heap.alloc (.array [])).1).1 s.handles) := by
    simp [PutCollection, hm, hobj, l1]
  rw [heq]
  refine ⟨rfl, rfl, ?_, fun x => ?_⟩
  · simp only
    rw [l2]
    simp [Heap.alloc]
  · simp only
    by_cases hx : x = (s.heap.alloc (.array [])).2
    · rw [hx, l3]
      exact (Heap.get_of_le (Nat.le_refl _)).symm
    · rw [l4 x hx]
      exact get_alloc_old _ _ hx

/-- A `PutCollection` whose receiver holds an object succeeds when every handle
of the sequence holds a node; the new array, at the first free address, holds
the nodes of the handles in order and is the receiver's member under the key. -/
theorem PutCollection_ok {s : State} (hb : s.Balanced) {self o rc : Nat}
    {ms : List (String × Nat)} (hm : m_Json s self = some o)
    (hg : s.heap.get o = some ⟨rc, .object ms⟩) (key : String) {coll : List Nat}
    (hall : ∀ c, c ∈ coll → (m_Json s c).isSome = true) :
    (PutCollection s self key coll).1 = true ∧
    (PutCollection s self key coll).2.handles = s.handles ∧
    (PutCollection s self key coll).2.Balanced ∧
    (∃ rc1, (PutCollection s self key coll).2.heap.get o
      = some ⟨rc1, .object (setMember ms key s.heap.length)⟩) ∧
    (∃ rc2, (PutCollection s self key coll).2.heap.get s.heap.length
      = some ⟨rc2, .array (coll.map fun c => (m_Json s c).getD 0)⟩) := by
  have hobj : json_is_object s.heap (some o) = true :=
    (json_is_object_iff _ _).2 ⟨o, rc, ms, rfl, hg⟩
  have hlt := Heap.get_lt hg
  have hne : o ≠ (s.heap.alloc (.array [])).2 := Nat.ne_of_lt hlt
  obtain ⟨l1, l2, l3, l4⟩ := (PutCollection_loop_spec s _ _ (handles_below_alloc hb (.array []))
    coll _ [] (alloc_array_over s.heap) (fun e he => by cases he)).1 hall
  rw [List.nil_append] at l3 l4
  have h0 : BalancedExt (s.heap.alloc (.array [])).1 s.handles
      [(s.heap.alloc (.array [])).2] := BalancedExt.alloc_leaf hb rfl
  have hbl := PutCollection_loop_balanced s _ coll _ h0
  rw [l1] at hbl
  simp only [if_true] at hbl
  have hgo : (PutCollection.loop s (some (s.heap.alloc (.array [])).2) coll
      (s.heap.alloc (.array [])).1).1.get o
      = some ⟨rc + (coll.map fun c => (m_Json s c).getD 0).count o, .object ms⟩ := by
    rw [l4 o hne, get_alloc_old _ _ hne, hg]
    rfl
  obtain ⟨r1, r2, _, r4, r5⟩ := object_set_new_spec hbl hgo (m_Json_mem hm) hne key
  have heq : PutCollection s self key coll
      = (true, State.mk (json_object_set_new (PutCollection.loop s
          (some (s.heap.alloc (.array [])).2) coll (s.heap.alloc (.array [])).1).1
          (some o) key (some (s.heap.alloc (.array [])).2)).1 s.handles) := by
    simp [PutCollection, hm, hobj, l1, r1]
  rw [heq]
  refine ⟨rfl, rfl, r2, r4, ?_⟩
  obtain ⟨n1, n, hn1, hn, hv⟩ := r5
  rw [l3] at hn
  cases hn
  obtain ⟨rc2, v2⟩ := n1
  simp only at hv
  subst hv
  exact ⟨rc2, hn1⟩

end JsonSerializer

namespace JsonSerializer

theorem m_Json_of_handles {s t : State} (hh : t.handles = s.handles) (i : Nat) :
    m_Json t i = m_Json s i := by
  unfold m_Json
  rw [hh]

theorem json_object_get_of_get {h1 h : Heap} (hx : ∀ x, h1.get x = h.get x) (p : Ptr)
    (key : String) : json_object_get h1 p key = json_object_get h p key := by
  cases p with
  | none => rfl
  | some o => simp only [json_object_get, hx o]

/-- The guard of `PutCollection`. -/
theorem PutCollection_not_object (s : State) (self : Nat) (key : String) (coll : List Nat)
    (hno : json_is_object s.heap (m_Json s self) = false) :
    PutCollection s self key coll = (false, s) := by
  simp [PutCollection, hno]

/-- The round trip of `PutCollection` and `GetCollection` under a non-empty key. -/
theorem PutCollection_GetCollection {s : State} (hb : s.Balanced) {self : Nat} {key : String}
    {coll : List Nat} (hobj : json_is_object s.heap (m_Json s self) = true)
    (hk : key.isEmpty = false) (hall : ∀ c, c ∈ coll → (m_Json s c).isSome = true) :
    (PutCollection s self key coll).1 = true ∧
    (PutCollection s self key coll).2.handles = s.handles ∧
    (∃ rc, s.heap.get s.heap.length = none ∧
      json_object_get (PutCollection s self key coll).2.heap
        (m_Json (PutCollection s self key coll).2 self) key = some s.heap.length ∧
      (PutCollection s self key coll).2.heap.get s.heap.length
        = some ⟨rc, .array (coll.map fun c => (m_Json s c).getD 0)⟩) ∧
    GetCollection (PutCollection s self key coll).2 self key []
      = (true,
         State.mk ((coll.map fun c => (m_Json s c).getD 0).foldl
             (fun h e => json_incref h (some e)) (PutCollection s self key coll).2.heap)
           (s.handles ++ pushedHandles (coll.map fun c => (m_Json s c).getD 0)),
         (List.range coll.length).map (fun t => s.handles.length + 2 * t + 1)) := by
  obtain ⟨o, rc, ms, hm, hg⟩ := (json_is_object_iff _ _).1 hobj
  obtain ⟨p1, p2, p3, ⟨rc1, p4⟩, ⟨rc2, p5⟩⟩ := PutCollection_ok hb hm hg key hall
  have hm1 : m_Json (PutCollection s self key coll).2 self = some o :=
    (m_Json_of_handles p2 self).trans hm
  have hget : json_object_get (PutCollection s self key coll).2.heap
      (m_Json (PutCollection s self key coll).2 self) key = some s.heap.length := by
    rw [hm1]
    exact (json_object_get_iff _ _ _ _).2 ⟨o, rc1, _, rfl, p4, lookup_setMember_self ms key _⟩
  have hr : resolveArray (PutCollection s self key coll).2 self key = some s.heap.length := by
    simp only [resolveArray, hk, Bool.false_eq_true, if_false]
    exact hget
  refine ⟨p1, p2, ⟨rc2, Heap.get_of_le (Nat.le_refl _), hget, p5⟩, ?_⟩
  have := GetCollection_array p3 [] hr p5
  rw [this, p2]
  simp

end JsonSerializer

/-! ## PutStringCollection -/

namespace JsonSerializer

/-- The loop of `PutStringCollection` never fails when its array is an array
of the heap: it allocates one string node per string, at the next free
addresses, appends them in order, and leaves every other cell alone. -/
theorem PutStringCollection_loop_spec (arr rc : Nat) :
    ∀ (xs : List String) (h : Heap) (pre : List Nat),
      h.get arr = some ⟨rc, .array pre⟩ →
      (PutStringCollection.loop (some arr) xs h).2 = true ∧
      (PutStringCollection.loop (some arr) xs h).1.length = h.length + xs.length ∧
      (PutStringCollection.loop (some arr) xs h).1.get arr
        = some ⟨rc, .array (pre ++ (List.range xs.length).map fun t => h.length + t)⟩ ∧
      (∀ t (ht : t < xs.length),
        (PutStringCollection.loop (some arr) xs h).1.get (h.length + t)
          = some ⟨1, .string xs[t]⟩) ∧
      (∀ x, x < h.length → x ≠ arr →
        (PutStringCollection.loop (some arr) xs h).1.get x = h.get x) := by
  intro xs
  induction xs with
  | nil =>
    intro h pre hg
    refine ⟨rfl, rfl, ?_, fun t ht => ?_, fun x _ _ => rfl⟩
    · simpa [PutStringCollection.loop] using hg
    · simp at ht
  | cons x rest ih =>
    intro h pre hg
    have hlt := Heap.get_lt hg
    have hne : arr ≠ h.length := Nat.ne_of_lt hlt
    have hg1 : (h.alloc (.string x)).1.get arr = some ⟨rc, .array pre⟩ :=
      (Heap.get_append_left _ hlt).trans hg
    have hstep : json_array_append_new (h.alloc (.string x)).1 (some arr)
        (some (h.alloc (.string x)).2)
        = ((h.alloc (.string x)).1.put arr ⟨rc, .array (pre ++ [h.length])⟩, 0) := by
      have hne1 : ¬ arr = (h.alloc (.string x)).2 := hne
      simp only [json_array_append_new, hg1, hne1, if_false]
      rfl
    have hloop : PutStringCollection.loop (some arr) (x :: rest) h
        = PutStringCollection.loop (some arr) rest
            ((h.alloc (.string x)).1.put arr ⟨rc, .array (pre ++ [h.length])⟩) := by
      simp [PutStringCollection.loop, hstep]
    have hlen1 : ((h.alloc (.string x)).1.put arr ⟨rc, .array (pre ++ [h.length])⟩).length
        = h.length + 1 := by
      simp [Heap.put, Heap.alloc]
    have hlt1 : arr < (h.alloc (.string x)).1.length := by
      simp only [Heap.alloc, List.length_append, List.length_singleton]
      omega
    have hg2 : ((h.alloc (.string x)).1.put arr ⟨rc, .array (pre ++ [h.length])⟩).get arr
        = some ⟨rc, .array (pre ++ [h.length])⟩ := Heap.get_set_eq _ hlt1
    obtain ⟨i1, i2, i3, i4, i5⟩ := ih _ (pre ++ [h.length]) hg2
    rw [hloop]
    rw [hlen1] at i2 i3 i4 i5
    refine ⟨i1, ?_, ?_, fun t ht => ?_, fun y hy hya => ?_⟩
    · rw [i2]
      simp only [List.length_cons]
      omega
    · rw [i3]
      congr 2
      simp only [List.length_cons, List.range_succ_eq_map, List.map_cons, List.map_map,
        Nat.add_zero, List.append_assoc, List.singleton_append]
      congr 3
      apply List.map_congr_left
      intro t _
      simp only [Function.comp]
      omega
    · cases t with
      | zero =>
        have h0 := i5 h.length (by omega) (Ne.symm hne)
        rw [Nat.add_zero, h0]
        unfold Heap.put
        rw [Heap.get_set_ne _ hne]
        exact Heap.get_append_length h _
      | succ t =>
        have ht1 : t < rest.length := by simpa using ht
        have h1 := i4 t ht1
        have h2 : h.length + (t + 1) = h.length + 1 + t := by omega
        rw [h2, h1]
        rfl
    · rw [i5 y (by omega) hya]
      unfold Heap.put
      rw [Heap.get_set_ne _ (Ne.symm hya)]
      exact Heap.get_append_left _ hy

end JsonSerializer

theorem map_range_get {β : Type} (f : Nat → Option β) (b : Nat) (xs : List β)
    (hf : ∀ t (ht : t < xs.length), f (b + t) = some xs[t]) :
    ((List.range xs.length).map fun t => b + t).map f = xs.map some := by
  apply List.ext_getElem
  · simp
  · intro n h1 h2
    simp only [List.getElem_map, List.getElem_range]
    exact hf n (by simpa using h2)

theorem json_string_value_of {h : Heap} {e : Nat} {n : json_t} {x : String}
    (hg : h.get e = some n) (hv : n.value = .string x) :
    json_string_value h (some e) = some x := by
  obtain ⟨rc, v⟩ := n
  simp only at hv
  subst hv
  simp only [json_string_value, hg]

namespace JsonSerializer

/-- The guards of `PutStringCollection`. -/
theorem PutStringCollection_guards (s : State) (self : Nat) (key : String)
    (collection : List String) (limit : Int) :
    ((m_Json s self).isSome = true → key.isEmpty = true →
      PutStringCollection s self key collection limit = (false, s)) ∧
    (m_Json s self = none → key.isEmpty = false →
      PutStringCollection s self key collection limit = (false, s)) ∧
    (json_is_object s.heap (m_Json s self) = false → key.isEmpty = false →
      PutStringCollection s self key collection limit = (false, s)) := by
  refine ⟨fun h1 h2 => ?_, fun h1 h2 => ?_, fun h1 h2 => ?_⟩
  · simp [PutStringCollection, h1, h2]
  · simp [PutStringCollection, h1, h2]
  · cases hm : m_Json s self with
    | none => simp [PutStringCollection, hm, h2]
    | some o =>
      rw [hm] at h1
      simp [PutStringCollection, hm, h2, h1]

/-- The special case of `PutStringCollection`: an existing empty handle and the
empty key.  The new array, at the first free address, becomes the root. -/
theorem PutStringCollection_root {s : State} {self : Nat} {key : String}
    (collection : List String) (limit : Int) (hlt : self < s.handles.length)
    (hm : m_Json s self = none) (hk : key.isEmpty = true) :
    (PutStringCollection s self key collection limit).1 = true ∧
    m_Json (PutStringCollection s self key collection limit).2 self = some s.heap.length ∧
    (∀ j, j ≠ self →
      m_Json (PutStringCollection s self key collection limit).2 j = m_Json s j) ∧
    (∀ x, x < s.heap.length →
      (PutStringCollection s self key collection limit).2.heap.get x = s.heap.get x) ∧
    ∃ es, (PutStringCollection s self key collection limit).2.heap.get s.heap.length
        = some ⟨1, .array es⟩ ∧
      es.map (fun e => json_string_value
          (PutStringCollection s self key collection limit).2.heap (some e))
        = (collection.take (PutStringCollection.sz collection limit)).map some := by
  have hg0 : (s.heap.alloc (.array [])).1.get (s.heap.alloc (.array [])).2
      = some ⟨1, .array []⟩ := Heap.get_append_length s.heap _
  obtain ⟨l1, l2, l3, l4, l5⟩ := PutStringCollection_loop_spec _ 1
    (collection.take (PutStringCollection.sz collection limit)) _ [] hg0
  have heq : PutStringCollection s self key collection limit
      = (true, set_m_Json (State.mk (PutStringCollection.loop (some (s.heap.alloc (.array [])).2)
          (collection.take (PutStringCollection.sz collection limit))
          (s.heap.alloc (.array [])).1).1 s.handles) self (some (s.heap.alloc (.array [])).2)) := by
    have hm1 := m_Json_set_mk (PutStringCollection.loop (some (s.heap.alloc (.array [])).2)
          (collection.take (PutStringCollection.sz collection limit))
          (s.heap.alloc (.array [])).1).1 s.handles self (some (s.heap.alloc (.array [])).2) hlt
    unfold PutStringCollection.sz at l1 hm1 ⊢
    simp [PutStringCollection, hm, hk, l1, hm1]
  rw [heq]
  have hlen : (s.heap.alloc (.array [])).1.length = s.heap.length + 1 := by
    simp [Heap.alloc]
  refine ⟨rfl, m_Json_set_mk _ _ _ _ hlt, fun j hj => ?_, fun x hx => ?_, _, l3, ?_⟩
  · exact m_Json_set_ne _ (Ne.symm hj)
  · show Heap.get (PutStringCollection.loop _ _ _).1 x = _
    rw [l5 x (by omega) (Nat.ne_of_lt hx)]
    exact Heap.get_append_left _ hx
  · rw [List.nil_append]
    exact map_range_get _ _ _ (fun t ht => json_string_value_of (l4 t ht) rfl)

/-- The general case of `PutStringCollection`: a handle holding an object and
a non-empty key.  The new array, at the first free address, becomes the member
under the key. -/
theorem PutStringCollection_member {s : State} (hb : s.Balanced) {self o rc : Nat}
    {ms : List (String × Nat)} {key : String} (collection : List String) (limit : Int)
    (hm : m_Json s self = some o) (hg : s.heap.get o = some ⟨rc, .object ms⟩)
    (hk : key.isEmpty = false) :
    (PutStringCollection s self key collection limit).1 = true ∧
    (PutStringCollection s self key collection limit).2.handles = s.handles ∧
    (PutStringCollection s self key collection limit).2.Balanced ∧
    (∃ rc1, (PutStringCollection s self key collection limit).2.heap.get o
      = some ⟨rc1, .object (setMember ms key s.heap.length)⟩) ∧
    ∃ rc2 es, (PutStringCollection s self key collection limit).2.heap.get s.heap.length
        = some ⟨rc2, .array es⟩ ∧
      es.map (fun e => json_string_value
          (PutStringCollection s self key collection limit).2.heap (some e))
        = (collection.take (PutStringCollection.sz collection limit)).map some := by
  have hobj : json_is_object s.heap (some o) = true :=
    (json_is_object_iff _ _).2 ⟨o, rc, ms, rfl, hg⟩
  have hlto := Heap.get_lt hg
  have hne : o ≠ (s.heap.alloc (.array [])).2 := Nat.ne_of_lt hlto
  have hlen : (s.heap.alloc (.array [])).1.length = s.heap.length + 1 := by
    simp [Heap.alloc]
  have hg0 : (s.heap.alloc (.array [])).1.get (s.heap.alloc (.array [])).2
      = some ⟨1, .array []⟩ := Heap.get_append_length s.heap _
  obtain ⟨l1, l2, l3, l4, l5⟩ := PutStringCollection_loop_spec _ 1
    (collection.take (PutStringCollection.sz collection limit)) _ [] hg0
  rw [List.nil_append] at l3
  have h0 : BalancedExt (s.heap.alloc (.array [])).1 s.handles
      [(s.heap.alloc (.array [])).2] := BalancedExt.alloc_leaf hb rfl
  have hbl := PutStringCollection_loop_balanced s.handles _
    (collection.take (PutStringCollection.sz collection limit)) _ h0
  rw [l1] at hbl
  simp only [if_true] at hbl
  have hgo : (PutStringCollection.loop (some (s.heap.alloc (.array [])).2)
      (collection.take (PutStringCollection.sz collection limit))
      (s.heap.alloc (.array [])).1).1.get o = some ⟨rc, .object ms⟩ := by
    rw [l5 o (by omega) hne]
    exact (Heap.get_append_left _ hlto).trans hg
  obtain ⟨r1, r2, r3, r4, r5⟩ := object_set_new_spec hbl hgo (m_Json_mem hm) hne key
  have heq : PutStringCollection s self key collection limit
      = (true, State.mk (json_object_set_new (PutStringCollection.loop
          (some (s.heap.alloc (.array [])).2)
          (collection.take (PutStringCollection.sz collection limit))
          (s.heap.alloc (.array [])).1).1
          (some o) key (some (s.heap.alloc (.array [])).2)).1 s.handles) := by
    unfold PutStringCollection.sz at l1 r1 ⊢
    simp [PutStringCollection, hm, hk, hobj, l1, r1]
  rw [heq]
  refine ⟨rfl, rfl, r2, r4, ?_⟩
  obtain ⟨n1, n, hn1, hn, hv⟩ := r5
  rw [l3] at hn
  cases hn
  obtain ⟨rc2, v2⟩ := n1
  simp only at hv
  subst hv
  refine ⟨rc2, _, hn1, ?_⟩
  apply map_range_get
  intro t ht
  have hmem : (s.heap.alloc (.array [])).1.length + t ∈
      (JsonValue.array ((List.range (collection.take
        (PutStringCollection.sz collection limit)).length).map
          fun t => (s.heap.alloc (.array [])).1.length + t)).children := by
    simp only [JsonValue.children, List.mem_map, List.mem_range]
    exact ⟨t, ht, rfl⟩
  have hlive := BalancedExt.live_of_slot r2 hn1 hmem
  obtain ⟨m, hgm⟩ := Option.isSome_iff_exists.1 hlive
  obtain ⟨m0, hg0m, hvm⟩ := r3.2 _ m hgm
  have hneo : o ≠ (s.heap.alloc (.array [])).1.length + t := by omega
  unfold Heap.put at hg0m
  rw [Heap.get_set_ne _ hneo, l4 t ht] at hg0m
  cases hg0m
  exact json_string_value_of hgm hvm.symm

end JsonSerializer

namespace JsonSerializer

/-- The count `sz` of `PutStringCollection`: the limit when it lies between 0
and the size of the set, the size of the set otherwise. -/
theorem PutStringCollection_sz_cases (collection : List String) (limit : Int) :
    (0 ≤ limit → limit ≤ (collection.length : Int) →
      PutStringCollection.sz collection limit = limit.toNat) ∧
    (limit < 0 ∨ (collection.length : Int) < limit →
      PutStringCollection.sz collection limit = collection.length) := by
  unfold PutStringCollection.sz DEFAULT_LIMIT_GET_COLLECTION
  refine ⟨fun h1 h2 => ?_, fun h1 => ?_⟩
  · split
    · rename_i hc
      omega
    · rfl
  · split
    · rfl
    · rename_i hc
      omega

/-- A successful `PutStringCollection` on an existing handle leaves, as the
node the collection accessors resolve for the key, a new array whose elements
are string nodes with the first `sz` strings of the set, in order. -/
theorem PutStringCollection_stored {s : State} (hb : s.Balanced) {self : Nat} {key : String}
    (collection : List String) (limit : Int) (hlt : self < s.handles.length)
    (hok : (PutStringCollection s self key collection limit).1 = true) :
    ∃ rc es, s.heap.get s.heap.length = none ∧
      resolveArray (PutStringCollection s self key collection limit).2 self key
        = some s.heap.length ∧
      (PutStringCollection s self key collection limit).2.heap.get s.heap.length
        = some ⟨rc, .array es⟩ ∧
      es.map (fun e => json_string_value
          (PutStringCollection s self key collection limit).2.heap (some e))
        = (collection.take (PutStringCollection.sz collection limit)).map some := by
  obtain ⟨g1, g2, g3⟩ := PutStringCollection_guards s self key collection limit
  have hnone : s.heap.get s.heap.length = none := Heap.get_of_le (Nat.le_refl _)
  cases hk : key.isEmpty with
  | true =>
    cases hm : m_Json s self with
    | some o =>
      rw [g1 (by rw [hm]; rfl) hk] at hok
      cases hok
    | none =>
      obtain ⟨_, p2, _, _, es, p5, p6⟩ := PutStringCollection_root collection limit hlt hm hk
      refine ⟨1, es, hnone, ?_, p5, p6⟩
      simp only [resolveArray, hk, if_true]
      exact p2
  | false =>
    cases hobj : json_is_object s.heap (m_Json s self) with
    | false =>
      rw [g3 hobj hk] at hok
      cases hok
    | true =>
      obtain ⟨o, rc, ms, hm, hg⟩ := (json_is_object_iff _ _).1 hobj
      obtain ⟨_, p2, _, ⟨rc1, p4⟩, rc2, es, p5, p6⟩ :=
        PutStringCollection_member hb collection limit hm hg hk
      refine ⟨rc2, es, hnone, ?_, p5, p6⟩
      simp only [resolveArray, hk, Bool.false_eq_true, if_false]
      rw [(m_Json_of_handles p2 self).trans hm]
      exact (json_object_get_iff _ _ _ _).2 ⟨o, rc1, _, rfl, p4, lookup_setMember_self ms key _⟩

end JsonSerializer

/-! ## GetStringCollection -/

theorem examinedFrom_end (limit : Int) {i : Nat} {es : List Nat} (hi : es.length ≤ i) :
    examinedFrom limit i es = [] := by
  unfold examinedFrom
  rw [List.drop_eq_nil_of_le hi]
  split <;> simp

theorem examinedFrom_break {limit : Int} {i : Nat} (es : List Nat)
    (hbr : limit ≠ JsonSerializer.DEFAULT_LIMIT_GET_COLLECTION ∧ (i : Int) = limit - 1) :
    examinedFrom limit i es = [] := by
  unfold examinedFrom
  have h1 : limit ≠ JsonSerializer.DEFAULT_LIMIT_GET_COLLECTION ∧ (i : Int) ≤ limit - 1 :=
    ⟨hbr.1, by omega⟩
  rw [if_pos h1]
  have h2 : (limit - 1 - (i : Int)).toNat = 0 := by omega
  rw [h2]
  rfl

theorem examinedFrom_step {limit : Int} {i : Nat} {es : List Nat} (hi : i < es.length)
    (hbr : ¬ (limit ≠ JsonSerializer.DEFAULT_LIMIT_GET_COLLECTION ∧ (i : Int) = limit - 1)) :
    examinedFrom limit i es = es[i] :: examinedFrom limit (i + 1) es := by
  unfold examinedFrom
  rw [List.drop_eq_getElem_cons hi]
  by_cases hc : limit ≠ JsonSerializer.DEFAULT_LIMIT_GET_COLLECTION ∧ (i : Int) ≤ limit - 1
  · have hc1 : limit ≠ JsonSerializer.DEFAULT_LIMIT_GET_COLLECTION ∧
        ((i + 1 : Nat) : Int) ≤ limit - 1 := by
      refine ⟨hc.1, ?_⟩
      have : ¬ (i : Int) = limit - 1 := fun h => hbr ⟨hc.1, h⟩
      omega
    rw [if_pos hc, if_pos hc1]
    have h2 : (limit - 1 - (i : Int)).toNat = (limit - 1 - ((i + 1 : Nat) : Int)).toNat + 1 := by
      omega
    rw [h2, List.take_succ_cons]
  · have hc1 : ¬ (limit ≠ JsonSerializer.DEFAULT_LIMIT_GET_COLLECTION ∧
        ((i + 1 : Nat) : Int) ≤ limit - 1) := by
      intro h
      exact hc ⟨h.1, by omega⟩
    rw [if_neg hc, if_neg hc1]

theorem examinedFrom_nocap {limit : Int} (hl : limit ≤ 0) (es : List Nat) :
    examinedFrom limit 0 es = es := by
  unfold examinedFrom
  have hc : ¬ (limit ≠ JsonSerializer.DEFAULT_LIMIT_GET_COLLECTION ∧ ((0 : Nat) : Int) ≤ limit - 1) := by
    intro h
    omega
  rw [if_neg hc, List.drop_zero]

namespace JsonSerializer

/-- The loop of `GetStringCollection` in closed form: it succeeds when the
elements it goes through are all strings, and has inserted the strings up to
the first element that is not one. -/
theorem GetStringCollection_loop_eq {h : Heap} {a rc : Nat} {es : List Nat}
    (hg : h.get a = some ⟨rc, .array es⟩) (limit : Int) :
    ∀ (n i : Nat) (collection : List String), i + n = es.length →
      GetStringCollection.loop h (some a) limit n i collection
        = ((examinedFrom limit i es).all (fun e => json_is_string h (some e)),
           (((examinedFrom limit i es).takeWhile fun e => json_is_string h (some e)).map
             fun e => (json_string_value h (some e)).getD "").foldl std_set_insert collection) := by
  intro n
  induction n with
  | zero =>
    intro i collection hi
    rw [examinedFrom_end limit (by omega)]
    rfl
  | succ n ih =>
    intro i collection hi
    have hlt : i < es.length := by omega
    by_cases hbr : limit ≠ DEFAULT_LIMIT_GET_COLLECTION ∧ (i : Int) = limit - 1
    · rw [examinedFrom_break es hbr]
      simp only [GetStringCollection.loop, if_pos hbr]
      rfl
    · rw [examinedFrom_step hlt hbr]
      have hget : json_array_get h (some a) i = some es[i] := by
        rw [json_array_get_of hg, List.get?_eq_getElem?, List.getElem?_eq_getElem hlt]
      simp only [GetStringCollection.loop, if_neg hbr, hget, Option.isNone_some,
        Bool.false_eq_true, if_false]
      cases hs : json_is_string h (some es[i]) with
      | true =>
        simp only [if_true, List.all_cons, hs, Bool.true_and, List.takeWhile_cons,
          List.map_cons, List.foldl_cons]
        exact ih (i + 1) _ (by omega)
      | false =>
        simp [hs]

theorem GetStringCollection_array {s : State} {self a rc : Nat} {es : List Nat} {key : String}
    (collection : List String) (limit : Int) (hr : resolveArray s self key = some a)
    (hg : s.heap.get a = some ⟨rc, .array es⟩) :
    GetStringCollection s self key collection limit
      = ((examinedFrom limit 0 es).all (fun e => json_is_string s.heap (some e)),
         (((examinedFrom limit 0 es).takeWhile fun e => json_is_string s.heap (some e)).map
           fun e => (json_string_value s.heap (some e)).getD "").foldl
             std_set_insert collection) := by
  have harr : json_is_array s.heap (some a) = true :=
    (json_is_array_iff _ _).2 ⟨a, rc, es, rfl, hg⟩
  have hsz : json_array_size s.heap (some a) = es.length := by
    simp only [json_array_size, hg]
  have hloop := GetStringCollection_loop_eq hg limit es.length 0 collection (Nat.zero_add _)
  have hnil : es.length = 0 →
      (true, collection) = ((examinedFrom limit 0 es).all (fun e => json_is_string s.heap (some e)),
         (((examinedFrom limit 0 es).takeWhile fun e => json_is_string s.heap (some e)).map
           fun e => (json_string_value s.heap (some e)).getD "").foldl
             std_set_insert collection) := by
    intro h0
    rw [examinedFrom_end limit (by omega)]
    rfl
  unfold resolveArray at hr
  unfold GetStringCollection
  cases hm : m_Json s self with
  | none =>
    rw [hm] at hr
    by_cases hk : key.isEmpty = true
    · simp [hk] at hr
    · simp [hk, json_object_get] at hr
  | some o =>
    rw [hm] at hr
    simp only [Option.isSome_some, if_true]
    by_cases hk : key.isEmpty = true
    · simp only [hk, if_true] at hr ⊢
      cases hr
      simp only [harr, hsz, Bool.not_true, Bool.false_eq_true, if_false]
      by_cases h0 : es.length = 0
      · rw [if_pos h0]
        exact hnil h0
      · rw [if_neg h0]
        exact hloop
    · have hk1 : key.isEmpty = false := by simpa using hk
      simp only [hk1, Bool.false_eq_true, if_false] at hr ⊢
      obtain ⟨o1, rco, ms, ho1, hgo, _⟩ := (json_object_get_iff _ _ _ _).1 hr
      cases ho1
      have hobj : json_is_object s.heap (some o) = true :=
        (json_is_object_iff _ _).2 ⟨o, rco, ms, rfl, hgo⟩
      simp only [hobj, hr, Bool.not_true, Bool.false_eq_true, if_false, Option.isNone_some,
        harr, hsz]
      by_cases h0 : es.length = 0
      · rw [if_pos h0]
        exact hnil h0
      · rw [if_neg h0]
        exact hloop

end JsonSerializer

theorem mem_std_set_insert (l : List String) (x y : String) :
    y ∈ std_set_insert l x ↔ y = x ∨ y ∈ l := by
  induction l with
  | nil => simp [std_set_insert]
  | cons z zs ih =>
    unfold std_set_insert
    split
    · simp
    · split
      · rename_i heq
        subst heq
        simp
      · simp only [List.mem_cons, ih]
        tauto

theorem mem_foldl_std_set_insert (xs : List String) :
    ∀ (l : List String) (y : String),
      y ∈ xs.foldl std_set_insert l ↔ y ∈ l ∨ y ∈ xs := by
  induction xs with
  | nil => intro l y; simp
  | cons x xs ih =>
    intro l y
    rw [List.foldl_cons, ih, mem_std_set_insert, List.mem_cons]
    tauto

theorem std_set_insert_last (l : List String) (x : String) (hl : ∀ y, y ∈ l → y < x) :
    std_set_insert l x = l ++ [x] := by
  induction l with
  | nil => rfl
  | cons z zs ih =>
    have hzx := hl z (List.mem_cons_self _ _)
    have h1 : ¬ x < z := lt_asymm hzx
    have h2 : ¬ x = z := fun h => lt_irrefl z (h ▸ hzx)
    simp only [std_set_insert, h1, h2, if_false, List.cons_append]
    rw [ih (fun y hy => hl y (List.mem_cons_of_mem _ hy))]

/-- Inserting a strictly ascending sequence, in order, into the set of the
strings before it gives the sequence. -/
theorem foldl_std_set_insert_of_sorted (xs : List String) :
    ∀ (acc : List String), (acc ++ xs).Pairwise (fun a b => a < b) →
      xs.foldl std_set_insert acc = acc ++ xs := by
  induction xs with
  | nil => intro acc _; simp
  | cons x xs ih =>
    intro acc hp
    have hlast : std_set_insert acc x = acc ++ [x] := by
      apply std_set_insert_last
      intro y hy
      exact (List.pairwise_append.1 hp).2.2 y hy x (List.mem_cons_self _ _)
    rw [List.foldl_cons, hlast, ih]
    · simp
    · simpa using hp

theorem json_is_string_of_value {h : Heap} {p : Ptr} {x : String}
    (hv : json_string_value h p = some x) : json_is_string h p = true := by
  cases p with
  | none => cases hv
  | some e =>
    simp only [json_string_value] at hv
    simp only [json_is_string]
    split at hv
    · rename_i hg
      simp [hg]
    · cases hv

theorem json_string_value_of_is {h : Heap} {p : Ptr} (hs : json_is_string h p = true) :
    (json_string_value h p).isSome = true := by
  cases p with
  | none => cases hs
  | some e =>
    simp only [json_is_string] at hs
    simp only [json_string_value]
    split at hs
    · rename_i hg
      simp [hg]
    · cases hs

/-- An array whose elements read as the strings `xs` consists of string nodes. -/
theorem strings_of_map {h : Heap} :
    ∀ (es : List Nat) (xs : List String),
      es.map (fun e => json_string_value h (some e)) = xs.map some →
      es.all (fun e => json_is_string h (some e)) = true ∧
      es.map (fun e => (json_string_value h (some e)).getD "") = xs := by
  intro es
  induction es with
  | nil =>
    intro xs hm
    cases xs with
    | nil => exact ⟨rfl, rfl⟩
    | cons x xs => simp at hm
  | cons e es ih =>
    intro xs hm
    cases xs with
    | nil => simp at hm
    | cons x xs =>
      simp only [List.map_cons, List.cons.injEq] at hm
      obtain ⟨i1, i2⟩ := ih xs hm.2
      refine ⟨?_, ?_⟩
      · simp only [List.all_cons, json_is_string_of_value hm.1, i1, Bool.and_self]
      · simp only [List.map_cons, hm.1, Option.getD_some, i2]

theorem takeWhile_of_all {α : Type} (p : α → Bool) :
    ∀ (l : List α), l.all p = true → l.takeWhile p = l := by
  intro l
  induction l with
  | nil => intro _; rfl
  | cons a l ih =>
    intro h
    simp only [List.all_cons, Bool.and_eq_true] at h
    simp only [List.takeWhile_cons, h.1, if_true, ih h.2]

theorem examinedFrom_cap {limit : Int} (hl : 1 ≤ limit) (es : List Nat) :
    examinedFrom limit 0 es = es.take (limit - 1).toNat := by
  unfold examinedFrom
  have hc : limit ≠ JsonSerializer.DEFAULT_LIMIT_GET_COLLECTION ∧ ((0 : Nat) : Int) ≤ limit - 1 := by
    unfold JsonSerializer.DEFAULT_LIMIT_GET_COLLECTION
    constructor <;> omega
  rw [if_pos hc, List.drop_zero]
  simp

theorem std_set_insert_of_mem (l : List String) (x : String)
    (hs : l.Pairwise (fun a b => a < b)) (hx : x ∈ l) : std_set_insert l x = l := by
  induction l with
  | nil => cases hx
  | cons z zs ih =>
    rw [List.pairwise_cons] at hs
    unfold std_set_insert
    rcases List.mem_cons.1 hx with h1 | h1
    · subst h1
      simp
    · have hzx : z < x := hs.1 x h1
      have h2 : ¬ x < z := lt_asymm hzx
      have h3 : ¬ x = z := fun h => lt_irrefl z (h ▸ hzx)
      simp only [h2, h3, if_false]
      rw [ih hs.2 h1]

theorem foldl_std_set_insert_of_mem (xs : List String) :
    ∀ (l : List String), l.Pairwise (fun a b => a < b) → (∀ x, x ∈ xs → x ∈ l) →
      xs.foldl std_set_insert l = l := by
  induction xs with
  | nil => intro l _ _; rfl
  | cons x xs ih =>
    intro l hl hx
    rw [List.foldl_cons, std_set_insert_of_mem l x hl (hx x (List.mem_cons_self _ _))]
    exact ih l hl (fun y hy => hx y (List.mem_cons_of_mem _ hy))

/-! ## The typed PutValue -/

namespace JsonSerializer

/-- Installing a freshly allocated leaf under a key of the object a handle
holds, in a balanced state: `json_object_set_new` succeeds, the object has the
key set to the new node, and the new node holds the leaf. -/
theorem install_leaf {s : State} (hb : s.Balanced) {self o rc : Nat}
    {ms : List (String × Nat)} (hm : m_Json s self = some o)
    (hg : s.heap.get o = some ⟨rc, .object ms⟩) (key : String) (v : JsonValue)
    (hv : v.children = []) :
    (json_object_set_new (s.heap.alloc v).1 (some o) key (some (s.heap.alloc v).2)).2 = 0 ∧
    BalancedExt (json_object_set_new (s.heap.alloc v).1 (some o) key
      (some (s.heap.alloc v).2)).1 s.handles [] ∧
    (∃ rc1, (json_object_set_new (s.heap.alloc v).1 (some o) key
      (some (s.heap.alloc v).2)).1.get o
        = some ⟨rc1, .object (setMember ms key s.heap.length)⟩) ∧
    (∃ rc2, (json_object_set_new (s.heap.alloc v).1 (some o) key
      (some (s.heap.alloc v).2)).1.get s.heap.length = some ⟨rc2, v⟩) := by
  have hlt := Heap.get_lt hg
  have hne : o ≠ (s.heap.alloc v).2 := Nat.ne_of_lt hlt
  have h0 : BalancedExt (s.heap.alloc v).1 s.handles [(s.heap.alloc v).2] :=
    BalancedExt.alloc_leaf hb hv
  have hgo : (s.heap.alloc v).1.get o = some ⟨rc, .object ms⟩ :=
    (Heap.get_append_left _ hlt).trans hg
  obtain ⟨r1, r2, _, r4, n1, n, hn1, hn, hval⟩ :=
    object_set_new_spec h0 hgo (m_Json_mem hm) hne key
  refine ⟨r1, r2, r4, ?_⟩
  have hN : (s.heap.alloc v).1.get (s.heap.alloc v).2 = some ⟨1, v⟩ :=
    Heap.get_append_length s.heap _
  rw [hN] at hn
  cases hn
  obtain ⟨rc2, v2⟩ := n1
  simp only at hval
  subst hval
  exact ⟨rc2, hn1⟩

/-- The typed `PutValue` on a handle that holds an object, in a balanced state:
it returns true, and the key is set to a new node, an integer node with
`ival` when the formatted extraction of a `long long` from the rendered text
succeeds and a string node with the rendered text when it fails. -/
theorem PutValueT_object {s : State} (hb : s.Balanced) {self o rc : Nat}
    {ms : List (String × Nat)} (hm : m_Json s self = some o)
    (hg : s.heap.get o = some ⟨rc, .object ms⟩) (key text : String) (ival : Int) :
    (PutValueT s self key (some text) ival).1 = true ∧
    (PutValueT s self key (some text) ival).2.handles = s.handles ∧
    (∃ rc1, (PutValueT s self key (some text) ival).2.heap.get o
      = some ⟨rc1, .object (setMember ms key s.heap.length)⟩) ∧
    (∃ rc2, (PutValueT s self key (some text) ival).2.heap.get s.heap.length
      = some ⟨rc2, if (extract_long_long text).isSome then .integer ival else .string text⟩) := by
  have hobj : json_is_object s.heap (some o) = true :=
    (json_is_object_iff _ _).2 ⟨o, rc, ms, rfl, hg⟩
  cases hx : (extract_long_long text).isSome with
  | true =>
    obtain ⟨r1, _, r3, r4⟩ := install_leaf hb hm hg key (.integer ival) rfl
    have heq : PutValueT s self key (some text) ival
        = (true, State.mk (json_object_set_new (s.heap.alloc (.integer ival)).1 (some o) key
            (some (s.heap.alloc (.integer ival)).2)).1 s.handles) := by
      simp [PutValueT, hm, hobj, hx, r1]
    rw [heq]
    exact ⟨rfl, rfl, r3, r4⟩
  | false =>
    obtain ⟨r1, _, r3, r4⟩ := install_leaf hb hm hg key (.string text) rfl
    have heq : PutValueT s self key (some text) ival
        = (true, State.mk (json_object_set_new (s.heap.alloc (.string text)).1 (some o) key
            (some (s.heap.alloc (.string text)).2)).1 s.handles) := by
      simp [PutValueT, hm, hobj, hx, r1]
    rw [heq]
    exact ⟨rfl, rfl, r3, r4⟩

end JsonSerializer

theorem isDigit_toNat {c : Char} (h : c.isDigit = true) : 48 ≤ c.toNat ∧ c.toNat ≤ 57 := by
  simp only [Char.isDigit, Bool.and_eq_true, decide_eq_true_eq] at h
  obtain ⟨h1, h2⟩ := h
  have h1a : (48 : UInt32).toNat ≤ c.val.toNat := h1
  have h2a : c.val.toNat ≤ (57 : UInt32).toNat := h2
  exact ⟨h1a, h2a⟩

theorem isspace_of_isDigit {c : Char} (h : c.isDigit = true) : isspace c = false := by
  obtain ⟨h1, h2⟩ := isDigit_toNat h
  have hne : c ≠ ' ' := by
    intro hc
    subst hc
    revert h1
    decide
  simp only [isspace, Bool.or_eq_false_iff, decide_eq_false_iff_not, Bool.and_eq_false_iff]
  refine ⟨hne, Or.inr ?_⟩
  simp
  omega

/-- The formatted extraction of a `long long` accepts every text that is, in
its entirety, a decimal integer literal fitting 64 bits, with its value. -/
theorem extract_long_long_of_literal {text : String} {v : Int}
    (hd : decimalLiteral text = some v) : extract_long_long text = some v := by
  unfold decimalLiteral at hd
  unfold extract_long_long
  simp only at hd ⊢
  generalize text.toList = cs at hd ⊢
  by_cases hminus : cs.head? = some '-'
  · simp only [hminus, if_true] at hd
    obtain ⟨t, rfl⟩ : ∃ t, cs = '-' :: t := by
      cases cs with
      | nil => simp at hminus
      | cons c t =>
        simp only [List.head?_cons, Option.some.injEq] at hminus
        exact ⟨t, by rw [hminus]⟩
    simp only [List.tail_cons] at hd
    have hdrop : List.dropWhile isspace ('-' :: t) = '-' :: t := by
      rw [List.dropWhile_cons_of_neg]
      decide
    rw [hdrop]
    simp only [List.head?_cons, List.tail_cons, Bool.true_or, decide_True, if_true]
    split at hd
    · rename_i hc
      have htake : t.takeWhile Char.isDigit = t :=
        takeWhile_of_all _ _ hc.2
      rw [htake]
      rw [if_neg hc.1]
      exact hd
    · cases hd
  · simp only [hminus, if_false] at hd
    split at hd
    · rename_i hc
      obtain ⟨d, t, rfl⟩ : ∃ d t, cs = d :: t := by
        cases cs with
        | nil => exact absurd rfl hc.1
        | cons d t => exact ⟨d, t, rfl⟩
      have hdig : d.isDigit = true := by
        have := hc.2
        simp only [List.all_cons, Bool.and_eq_true] at this
        exact this.1
      have hdrop : List.dropWhile isspace (d :: t) = d :: t := by
        rw [List.dropWhile_cons_of_neg]
        rw [isspace_of_isDigit hdig]
        decide
      have hplus : ¬ (d :: t).head? = some '+' := by
        intro hp
        simp only [List.head?_cons, Option.some.injEq] at hp
        subst hp
        revert hdig
        decide
      rw [hdrop]
      have htake : (d :: t).takeWhile Char.isDigit = d :: t :=
        takeWhile_of_all _ _ hc.2
      simp only [hminus, hplus, decide_False, Bool.or_self, Bool.false_eq_true, if_false, htake]
      rw [if_neg hc.1]
      exact hd
    · cases hd

/-! ## Formatted input and output of integers -/

theorem digitChar_digit :
    ∀ m, m < 10 → (Nat.digitChar m).isDigit = true ∧ (Nat.digitChar m).toNat = 48 + m := by
  decide

theorem digitsValue_append (l : List Char) (c : Char) :
    digitsValue (l ++ [c]) = 10 * digitsValue l + (c.toNat - 48) := by
  simp [digitsValue, List.foldl_append]

/-- The decimal digits `Nat.toDigitsCore` puts in front of its accumulator:
there is at least one, all are digits, and their value is the number. -/
theorem toDigitsCore_spec :
    ∀ (fuel n : Nat) (ds : List Char), n < fuel →
      ∃ pre, Nat.toDigitsCore 10 fuel n ds = pre ++ ds ∧ pre ≠ [] ∧
        pre.all Char.isDigit = true ∧ digitsValue pre = n := by
  intro fuel
  induction fuel with
  | zero => intro n ds h; omega
  | succ fuel ih =>
    intro n ds hn
    obtain ⟨hd1, hd2⟩ := digitChar_digit (n % 10) (Nat.mod_lt _ (by decide))
    unfold Nat.toDigitsCore
    simp only
    by_cases h0 : n / 10 = 0
    · rw [if_pos h0]
      refine ⟨[Nat.digitChar (n % 10)], rfl, by simp, by simp [hd1], ?_⟩
      simp only [digitsValue, List.foldl_cons, List.foldl_nil, hd2]
      omega
    · rw [if_neg h0]
      have hlt : n / 10 < fuel := by omega
      obtain ⟨pre, h1, h2, h3, h4⟩ := ih (n / 10) (Nat.digitChar (n % 10) :: ds) hlt
      refine ⟨pre ++ [Nat.digitChar (n % 10)], ?_, by simp, ?_, ?_⟩
      · rw [h1]
        simp
      · rw [List.all_append, h3]
        simp [hd1]
      · rw [digitsValue_append, h4, hd2]
        omega

theorem repr_digits (m : Nat) :
    (toString m).toList ≠ [] ∧ (toString m).toList.all Char.isDigit = true ∧
    digitsValue (toString m).toList = m := by
  obtain ⟨pre, h1, h2, h3, h4⟩ := toDigitsCore_spec (m + 1) m [] (Nat.lt_succ_self m)
  rw [List.append_nil] at h1
  have ht : (toString m).toList = pre := by
    show (Nat.repr m).toList = pre
    unfold Nat.repr Nat.toDigits
    rw [h1]
    rfl
  rw [ht]
  exact ⟨h2, h3, h4⟩

theorem head_digit_ne {cs : List Char} (hne : cs ≠ []) (hall : cs.all Char.isDigit = true)
    {c : Char} (hc : c.isDigit = false) : ¬ cs.head? = some c := by
  cases cs with
  | nil => exact absurd rfl hne
  | cons d t =>
    simp only [List.all_cons, Bool.and_eq_true] at hall
    intro h
    simp only [List.head?_cons, Option.some.injEq] at h
    rw [h, hc] at hall
    exact absurd hall.1 (by decide)

/-- The decimal text of a number that fits a signed 64-bit integer is, in its
entirety, a decimal integer literal of that number. -/
theorem decimalLiteral_dump_integer (n : Int) (h1 : -(2 : Int) ^ 63 ≤ n)
    (h2 : n < (2 : Int) ^ 63) : decimalLiteral (dump_integer n) = some n := by
  cases n with
  | ofNat m =>
    obtain ⟨r1, r2, r3⟩ := repr_digits m
    have hm : ¬ (toString m).toList.head? = some '-' := head_digit_ne r1 r2 (by decide)
    have hr : -(2 : Int) ^ 63 ≤ (m : Int) ∧ (m : Int) < (2 : Int) ^ 63 := ⟨h1, h2⟩
    simp only [decimalLiteral, dump_integer, hm, if_false, r1, ne_eq, not_false_eq_true, r2,
      and_self, if_true, r3, hr]
    rfl
  | negSucc m =>
    obtain ⟨r1, r2, r3⟩ := repr_digits (m + 1)
    have hl : ("-" ++ toString (m + 1)).toList = '-' :: (toString (m + 1)).toList := by
      rw [String.toList, String.data_append]
      rfl
    have hr : -(2 : Int) ^ 63 ≤ -((m + 1 : Nat) : Int) ∧ -((m + 1 : Nat) : Int) < (2 : Int) ^ 63 := by
      have e : Int.negSucc m = -((m + 1 : Nat) : Int) := rfl
      rw [e] at h1 h2
      exact ⟨h1, h2⟩
    simp only [decimalLiteral, dump_integer, hl, List.head?_cons, if_true, List.tail_cons, r1,
      ne_eq, not_false_eq_true, r2, and_self, r3, hr]
    rfl

theorem extract_long_long_dump_integer (n : Int) (h1 : -(2 : Int) ^ 63 ≤ n)
    (h2 : n < (2 : Int) ^ 63) : extract_long_long (dump_integer n) = some n :=
  extract_long_long_of_literal (decimalLiteral_dump_integer n h1 h2)

theorem digitOf_ten (c : Char) :
    (digitOf 10 c).isSome = c.isDigit ∧ (digitOf 10 c).getD 0 = if c.isDigit then c.toNat - 48 else 0 := by
  unfold digitOf
  cases hd : c.isDigit with
  | true =>
    obtain ⟨_, h2⟩ := isDigit_toNat hd
    have hlt : c.toNat - 48 < 10 := by omega
    simp [hlt]
  | false =>
    simp only [Bool.false_eq_true, if_false]
    by_cases ha : 97 ≤ c.toNat ∧ c.toNat ≤ 102
    · have : ¬ c.toNat - 87 < 10 := by omega
      simp [ha, this]
    · by_cases hb : 65 ≤ c.toNat ∧ c.toNat ≤ 70
      · have : ¬ c.toNat - 55 < 10 := by omega
        simp [ha, hb, this]
      · simp [ha, hb]

theorem foldl_digitOf_ten (ds : List Char) (hall : ds.all Char.isDigit = true) :
    ∀ acc : Nat, ds.foldl (fun acc c => 10 * acc + (digitOf 10 c).getD 0) acc
      = ds.foldl (fun acc c => 10 * acc + (c.toNat - 48)) acc := by
  induction ds with
  | nil => intro acc; rfl
  | cons d t ih =>
    intro acc
    simp only [List.all_cons, Bool.and_eq_true] at hall
    simp only [List.foldl_cons, (digitOf_ten d).2, hall.1, if_true]
    exact ih hall.2 _

theorem all_takeWhile {α : Type} (p : α → Bool) (l : List α) : (l.takeWhile p).all p = true := by
  induction l with
  | nil => rfl
  | cons a l ih =>
    cases hp : p a with
    | true => simp [List.takeWhile_cons, hp, ih]
    | false => simp [List.takeWhile_cons, hp]

/-- In base 10 the scan of formatted input reads what `extract_long_long`
reads. -/
theorem scan_integer_ten (text : String) :
    scan_integer 10 text
      = (if ((if (text.toList.dropWhile isspace).head? = some '-' ||
                (text.toList.dropWhile isspace).head? = some '+'
              then (text.toList.dropWhile isspace).tail
              else text.toList.dropWhile isspace).takeWhile Char.isDigit) = [] then none
         else some (decide ((text.toList.dropWhile isspace).head? = some '-'),
           digitsValue ((if (text.toList.dropWhile isspace).head? = some '-' ||
                (text.toList.dropWhile isspace).head? = some '+'
              then (text.toList.dropWhile isspace).tail
              else text.toList.dropWhile isspace).takeWhile Char.isDigit))) := by
  have hf : (fun c => (digitOf 10 c).isSome) = Char.isDigit := by
    funext c
    exact (digitOf_ten c).1
  unfold scan_integer
  simp only [show ¬ (10 : Nat) = 16 by decide, false_and, if_false, hf]
  generalize (if (text.toList.dropWhile isspace).head? = some '-' ||
    (text.toList.dropWhile isspace).head? = some '+'
    then (text.toList.dropWhile isspace).tail else text.toList.dropWhile isspace) = body
  rw [foldl_digitOf_ten _ (all_takeWhile _ _) 0]
  rfl

/-- Formatted input in base 10 succeeds exactly when `extract_long_long`
does, with the same value. -/
theorem extract_value_ten (text : String) (value : Int) :
    (∀ n, extract_long_long text = some n → extract_value 10 text value = (true, n)) ∧
    (extract_long_long text = none → (extract_value 10 text value).1 = false) := by
  unfold extract_value extract_integer
  by_cases hblank : text.toList.dropWhile isspace = []
  · have hn : extract_long_long text = none := by
      unfold extract_long_long
      simp only [hblank]
      rfl
    simp only [hblank, hn, if_true]
    exact ⟨fun n hc => (by cases hc), fun _ => trivial⟩
  simp only [hblank, if_false, long_long, if_true, Nat.add_one_sub_one,
    show (64 : Nat) - 1 = 63 by decide]
  rw [scan_integer_ten]
  unfold extract_long_long
  simp only
  generalize text.toList.dropWhile isspace = cs
  generalize hds : (if cs.head? = some '-' || cs.head? = some '+' then cs.tail else cs).takeWhile
    Char.isDigit = ds
  by_cases hnil : ds = []
  · simp [hnil]
  · simp only [hnil, if_false]
    by_cases hneg : cs.head? = some '-'
    · simp only [hneg, decide_True, if_true]
      split
      · simp
      · simp
    · simp only [hneg, decide_False, Bool.false_eq_true, if_false]
      split
      · simp
      · simp

namespace JsonSerializer

/-- The typed `GetValue` fails, leaving `value`, when there is no value under
the key: the handle holds no node, or a node that is not an object, or an
object without the key. -/
theorem GetValueT_absent {T : Type} (dtostr put_real : Nat → String)
    (extract : String → T → Bool × T) (s : State) (self : Nat) (key : String) (value : T)
    (hn : json_object_get s.heap (m_Json s self) key = none) :
    GetValueT dtostr put_real extract s self key value = (false, value) := by
  unfold GetValueT
  split
  · simp [hn]
  · rfl

/-- The typed `GetValue` on a value that is present: the text given to the
formatted input, by the type of the value. -/
theorem GetValueT_item {T : Type} (dtostr put_real : Nat → String)
    (extract : String → T → Bool × T) {s : State} {self a rc : Nat} {key : String}
    {v : JsonValue} (value : T)
    (hi : json_object_get s.heap (m_Json s self) key = some a)
    (hg : s.heap.get a = some ⟨rc, v⟩) :
    GetValueT dtostr put_real extract s self key value
      = (match v with
         | .integer n => extract (dump_integer n) value
         | .real b => extract (put_real b) value
         | .string t => extract t value
         | .jtrue => extract (dump_integer 1) value
         | .jfalse => extract (dump_integer 0) value
         | _ =>
           match json_dumps dtostr s.heap (some a) with
           | none => (false, value)
           | some text => extract text value) := by
  obtain ⟨o, rco, ms, hm, hgo, _⟩ := (json_object_get_iff _ _ _ _).1 hi
  have hobj : json_is_object s.heap (some o) = true :=
    (json_is_object_iff _ _).2 ⟨o, rco, ms, rfl, hgo⟩
  rw [hm] at hi
  unfold GetValueT
  simp only [hm, hobj, hi, Option.isSome_some, Bool.and_self, if_true]
  cases v <;>
    simp [json_is_integer, json_is_real, json_is_string, json_is_boolean, json_integer_value,
      json_real_value, json_string_value, json_boolean_value, hg]

end JsonSerializer

theorem dump_integer_chars (n : Int) :
    (dump_integer n).toList.all (fun c => c.isDigit || c = '-') = true := by
  cases n with
  | ofNat m =>
    obtain ⟨_, r2, _⟩ := repr_digits m
    rw [List.all_eq_true] at r2 ⊢
    intro c hc
    have := r2 c hc
    simp [this]
  | negSucc m =>
    obtain ⟨_, r2, _⟩ := repr_digits (m + 1)
    have hl : ("-" ++ toString (m + 1)).toList = '-' :: (toString (m + 1)).toList := by
      rw [String.toList, String.data_append]
      rfl
    rw [List.all_eq_true] at r2 ⊢
    intro c hc
    simp only [dump_integer, hl, List.mem_cons] at hc
    rcases hc with h1 | h1
    · simp [h1]
    · have := r2 c h1
      simp [this]

namespace JsonSerializer

end JsonSerializer

/-- Formatted input fails on a text whose first character is neither white
space, nor a sign, nor a digit. -/
theorem extract_long_long_head {text : String} {c : Char} {rest : List Char}
    (ht : text.toList = c :: rest) (h1 : isspace c = false) (h2 : c ≠ '-') (h3 : c ≠ '+')
    (h4 : c.isDigit = false) : extract_long_long text = none := by
  unfold extract_long_long
  have hdrop : List.dropWhile isspace (c :: rest) = c :: rest := by
    rw [List.dropWhile_cons_of_neg]
    rw [h1]
    decide
  simp only [ht, hdrop, List.head?_cons, Option.some.injEq, h2, h3, decide_False, Bool.or_self,
    Bool.false_eq_true, if_false, List.takeWhile_cons, h4, if_true]

/-- Formatted input on a text that is, in its entirety, an optional minus sign
and digits: the number, when it fits 64 bits, and failure otherwise. -/
theorem extract_long_long_shape {text : String} {ds : List Char} (neg : Bool)
    (hne : ds ≠ []) (hall : ds.all Char.isDigit = true)
    (ht : text.toList = if neg then '-' :: ds else ds) :
    extract_long_long text
      = (if -(2 : Int) ^ 63 ≤ (if neg then -(digitsValue ds : Int) else (digitsValue ds : Int)) ∧
            (if neg then -(digitsValue ds : Int) else (digitsValue ds : Int)) < (2 : Int) ^ 63
         then some (if neg then -(digitsValue ds : Int) else (digitsValue ds : Int))
         else none) := by
  unfold extract_long_long
  cases neg with
  | true =>
    simp only [if_true] at ht ⊢
    have hdrop : List.dropWhile isspace ('-' :: ds) = '-' :: ds := by
      rw [List.dropWhile_cons_of_neg]
      decide
    simp only [ht, hdrop, List.head?_cons, List.tail_cons, Bool.true_or, decide_True, if_true,
      takeWhile_of_all _ _ hall, if_neg hne]
  | false =>
    simp only [Bool.false_eq_true, if_false] at ht ⊢
    obtain ⟨d, t, rfl⟩ : ∃ d t, ds = d :: t := by
      cases ds with
      | nil => exact absurd rfl hne
      | cons d t => exact ⟨d, t, rfl⟩
    have hdig : d.isDigit = true := by
      simp only [List.all_cons, Bool.and_eq_true] at hall
      exact hall.1
    have hdrop : List.dropWhile isspace (d :: t) = d :: t := by
      rw [List.dropWhile_cons_of_neg]
      rw [isspace_of_isDigit hdig]
      decide
    have hminus : ¬ d = '-' := by
      intro hp
      subst hp
      revert hdig
      decide
    have hplus : ¬ d = '+' := by
      intro hp
      subst hp
      revert hdig
      decide
    simp only [ht, hdrop, List.head?_cons, Option.some.injEq, hminus, hplus, decide_False,
      Bool.or_self, Bool.false_eq_true, if_false, takeWhile_of_all _ _ hall, if_neg hne]

/-- Formatted input of the decimal text of a number: the number when it fits
64 bits, failure when it does not. -/
theorem extract_long_long_dump_integer_eq (n : Int) :
    extract_long_long (dump_integer n)
      = if -(2 : Int) ^ 63 ≤ n ∧ n < (2 : Int) ^ 63 then some n else none := by
  cases n with
  | ofNat m =>
    obtain ⟨r1, r2, r3⟩ := repr_digits m
    have := @extract_long_long_shape (dump_integer (Int.ofNat m)) _ false r1 r2 rfl
    rw [this, r3]
    rfl
  | negSucc m =>
    obtain ⟨r1, r2, r3⟩ := repr_digits (m + 1)
    have hl : (dump_integer (Int.negSucc m)).toList = '-' :: (toString (m + 1)).toList := by
      show ("-" ++ toString (m + 1)).toList = _
      rw [String.toList, String.data_append]
      rfl
    have := @extract_long_long_shape (dump_integer (Int.negSucc m)) _ true r1 r2 hl
    rw [this, r3]
    rfl

theorem do_dump_container_head (dtostr : Nat → String) {fuel : Nat} {h : Heap} {a rc : Nat}
    {v : JsonValue} {text : String} (hd : do_dump dtostr fuel h a = some text)
    (hg : h.get a = some ⟨rc, v⟩) :
    (∀ ms, v = .object ms → ∃ rest, text.toList = Char.ofNat 123 :: rest) ∧
    (∀ es, v = .array es → ∃ rest, text.toList = '[' :: rest) := by
  cases fuel with
  | zero => simp [do_dump] at hd
  | succ f =>
    refine ⟨fun ms hv => ?_, fun es hv => ?_⟩
    · subst hv
      simp only [do_dump, hg] at hd
      cases hm : ms.mapM (fun m => (do_dump dtostr f h m.2).map fun t =>
          dump_string m.1 ++ ":" ++ t) with
      | none => rw [hm] at hd; cases hd
      | some parts =>
        rw [hm] at hd
        simp only [Option.map_some', Option.some.injEq] at hd
        rw [← hd]
        exact ⟨_, by simp only [String.toList, String.data_append]; rfl⟩
    · subst hv
      simp only [do_dump, hg] at hd
      cases hm : es.mapM (do_dump dtostr f h) with
      | none => rw [hm] at hd; cases hd
      | some parts =>
        rw [hm] at hd
        simp only [Option.map_some', Option.some.injEq] at hd
        rw [← hd]
        exact ⟨_, by simp only [String.toList, String.data_append]; rfl⟩

/-! ## Other bases -/

/-- The digits `Nat.toDigitsCore` puts in front of its accumulator, in a base
whose digit characters are read back by `digitOf`: there is at least one, each
is the character of a digit of the base, and their value is the number. -/
theorem toDigitsCore_base {b : Nat} (hb : 2 ≤ b)
    (hdig : ∀ d, d < b → digitOf b (Nat.digitChar d) = some d) :
    ∀ (fuel n : Nat) (ds : List Char), n < fuel →
      ∃ pre, Nat.toDigitsCore b fuel n ds = pre ++ ds ∧ pre ≠ [] ∧
        (∀ c, c ∈ pre → ∃ d, d < b ∧ c = Nat.digitChar d) ∧
        pre.foldl (fun acc c => b * acc + (digitOf b c).getD 0) 0 = n := by
  intro fuel
  induction fuel with
  | zero => intro n ds h; omega
  | succ fuel ih =>
    intro n ds hn
    have hmod : n % b < b := Nat.mod_lt _ (by omega)
    have hd := hdig (n % b) hmod
    unfold Nat.toDigitsCore
    simp only
    by_cases h0 : n / b = 0
    · rw [if_pos h0]
      refine ⟨[Nat.digitChar (n % b)], rfl, by simp, ?_, ?_⟩
      · intro c hc
        exact ⟨n % b, hmod, by simpa using hc⟩
      · simp only [List.foldl_cons, List.foldl_nil, hd, Option.getD_some, Nat.mul_zero,
          Nat.zero_add]
        have := Nat.div_add_mod n b
        rw [h0] at this
        omega
    · rw [if_neg h0]
      have hpos : 0 < n := by
        rcases Nat.eq_zero_or_pos n with h | h
        · subst h
          simp at h0
        · exact h
      have hlt : n / b < fuel := by
        have := Nat.div_lt_self hpos (by omega : 1 < b)
        omega
      obtain ⟨pre, h1, h2, h3, h4⟩ := ih (n / b) (Nat.digitChar (n % b) :: ds) hlt
      refine ⟨pre ++ [Nat.digitChar (n % b)], ?_, by simp, ?_, ?_⟩
      · rw [h1]
        simp
      · intro c hc
        rcases List.mem_append.1 hc with hc1 | hc1
        · exact h3 c hc1
        · exact ⟨n % b, hmod, by simpa using hc1⟩
      · rw [List.foldl_append, h4]
        simp only [List.foldl_cons, List.foldl_nil, hd, Option.getD_some]
        exact Nat.div_add_mod n b

theorem digitChar_plain :
    ∀ d, d < 16 → isspace (Nat.digitChar d) = false ∧ Nat.digitChar d ≠ '-' ∧
      Nat.digitChar d ≠ '+' ∧ Nat.digitChar d ≠ 'x' ∧ Nat.digitChar d ≠ 'X' := by
  decide

theorem digitOf_hex : ∀ d, d < 16 → digitOf 16 (Nat.digitChar d) = some d := by
  decide

theorem digitOf_oct : ∀ d, d < 8 → digitOf 8 (Nat.digitChar d) = some d := by
  decide

/-- Formatted input in a base reads back the digits of a number written in
that base. -/
theorem scan_integer_toDigits {b : Nat} (hb : 2 ≤ b) (hb16 : b ≤ 16)
    (hdig : ∀ d, d < b → digitOf b (Nat.digitChar d) = some d) (m : Nat) {text : String}
    (ht : text.toList = Nat.toDigits b m) : scan_integer b text = some (false, m) := by
  obtain ⟨pre, h1, h2, h3, h4⟩ := toDigitsCore_base hb hdig (m + 1) m [] (Nat.lt_succ_self m)
  rw [List.append_nil] at h1
  have hpre : text.toList = pre := by rw [ht, Nat.toDigits, h1]
  have hplain : ∀ c, c ∈ pre → isspace c = false ∧ c ≠ '-' ∧ c ≠ '+' ∧ c ≠ 'x' ∧ c ≠ 'X' ∧
      (digitOf b c).isSome = true := by
    intro c hc
    obtain ⟨d, hd, rfl⟩ := h3 c hc
    obtain ⟨p1, p2, p3, p4, p5⟩ := digitChar_plain d (by omega)
    exact ⟨p1, p2, p3, p4, p5, by rw [hdig d hd]; rfl⟩
  obtain ⟨c, t, rfl⟩ : ∃ c t, pre = c :: t := by
    cases pre with
    | nil => exact absurd rfl h2
    | cons c t => exact ⟨c, t, rfl⟩
  obtain ⟨c1, c2, c3, _, _, _⟩ := hplain c (List.mem_cons_self _ _)
  have hdrop : List.dropWhile isspace (c :: t) = c :: t := by
    rw [List.dropWhile_cons_of_neg]
    rw [c1]
    decide
  have hx : ¬ (t.head? = some 'x' ∨ t.head? = some 'X') := by
    cases t with
    | nil => simp
    | cons c' t' =>
      obtain ⟨_, _, _, q4, q5, _⟩ := hplain c' (List.mem_cons_of_mem _ (List.mem_cons_self _ _))
      simp [q4, q5]
  have hall : (c :: t).all (fun c => (digitOf b c).isSome) = true := by
    rw [List.all_eq_true]
    intro y hy
    exact (hplain y hy).2.2.2.2.2
  unfold scan_integer
  simp only [hpre, hdrop, List.head?_cons, Option.some.injEq, c2, c3, decide_False, Bool.or_self,
    Bool.false_eq_true, if_false, List.tail_cons, hx, and_false, takeWhile_of_all _ _ hall, h4]
  simp

/-- Writing a non-negative `long long` in base 16 or 8 and reading the text
back in the same base gives the number. -/
theorem extract_value_put {b : Nat} (hb : b = 16 ∨ b = 8) (n v : Int) (h0 : 0 ≤ n)
    (h2 : n < (2 : Int) ^ 63) : extract_value b (put_long_long b n) v = (true, n) := by
  have hne : ¬ b = 10 := by omega
  have hmod : (n % (2 : Int) ^ 64).toNat = n.toNat := by
    rw [Int.emod_eq_of_lt h0 (by omega)]
  have ht : (put_long_long b n).toList = Nat.toDigits b n.toNat := by
    simp only [put_long_long, hne, if_false, hmod]
    rfl
  have hdig : ∀ d, d < b → digitOf b (Nat.digitChar d) = some d := by
    rcases hb with rfl | rfl
    · exact digitOf_hex
    · exact digitOf_oct
  have hscan := scan_integer_toDigits (by omega) (by omega) hdig n.toNat ht
  have hcast : ((n.toNat : Nat) : Int) = n := Int.toNat_of_nonneg h0
  have hblank : ¬ (put_long_long b n).toList.dropWhile isspace = [] := by
    intro hbl
    have hs := hscan
    simp only [scan_integer, hbl] at hs
    simp at hs
  simp only [extract_value, extract_integer, hblank, long_long, hscan, Bool.false_eq_true,
    if_false, if_true, hcast, show (64 : Nat) - 1 = 63 by decide]
  rw [if_pos ⟨by omega, h2⟩]

theorem scan_integer_blank {b : Nat} {text : String}
    (h : text.toList.dropWhile isspace = []) : scan_integer b text = none := by
  unfold scan_integer
  simp only [h]
  simp

/-- A text whose first character after the white space is neither a sign nor
a digit of the base has no number to read. -/
theorem scan_integer_head {b : Nat} {text : String} {c : Char} {rest : List Char}
    (ht : text.toList.dropWhile isspace = c :: rest) (h1 : c ≠ '-') (h2 : c ≠ '+')
    (h3 : digitOf b c = none) : scan_integer b text = none := by
  have h0 : ¬ (b = 16 ∧ c = '0') := by
    rintro ⟨rfl, rfl⟩
    revert h3
    decide
  unfold scan_integer
  simp only [ht, List.head?_cons, Option.some.injEq, h1, h2, decide_False, Bool.or_self,
    Bool.false_eq_true, if_false]
  have hc : ¬ (b = 16 ∧ c = '0' ∧
      ((c :: rest).tail.head? = some 'x' ∨ (c :: rest).tail.head? = some 'X')) :=
    fun hx => h0 ⟨hx.1, hx.2.1⟩
  rw [if_neg hc]
  simp [List.takeWhile_cons, h3]

/-- Formatted input of an integer, by what the scan reads: nothing when the
text is blank, failure when there is no number or it does not fit, and the
number otherwise. -/
theorem extract_integer_spec (T : IntType) (b : Nat) (text : String) (v : Int) :
    (text.toList.dropWhile isspace = [] → extract_integer T b text v = (false, v)) ∧
    (scan_integer b text = none → (extract_integer T b text v).1 = false) ∧
    (∀ neg m, scan_integer b text = some (neg, m) →
      (T.fits neg m → extract_integer T b text v = (true, T.taken neg m)) ∧
      (¬ T.fits neg m → (extract_integer T b text v).1 = false)) := by
  refine ⟨fun h => ?_, fun h => ?_, fun neg m h => ?_⟩
  · simp only [extract_integer, h, if_true]
  · unfold extract_integer
    split
    · rfl
    · rw [h]
  · have hnb : ¬ text.toList.dropWhile isspace = [] := by
      intro hbl
      rw [scan_integer_blank hbl] at h
      cases h
    unfold extract_integer
    rw [if_neg hnb, h]
    unfold IntType.fits IntType.taken
    cases hs : T.signed with
    | true =>
      simp only [if_true]
      refine ⟨fun hf => ?_, fun hf => ?_⟩
      · rw [if_pos hf]
      · rw [if_neg hf]
    | false =>
      simp only [Bool.false_eq_true, if_false]
      refine ⟨fun hf => ?_, fun hf => ?_⟩
      · rw [if_pos hf]
      · rw [if_neg hf]

/-- The scan of a text that is, in its entirety, an optional minus sign and
decimal digits. -/
theorem scan_integer_shape {text : String} {ds : List Char} (neg : Bool)
    (hne : ds ≠ []) (hall : ds.all Char.isDigit = true)
    (ht : text.toList = if neg then '-' :: ds else ds) :
    scan_integer 10 text = some (neg, digitsValue ds) := by
  rw [scan_integer_ten]
  cases neg with
  | true =>
    simp only [if_true] at ht
    have hdrop : List.dropWhile isspace ('-' :: ds) = '-' :: ds := by
      rw [List.dropWhile_cons_of_neg]
      decide
    simp only [ht, hdrop, List.head?_cons, List.tail_cons, Bool.true_or, decide_True, if_true,
      takeWhile_of_all _ _ hall, if_neg hne]
  | false =>
    simp only [Bool.false_eq_true, if_false] at ht
    obtain ⟨d, t, rfl⟩ : ∃ d t, ds = d :: t := by
      cases ds with
      | nil => exact absurd rfl hne
      | cons d t => exact ⟨d, t, rfl⟩
    have hdig : d.isDigit = true := by
      simp only [List.all_cons, Bool.and_eq_true] at hall
      exact hall.1
    have hdrop : List.dropWhile isspace (d :: t) = d :: t := by
      rw [List.dropWhile_cons_of_neg]
      rw [isspace_of_isDigit hdig]
      decide
    have hminus : ¬ d = '-' := by
      intro hp
      subst hp
      revert hdig
      decide
    have hplus : ¬ d = '+' := by
      intro hp
      subst hp
      revert hdig
      decide
    simp only [ht, hdrop, List.head?_cons, Option.some.injEq, hminus, hplus, decide_False,
      Bool.or_self, Bool.false_eq_true, if_false, takeWhile_of_all _ _ hall, if_neg hne]

/-- The scan of the decimal text of a number: its sign and magnitude. -/
theorem scan_integer_dump_integer (n : Int) :
    scan_integer 10 (dump_integer n) = some (decide (n < 0), n.natAbs) := by
  cases n with
  | ofNat m =>
    obtain ⟨r1, r2, r3⟩ := repr_digits m
    have := @scan_integer_shape (dump_integer (Int.ofNat m)) _ false r1 r2 rfl
    rw [this, r3]
    simp
  | negSucc m =>
    obtain ⟨r1, r2, r3⟩ := repr_digits (m + 1)
    have hl : (dump_integer (Int.negSucc m)).toList = '-' :: (toString (m + 1)).toList := by
      show ("-" ++ toString (m + 1)).toList = _
      rw [String.toList, String.data_append]
      rfl
    have := @scan_integer_shape (dump_integer (Int.negSucc m)) _ true r1 r2 hl
    rw [this, r3]
    simp [Int.negSucc_lt_zero]

/-! ## Flat objects: CreateRootObject, stores, serialisation and parsing -/

theorem forall2_imp_mem {α β : Type} {R R1 : α → β → Prop} :
    ∀ (l1 : List α) (l2 : List β), List.Forall₂ R l1 l2 →
      (∀ a, a ∈ l1 → ∀ b, R a b → R1 a b) → List.Forall₂ R1 l1 l2 := by
  intro l1 l2 hf
  induction hf with
  | nil => intro _; exact List.Forall₂.nil
  | @cons a b l1 l2 hab _ ih =>
    intro h
    exact List.Forall₂.cons (h a (List.mem_cons_self _ _) b hab)
      (ih (fun a1 ha1 b1 hab1 => h a1 (List.mem_cons_of_mem _ ha1) b1 hab1))

theorem forall2_setMember {R R1 : String × Nat → String × Scalar → Prop} (key : String) (N : Nat)
    (x : Scalar) (hnew : R1 (key, N) (key, x)) (hkey : ∀ m e, R m e → m.1 = e.1) :
    ∀ (ms : List (String × Nat)) (flat : List (String × Scalar)),
      List.Forall₂ R ms flat →
      (∀ m, m ∈ setMember ms key N → ∀ e, R m e → R1 m e) →
      List.Forall₂ R1 (setMember ms key N) (setEntry flat key x) := by
  intro ms flat hf
  induction hf with
  | nil =>
    intro _
    exact List.Forall₂.cons hnew List.Forall₂.nil
  | @cons m e ms flat hme hrest ih =>
    intro hk
    obtain ⟨k1, v1⟩ := m
    obtain ⟨k2, v2⟩ := e
    have hk12 : k1 = k2 := hkey _ _ hme
    subst hk12
    by_cases hkk : k1 = key
    · have hset : setMember ((k1, v1) :: ms) key N = (key, N) :: ms := by
        simp [setMember, hkk]
      rw [hset] at hk
      simp only [setMember, setEntry, hkk, if_true]
      refine List.Forall₂.cons hnew ?_
      exact forall2_imp_mem _ _ hrest (fun a ha b hab => hk a (List.mem_cons_of_mem _ ha) b hab)
    · have hset : setMember ((k1, v1) :: ms) key N = (k1, v1) :: setMember ms key N := by
        simp [setMember, hkk]
      rw [hset] at hk
      simp only [setMember, setEntry, hkk, if_false]
      refine List.Forall₂.cons (hk _ (List.mem_cons_self _ _) _ hme) ?_
      exact ih (fun a ha b hab => hk a (List.mem_cons_of_mem _ ha) b hab)

theorem Scalar.value_ne_object (x : Scalar) (ms : List (String × Nat)) :
    x.value ≠ .object ms := by
  cases x <;> simp [Scalar.value]

theorem Scalar.value_children (x : Scalar) : x.value.children = [] := by
  cases x <;> rfl

namespace JsonSerializer

/-- Storing a scalar through a handle that holds an object, in a balanced
state: both kinds of `PutValue` allocate the leaf and install it with
`json_object_set_new`, which succeeds. -/
theorem putScalar_eq {s : State} (hb : s.Balanced) {self o rc : Nat}
    {ms : List (String × Nat)} (hm : m_Json s self = some o)
    (hg : s.heap.get o = some ⟨rc, .object ms⟩) (key : String) (x : Scalar)
    (hx : x.inRange) :
    putScalar s self key x
      = (true, State.mk (json_object_set_new (s.heap.alloc x.value).1 (some o) key
          (some (s.heap.alloc x.value).2)).1 s.handles) := by
  have hobj : json_is_object s.heap (some o) = true :=
    (json_is_object_iff _ _).2 ⟨o, rc, ms, rfl, hg⟩
  obtain ⟨r1, _, _, _⟩ := install_leaf hb hm hg key x.value x.value_children
  cases x with
  | str v =>
    simp only [Scalar.value] at r1 ⊢
    simp [putScalar, PutValue, hm, hobj, r1]
  | int n =>
    have hext : (extract_long_long (put_long_long 10 n)).isSome = true := by
      simp only [put_long_long, if_true, extract_long_long_dump_integer n hx.1 hx.2,
        Option.isSome_some]
    simp only [Scalar.value] at r1 ⊢
    simp [putScalar, PutValue_long_long, PutValueT, hm, hobj, hext, r1]

/-- Storing a scalar keeps a flat object flat: the key is set to the scalar
and the other members hold what they held. -/
theorem putScalar_flat {s : State} (hb : s.Balanced) {self o : Nat}
    {flat : List (String × Scalar)} (hm : m_Json s self = some o)
    (hfl : FlatAt s.heap o flat) (key : String) (x : Scalar) (hx : x.inRange) :
    (putScalar s self key x).1 = true ∧
    (putScalar s self key x).2.Balanced ∧
    (putScalar s self key x).2.handles = s.handles ∧
    FlatAt (putScalar s self key x).2.heap o (setEntry flat key x) := by
  obtain ⟨rc, ms, hg, hforall⟩ := hfl
  have hlt := Heap.get_lt hg
  have hne : o ≠ (s.heap.alloc x.value).2 := Nat.ne_of_lt hlt
  have h0 : BalancedExt (s.heap.alloc x.value).1 s.handles [(s.heap.alloc x.value).2] :=
    BalancedExt.alloc_leaf hb x.value_children
  have hgo : (s.heap.alloc x.value).1.get o = some ⟨rc, .object ms⟩ :=
    (Heap.get_append_left _ hlt).trans hg
  obtain ⟨_, r2, r3, ⟨rc1, r4⟩, n1, n, hn1, hn, hval⟩ :=
    object_set_new_spec h0 hgo (m_Json_mem hm) hne key
  have hN : (s.heap.alloc x.value).1.get (s.heap.alloc x.value).2 = some ⟨1, x.value⟩ :=
    Heap.get_append_length s.heap _
  rw [hN] at hn
  cases hn
  rw [putScalar_eq hb hm hg key x hx]
  refine ⟨rfl, r2, rfl, rc1, _, r4, ?_⟩
  apply forall2_setMember key _ x _ (fun m e hme => hme.1) ms flat hforall
  · intro m hmem e hme
    obtain ⟨hk, rcm, hgm⟩ := hme
    refine ⟨hk, ?_⟩
    have hchild : m.2 ∈ (JsonValue.object (setMember ms key (s.heap.alloc x.value).2)).children := by
      simp only [JsonValue.children, List.mem_map]
      exact ⟨m, hmem, rfl⟩
    obtain ⟨n2, hn2⟩ := Option.isSome_iff_exists.1 (BalancedExt.live_of_slot r2 r4 hchild)
    obtain ⟨n3, hn3, hv3⟩ := r3.2 _ n2 hn2
    have hmo : o ≠ m.2 := by
      intro heq
      rw [← heq, hg] at hgm
      simp only [Option.some.injEq, json_t.mk.injEq] at hgm
      exact e.2.value_ne_object ms hgm.2.symm
    have hmN : m.2 ≠ (s.heap.alloc x.value).2 := Nat.ne_of_lt (Heap.get_lt hgm)
    unfold Heap.put at hn3
    rw [Heap.get_set_ne _ hmo, get_alloc_old _ _ hmN, hgm] at hn3
    cases hn3
    obtain ⟨rc2, v2⟩ := n2
    simp only at hv3
    subst hv3
    exact ⟨rc2, hn2⟩
  · refine ⟨rfl, ?_⟩
    obtain ⟨rc2, v2⟩ := n1
    simp only at hval
    subst hval
    exact ⟨rc2, hn1⟩

/-- A sequence of stores on a flat object: every call returns true and the
object holds the mapping the sequence builds. -/
theorem runPuts_flat {self o : Nat} :
    ∀ (ps : List (String × Scalar)) (s : State) (flat : List (String × Scalar)),
      s.Balanced → m_Json s self = some o → FlatAt s.heap o flat →
      (∀ p, p ∈ ps → p.2.inRange) →
      (runPuts s self ps).1 = true ∧ (runPuts s self ps).2.Balanced ∧
      (runPuts s self ps).2.handles = s.handles ∧
      FlatAt (runPuts s self ps).2.heap o (ps.foldl (fun acc p => setEntry acc p.1 p.2) flat) := by
  intro ps
  induction ps with
  | nil =>
    intro s flat hb _ hfl _
    exact ⟨rfl, hb, rfl, hfl⟩
  | cons p ps ih =>
    intro s flat hb hm hfl hr
    obtain ⟨q1, q2, q3, q4⟩ := putScalar_flat hb hm hfl p.1 p.2 (hr p (List.mem_cons_self _ _))
    obtain ⟨i1, i2, i3, i4⟩ := ih (putScalar s self p.1 p.2).2 (setEntry flat p.1 p.2) q2
      ((m_Json_of_handles q3 self).trans hm) q4 (fun y hy => hr y (List.mem_cons_of_mem _ hy))
    refine ⟨?_, i2, i3.trans q3, i4⟩
    simp only [runPuts, q1, i1, Bool.and_self]

end JsonSerializer

theorem mapM_of_forall2 {α β : Type} {f : α → Option β} :
    ∀ (l : List α) (ys : List β), List.Forall₂ (fun x y => f x = some y) l ys →
      l.mapM f = some ys := by
  intro l ys hf
  induction hf with
  | nil => rfl
  | @cons a b l ys hab _ ih =>
    rw [List.mapM_cons, hab, ih]
    rfl

theorem readDoc_scalar {h : Heap} {a rc : Nat} (x : Scalar)
    (hg : h.get a = some ⟨rc, x.value⟩) (f : Nat) : readDoc (f + 1) h a = some x.doc := by
  cases x <;> simp [readDoc, hg, Scalar.value, Scalar.doc]

theorem do_dump_scalar (dtostr : Nat → String) {h : Heap} {a rc : Nat} (x : Scalar)
    (hg : h.get a = some ⟨rc, x.value⟩) (f : Nat) :
    do_dump dtostr (f + 1) h a = some x.text := by
  cases x <;> simp [do_dump, hg, Scalar.value, Scalar.text]

/-- A flat object reads back as its document. -/
theorem FlatAt.readDoc_eq {h : Heap} {o : Nat} {flat : List (String × Scalar)}
    (hfl : FlatAt h o flat) (f : Nat) : readDoc (f + 2) h o = some (flatDoc flat) := by
  obtain ⟨rc, ms, hg, hforall⟩ := hfl
  have hm : ms.mapM (fun m => (readDoc (f + 1) h m.2).map fun d => (m.1, d))
      = some (flat.map fun e => (e.1, e.2.doc)) := by
    apply mapM_of_forall2
    rw [List.forall₂_map_right_iff]
    apply forall2_imp_mem _ _ hforall
    intro m _ e hme
    obtain ⟨hk, rc1, hgm⟩ := hme
    rw [readDoc_scalar e.2 hgm f, hk]
    rfl
  rw [readDoc]
  simp only [hg]
  rw [hm]
  rfl

/-- A flat object is printed as its compact text. -/
theorem FlatAt.do_dump_eq (dtostr : Nat → String) {h : Heap} {o : Nat}
    {flat : List (String × Scalar)} (hfl : FlatAt h o flat) (f : Nat) :
    do_dump dtostr (f + 2) h o = some (flatText flat) := by
  obtain ⟨rc, ms, hg, hforall⟩ := hfl
  have hm : ms.mapM (fun m => (do_dump dtostr (f + 1) h m.2).map fun t =>
      dump_string m.1 ++ ":" ++ t)
      = some (flat.map fun e => dump_string e.1 ++ ":" ++ e.2.text) := by
    apply mapM_of_forall2
    rw [List.forall₂_map_right_iff]
    apply forall2_imp_mem _ _ hforall
    intro m _ e hme
    obtain ⟨hk, rc1, hgm⟩ := hme
    rw [do_dump_scalar dtostr e.2 hgm f, hk]
    rfl
  rw [do_dump]
  simp only [hg]
  rw [hm]
  rfl

theorem FlatAt.append {h : Heap} {o : Nat} {flat : List (String × Scalar)}
    (hfl : FlatAt h o flat) (l : Heap) : FlatAt (h ++ l) o flat := by
  obtain ⟨rc, ms, hg, hforall⟩ := hfl
  refine ⟨rc, ms, Heap.get_append_of_some l hg, ?_⟩
  apply forall2_imp_mem _ _ hforall
  intro m _ e hme
  obtain ⟨hk, rc1, hgm⟩ := hme
  exact ⟨hk, rc1, Heap.get_append_of_some l hgm⟩

namespace JsonSerializer

/-- The method `CreateRootObject()` on an existing handle, whatever it holds:
it returns true and the handle holds a new, empty object. -/
theorem CreateRootObject_spec (s : State) {self : Nat} (hlt : self < s.handles.length) :
    (CreateRootObject s self).1 = true ∧
    m_Json (CreateRootObject s self).2 self = some s.heap.length ∧
    s.heap.get s.heap.length = none ∧
    (CreateRootObject s self).2.heap.get s.heap.length = some ⟨1, .object []⟩ ∧
    (CreateRootObject s self).2.handles.length = s.handles.length := by
  have hlt1 : self < (Clear s self).handles.length := by rw [Clear_length]; exact hlt
  have hlen : (Clear s self).heap.length = s.heap.length := (Clear_shrunk s self).1
  have hmj : m_Json (CreateRootObject s self).2 self = some (Clear s self).heap.length :=
    m_Json_set_mk _ _ _ _ hlt1
  refine ⟨?_, ?_, Heap.get_of_le (Nat.le_refl _), ?_, ?_⟩
  · show (m_Json (CreateRootObject s self).2 self).isSome = true
    rw [hmj]
    rfl
  · rw [hmj, hlen]
  · rw [← hlen]
    exact Heap.get_append_length _ _
  · show (List.set (Clear s self).handles self _).length = _
    rw [List.length_set, Clear_length]

end JsonSerializer

namespace JsonSerializer

/-- The method `Parse` on a newly constructed handle, for a text the backend
parser accepts: it returns true, the document is stored after the existing
nodes, the new handle holds its root and the other handles hold what they
held. -/
theorem Parse_fresh (parser : String → Option JsonDoc) (s : State) {text : String} {d : JsonDoc}
    (hp : parser text = some d) :
    (Parse parser (default s).1 (default s).2 text).1 = true ∧
    (Parse parser (default s).1 (default s).2 text).2.heap = (allocDoc s.heap d).1 ∧
    m_Json (Parse parser (default s).1 (default s).2 text).2 (default s).2
      = some (allocDoc s.heap d).2 ∧
    (∀ j, j < s.handles.length →
      m_Json (Parse parser (default s).1 (default s).2 text).2 j = m_Json s j) := by
  have hm0 : m_Json (default s).1 (default s).2 = none := m_Json_append_new s.heap s.handles none
  have hlt : (default s).2 < ((default s).1.handles.set (default s).2 none).length := by
    simp [default]
  have hclear : Clear (default s).1 (default s).2
      = State.mk s.heap ((default s).1.handles.set (default s).2 none) := by
    simp only [Clear, hm0, json_decref, set_m_Json]
    rfl
  have hstate : (Parse parser (default s).1 (default s).2 text).2
      = set_m_Json (State.mk (allocDoc s.heap d).1
          ((default s).1.handles.set (default s).2 none)) (default s).2
          (some (allocDoc s.heap d).2) := by
    simp only [Parse, hclear, json_loads, hp]
  have hmj := m_Json_set_mk (allocDoc s.heap d).1 ((default s).1.handles.set (default s).2 none)
    (default s).2 (some (allocDoc s.heap d).2) hlt
  refine ⟨?_, ?_, ?_, fun j hj => ?_⟩
  · show (m_Json (Parse parser (default s).1 (default s).2 text).2 (default s).2).isSome = true
    rw [hstate, hmj]
    rfl
  · rw [hstate]
    rfl
  · rw [hstate, hmj]
  · rw [hstate]
    have hne : (default s).2 ≠ j := by
      show s.handles.length ≠ j
      omega
    rw [m_Json_set_ne _ hne]
    unfold m_Json
    simp only [default]
    rw [List.getD_eq_getElem?_getD, List.getD_eq_getElem?_getD]
    simp [hj, List.getElem?_append_left, List.getElem?_set]

end JsonSerializer

theorem forall2_lookup {h : Heap} :
    ∀ (ms : List (String × Nat)) (flat : List (String × Scalar)),
      List.Forall₂ (fun m e => m.1 = e.1 ∧ ∃ rc1, h.get m.2 = some ⟨rc1, e.2.value⟩) ms flat →
      ∀ key,
        (flat.lookup key = none → ms.lookup key = none) ∧
        (∀ x, flat.lookup key = some x →
          ∃ a rc, ms.lookup key = some a ∧ h.get a = some ⟨rc, x.value⟩) := by
  intro ms flat hf
  induction hf with
  | nil => intro key; simp
  | @cons m e ms flat hme _ ih =>
    intro key
    obtain ⟨k1, a1⟩ := m
    obtain ⟨k2, x2⟩ := e
    obtain ⟨hk, rc1, hg1⟩ := hme
    simp only at hk hg1
    subst hk
    cases hkk : key == k1 with
    | true =>
      have e1 : List.lookup key ((k1, x2) :: flat) = some x2 := by simp [List.lookup, hkk]
      have e2 : List.lookup key ((k1, a1) :: ms) = some a1 := by simp [List.lookup, hkk]
      rw [e1, e2]
      refine ⟨fun hn => (by cases hn), fun x hx => ?_⟩
      cases hx
      exact ⟨a1, rc1, rfl, hg1⟩
    | false =>
      have e1 : List.lookup key ((k1, x2) :: flat) = List.lookup key flat := by
        simp [List.lookup, hkk]
      have e2 : List.lookup key ((k1, a1) :: ms) = List.lookup key ms := by
        simp [List.lookup, hkk]
      rw [e1, e2]
      exact ih key

namespace JsonSerializer

/-- Reading a flat object through a handle: the string and the typed
`GetValue` are determined by the mapping. -/
theorem FlatAt.reads {s : State} {self o : Nat} {flat : List (String × Scalar)}
    (hm : m_Json s self = some o) (hfl : FlatAt s.heap o flat) (key : String) :
    (∀ value, GetValue s self key value
      = (match flat.lookup key with
         | some (.str t) => (true, t)
         | _ => (false, value))) ∧
    (∀ (T : Type) (dtostr put_real : Nat → String) (extract : String → T → Bool × T)
      (value : T), GetValueT dtostr put_real extract s self key value
        = (match flat.lookup key with
           | some x => extract x.rendered value
           | none => (false, value))) := by
  obtain ⟨rc, ms, hg, hforall⟩ := hfl
  obtain ⟨l1, l2⟩ := forall2_lookup ms flat hforall key
  have hobj : json_is_object s.heap (some o) = true :=
    (json_is_object_iff _ _).2 ⟨o, rc, ms, rfl, hg⟩
  cases hl : flat.lookup key with
  | none =>
    have hget : json_object_get s.heap (m_Json s self) key = none := by
      simp only [hm, json_object_get, hg, l1 hl]
    refine ⟨fun value => ?_, fun T dtostr put_real extract value => ?_⟩
    · simp [GetValue, hget]
    · exact GetValueT_absent dtostr put_real extract s self key value hget
  | some x =>
    obtain ⟨a, rca, hla, hga⟩ := l2 x hl
    have hget : json_object_get s.heap (m_Json s self) key = some a := by
      simp only [hm, json_object_get, hg, hla]
    have hget1 : json_object_get s.heap (some o) key = some a := by
      rw [← hm]
      exact hget
    refine ⟨fun value => ?_, fun T dtostr put_real extract value => ?_⟩
    · cases x with
      | str t =>
        simp only [Scalar.value] at hga
        simp [GetValue, hm, hobj, hget1, json_is_string, json_string_value, hga]
      | int n =>
        simp only [Scalar.value] at hga
        simp [GetValue, hm, hobj, hget1, json_is_string, json_string_value, hga]
    · rw [GetValueT_item dtostr put_real extract value hget hga]
      cases x <;> rfl

end JsonSerializer

/-- Storing the members of a flat document: one new node per member, in
order, each holding the scalar. -/
theorem allocMembers_flat :
    ∀ (flat : List (String × Scalar)) (h : Heap),
      List.Forall₂ (fun m e => m.1 = e.1 ∧
          ∃ rc1, (allocMembers h (flat.map fun e => (e.1, e.2.doc))).1.get m.2
            = some ⟨rc1, e.2.value⟩)
        (allocMembers h (flat.map fun e => (e.1, e.2.doc))).2 flat := by
  intro flat
  induction flat with
  | nil => intro h; exact List.Forall₂.nil
  | cons e flat ih =>
    intro h
    obtain ⟨k, x⟩ := e
    have hdoc : allocDoc h x.doc = h.alloc x.value := by
      cases x <;> simp [Scalar.doc, Scalar.value, allocDoc]
    simp only [List.map_cons, allocMembers, hdoc]
    obtain ⟨l, hl⟩ := allocMembers_append (flat.map fun e => (e.1, e.2.doc)) (h.alloc x.value).1
    refine List.Forall₂.cons ⟨rfl, 1, ?_⟩ (ih _)
    rw [hl]
    exact Heap.get_append_of_some l (Heap.get_append_length h _)

/-- A flat document stored by the parser is a flat object. -/
theorem allocDoc_flat (flat : List (String × Scalar)) (h : Heap) :
    FlatAt (allocDoc h (flatDoc flat)).1 (allocDoc h (flatDoc flat)).2 flat := by
  have hm := allocMembers_flat flat h
  refine ⟨1, (allocMembers h (flat.map fun e => (e.1, e.2.doc))).2, ?_, ?_⟩
  · simp only [flatDoc, allocDoc]
    exact Heap.get_append_length _ _
  · simp only [flatDoc, allocDoc]
    apply forall2_imp_mem _ _ hm
    intro m _ e hme
    obtain ⟨hk, rc1, hg⟩ := hme
    exact ⟨hk, rc1, Heap.get_append_of_some _ hg⟩

theorem lookup_setEntry {α : Type} (es : List (String × α)) (k k2 : String) (v : α) :
    (setEntry es k v).lookup k2 = if k2 = k then some v else es.lookup k2 := by
  induction es with
  | nil =>
    by_cases h : k2 = k
    · simp [setEntry, List.lookup, h]
    · have : (k2 == k) = false := by simpa using h
      simp [setEntry, List.lookup, h, this]
  | cons e es ih =>
    obtain ⟨k1, v1⟩ := e
    by_cases hk : k1 = k
    · subst hk
      by_cases h : k2 = k1
      · simp [setEntry, List.lookup, h]
      · have : (k2 == k1) = false := by simpa using h
        simp [setEntry, List.lookup, h, this]
    · by_cases h1 : k2 = k1
      · subst h1
        simp [setEntry, List.lookup, hk]
      · have : (k2 == k1) = false := by simpa using h1
        simp only [setEntry, hk, if_false, List.lookup, this, ih]

theorem lookup_append_single {α : Type} (l : List (String × α)) (p : String × α) (k : String) :
    (l ++ [p]).lookup k = match l.lookup k with
      | some x => some x
      | none => if k = p.1 then some p.2 else none := by
  induction l with
  | nil =>
    by_cases h : k = p.1
    · simp [List.lookup, h]
    · have : (k == p.1) = false := by simpa using h
      simp [List.lookup, h, this]
  | cons e l ih =>
    obtain ⟨k1, v1⟩ := e
    cases hk : k == k1 with
    | true => simp [List.lookup, hk]
    | false =>
      simp only [List.cons_append, List.lookup, hk]
      exact ih

/-- The mapping a sequence of stores builds: every key has the value of the
last store to it. -/
theorem lookup_foldl_setEntry {α : Type} :
    ∀ (ps acc : List (String × α)) (k : String),
      (ps.foldl (fun acc p => setEntry acc p.1 p.2) acc).lookup k
        = match ps.reverse.lookup k with
          | some x => some x
          | none => acc.lookup k := by
  intro ps
  induction ps with
  | nil => intro acc k; rfl
  | cons p ps ih =>
    intro acc k
    rw [List.foldl_cons, ih, List.reverse_cons, lookup_append_single, lookup_setEntry]
    cases ps.reverse.lookup k with
    | some x => rfl
    | none =>
      by_cases h : k = p.1
      · simp [h]
      · simp [h]

/-! ### White space in the compact text -/

theorem mem_toList_append {a b : String} {c : Char} :
    c ∈ (a ++ b).toList ↔ c ∈ a.toList ∨ c ∈ b.toList := by
  rw [String.toList, String.data_append, List.mem_append]
  rfl

theorem mem_intercalate_go (sep : String) (c : Char) :
    ∀ (l : List String) (acc : String), c ∈ (String.intercalate.go acc sep l).toList →
      c ∈ acc.toList ∨ c ∈ sep.toList ∨ ∃ y, y ∈ l ∧ c ∈ y.toList := by
  intro l
  induction l with
  | nil =>
    intro acc hc
    exact Or.inl (by simpa [String.intercalate.go] using hc)
  | cons a l ih =>
    intro acc hc
    simp only [String.intercalate.go] at hc
    rcases ih _ hc with h | h | ⟨y, hy, h⟩
    · rcases mem_toList_append.1 h with h1 | h1
      · rcases mem_toList_append.1 h1 with h2 | h2
        · exact Or.inl h2
        · exact Or.inr (Or.inl h2)
      · exact Or.inr (Or.inr ⟨a, List.mem_cons_self _ _, h1⟩)
    · exact Or.inr (Or.inl h)
    · exact Or.inr (Or.inr ⟨y, List.mem_cons_of_mem _ hy, h⟩)

theorem mem_intercalate (sep : String) (c : Char) (l : List String)
    (hc : c ∈ (sep.intercalate l).toList) : c ∈ sep.toList ∨ ∃ y, y ∈ l ∧ c ∈ y.toList := by
  cases l with
  | nil => simp [String.intercalate] at hc
  | cons a l =>
    simp only [String.intercalate] at hc
    rcases mem_intercalate_go sep c l a hc with h | h | ⟨y, hy, h⟩
    · exact Or.inr ⟨a, List.mem_cons_self _ _, h⟩
    · exact Or.inl h
    · exact Or.inr ⟨y, List.mem_cons_of_mem _ hy, h⟩

theorem mem_foldl_append (c : Char) :
    ∀ (l : List String) (acc : String), c ∈ (l.foldl (fun r s => r ++ s) acc).toList →
      c ∈ acc.toList ∨ ∃ y, y ∈ l ∧ c ∈ y.toList := by
  intro l
  induction l with
  | nil => intro acc hc; exact Or.inl hc
  | cons a l ih =>
    intro acc hc
    rw [List.foldl_cons] at hc
    rcases ih _ hc with h | ⟨y, hy, h⟩
    · rcases mem_toList_append.1 h with h1 | h1
      · exact Or.inl h1
      · exact Or.inr ⟨a, List.mem_cons_self _ _, h1⟩
    · exact Or.inr ⟨y, List.mem_cons_of_mem _ hy, h⟩

theorem mem_join (c : Char) (l : List String) (hc : c ∈ (String.join l).toList) :
    ∃ y, y ∈ l ∧ c ∈ y.toList := by
  rcases mem_foldl_append c l "" hc with h | h
  · cases h
  · exact h

theorem hexDigit_not_space : ∀ n, n < 16 → isspace (hexDigit n) = false := by
  decide

/-- The text printed for one character of a string has no white space other
than a space that is the character itself. -/
theorem dump_char_space {c c1 : Char} (hc : c1 ∈ (dump_char c).toList)
    (hs : isspace c1 = true) : c1 = ' ' ∧ c = ' ' := by
  unfold dump_char at hc
  have hesc : ∀ (x y : Char), isspace x = false → isspace y = false →
      c1 ∈ (String.mk [x, y]).toList → False := by
    intro x y hx hy hm
    simp only [String.toList, List.mem_cons, List.mem_singleton, List.not_mem_nil,
      or_false] at hm
    rcases hm with h | h
    · rw [h, hx] at hs
      cases hs
    · rw [h, hy] at hs
      cases hs
  split at hc
  · exact (hesc _ _ (by decide) (by decide) hc).elim
  · split at hc
    · exact (hesc _ _ (by decide) (by decide) hc).elim
    · split at hc
      · exact (hesc _ _ (by decide) (by decide) hc).elim
      · split at hc
        · exact (hesc _ _ (by decide) (by decide) hc).elim
        · split at hc
          · exact (hesc _ _ (by decide) (by decide) hc).elim
          · split at hc
            · exact (hesc _ _ (by decide) (by decide) hc).elim
            · split at hc
              · exact (hesc _ _ (by decide) (by decide) hc).elim
              · split at hc
                · rename_i hlt
                  exfalso
                  have h1 := hexDigit_not_space (c.toNat / 16) (by omega)
                  have h2 := hexDigit_not_space (c.toNat % 16) (Nat.mod_lt _ (by decide))
                  simp only [String.toList, List.mem_cons, List.mem_singleton,
                    List.not_mem_nil, or_false] at hc
                  rcases hc with h | h | h | h | h | h
                  · rw [h] at hs; revert hs; decide
                  · rw [h] at hs; revert hs; decide
                  · rw [h] at hs; revert hs; decide
                  · rw [h] at hs; revert hs; decide
                  · rw [h, h1] at hs; cases hs
                  · rw [h, h2] at hs; cases hs
                · rename_i hge
                  have hcc : c1 = c := by
                    simpa [String.singleton, String.toList] using hc
                  subst hcc
                  simp only [isspace, Bool.or_eq_true, decide_eq_true_eq, Bool.and_eq_true] at hs
                  rcases hs with h | h
                  · exact ⟨h, h⟩
                  · omega

/-- White space in a printed string is a space of the string. -/
theorem dump_string_space {s : String} {c : Char} (hc : c ∈ (dump_string s).toList)
    (hs : isspace c = true) : c = ' ' ∧ ' ' ∈ s.toList := by
  unfold dump_string at hc
  have hq : ∀ x, x ∈ dquote.toList → isspace x = false := by
    intro x hx
    have : x = Char.ofNat 34 := by simpa [dquote, String.singleton, String.toList] using hx
    rw [this]
    decide
  rcases mem_toList_append.1 hc with h | h
  · rcases mem_toList_append.1 h with h1 | h1
    · rw [hq c h1] at hs
      cases hs
    · obtain ⟨y, hy, hcy⟩ := mem_join c _ h1
      obtain ⟨x, hx, rfl⟩ := List.mem_map.1 hy
      obtain ⟨e1, e2⟩ := dump_char_space hcy hs
      exact ⟨e1, e2 ▸ hx⟩
  · rw [hq c h] at hs
    cases hs

theorem dump_integer_no_space {n : Int} {c : Char} (hc : c ∈ (dump_integer n).toList) :
    isspace c = false := by
  have h := List.all_eq_true.1 (dump_integer_chars n) c hc
  simp only [Bool.or_eq_true, decide_eq_true_eq] at h
  rcases h with h | h
  · exact isspace_of_isDigit h
  · rw [h]
    decide

/-- The compact text of a flat object has no white space between its tokens:
every white-space character in it is a space inside a key or a string value. -/
theorem flatText_space {flat : List (String × Scalar)} {c : Char}
    (hc : c ∈ (flatText flat).toList) (hs : isspace c = true) :
    c = ' ' ∧ ∃ e, e ∈ flat ∧ (' ' ∈ e.1.toList ∨ ∃ v, e.2 = .str v ∧ ' ' ∈ v.toList) := by
  unfold flatText at hc
  have hp : ∀ (t : String) (x : Char), t.toList = [x] → isspace x = false → c ∈ t.toList →
      False := by
    intro t x ht hx hm
    rw [ht] at hm
    have : c = x := by simpa using hm
    rw [this, hx] at hs
    cases hs
  rcases mem_toList_append.1 hc with h | h
  · rcases mem_toList_append.1 h with h1 | h1
    · exact (hp _ _ rfl (by decide) h1).elim
    · rcases mem_intercalate "," c _ h1 with h2 | ⟨y, hy, hcy⟩
      · exact (hp _ _ rfl (by decide) h2).elim
      · obtain ⟨e, he, rfl⟩ := List.mem_map.1 hy
        rcases mem_toList_append.1 hcy with h3 | h3
        · rcases mem_toList_append.1 h3 with h4 | h4
          · obtain ⟨e1, e2⟩ := dump_string_space h4 hs
            exact ⟨e1, e, he, Or.inl e2⟩
          · exact (hp _ _ rfl (by decide) h4).elim
        · cases hx : e.2 with
          | str v =>
            rw [hx] at h3
            obtain ⟨e1, e2⟩ := dump_string_space h3 hs
            exact ⟨e1, e, he, Or.inr ⟨v, hx, e2⟩⟩
          | int n =>
            rw [hx] at h3
            rw [dump_integer_no_space h3] at hs
            cases hs
  · exact (hp _ _ rfl (by decide) h).elim

/-! ## The empty handle -/

namespace JsonSerializer

/-- On a handle that holds no node every accessor fails, `PutStringCollection`
with the empty key apart. -/
theorem empty_handle_accessors (s : State) (h : Nat) (hm : m_Json s h = none) :
    AccessorsFail s h := by
  refine ⟨?_, ?_, ?_, ?_, ?_, ?_, ?_, ?_, ?_, ?_, ?_⟩
  · intro key value
    simp [GetValue, hm]
  · intro T dtostr put_real extract key value
    simp [GetValueT, hm]
  · intro key value
    simp [PutValue, hm]
  · intro key rendered ival
    simp [PutValueT, hm]
  · intro key out
    simp [GetObject, hm]
  · intro key object
    have hfail : ∀ p : Ptr, (json_object_set s.heap none key p).2 = -1 := by
      intro p
      cases p <;> rfl
    have hheap : ∀ p : Ptr, (json_object_set s.heap none key p).1
        = json_decref (json_incref s.heap p) p := by
      intro p
      cases p <;> rfl
    have hne : ¬ ((-1 : Int) = 0) := by decide
    refine ⟨?_, ?_, ?_⟩
    · simp only [PutObject, hm, hfail, hne, if_false]
    · simp only [PutObject, hm, hfail, hne, if_false]
    · intro hb
      simp only [PutObject, hm, hfail, hne, if_false, hheap]
      rw [json_decref_incref hb]
  · intro key vec
    simp [GetCollection, hm]
  · intro key collection
    simp [PutCollection, hm]
  · intro key collection limit
    simp [GetStringCollection, hm]
  · intro key collection limit hkey
    have hk : key.isEmpty = false := by
      cases hk : key.isEmpty with
      | false => rfl
      | true =>
        exfalso
        apply hkey
        simpa [String.isEmpty_iff] using hk
    simp [PutStringCollection, hm, hk]
  · intro dtostr
    simp [StreamJsonToBuffer, hm]

end JsonSerializer

/-! ## The parser on the printer's text -/

theorem foldl_append_data (l : List String) (acc : String) :
    (l.foldl (fun a b => a ++ b) acc).data = acc.data ++ (l.map String.data).flatten := by
  induction l generalizing acc with
  | nil => simp
  | cons a l ih =>
    rw [List.foldl_cons, ih, String.data_append]
    simp

theorem dump_string_toList (s : String) :
    (dump_string s).toList = Char.ofNat 34 :: (escChars s.toList ++ [Char.ofNat 34]) := by
  have hj : ∀ cs : List Char, ((cs.map dump_char).map String.data).flatten = escChars cs := by
    intro cs
    induction cs with
    | nil => rfl
    | cons c cs ih =>
      simp only [List.map_cons, List.flatten_cons, escChars, ih]
      rfl
  unfold dump_string
  simp only [String.toList, String.data_append, String.join, foldl_append_data, hj]
  rfl

theorem intercalate_go_toList (sep : String) :
    ∀ (l : List String) (acc : String),
      (String.intercalate.go acc sep l).toList
        = acc.toList ++ (l.map fun a => sep.toList ++ a.toList).flatten := by
  intro l
  induction l with
  | nil =>
    intro acc
    simp [String.intercalate.go]
  | cons a l ih =>
    intro acc
    simp only [String.intercalate.go]
    rw [ih]
    simp only [String.toList, String.data_append, List.map_cons, List.flatten_cons,
      List.append_assoc]

theorem scalar_text_toList (v : Scalar) : v.text.toList = scalarChars v := by
  cases v with
  | str s => exact dump_string_toList s
  | int n => rfl

theorem member_text_toList (e : String × Scalar) :
    (dump_string e.1 ++ ":" ++ e.2.text).toList = memberChars e := by
  have h1 := dump_string_toList e.1
  have h2 := scalar_text_toList e.2
  simp only [String.toList] at h1 h2
  simp only [String.toList, String.data_append, h1, h2, memberChars]
  simp

/-- The compact text of a flat object, character by character. -/
theorem flatText_toList (flat : List (String × Scalar)) :
    (flatText flat).toList = flatChars flat := by
  have htail : ∀ es : List (String × Scalar),
      ((es.map fun e => dump_string e.1 ++ ":" ++ e.2.text).map
        fun a => (",".toList ++ a.toList)).flatten ++ [Char.ofNat 125] = tailChars es := by
    intro es
    induction es with
    | nil => rfl
    | cons e es ih =>
      simp only [List.map_cons, List.flatten_cons, List.append_assoc, ih, member_text_toList,
        tailChars]
      rfl
  unfold flatText
  cases flat with
  | nil => rfl
  | cons e es =>
    simp only [List.map_cons, String.intercalate]
    have hgo := intercalate_go_toList "," (es.map fun e => dump_string e.1 ++ ":" ++ e.2.text)
      (dump_string e.1 ++ ":" ++ e.2.text)
    have hm := member_text_toList e
    simp only [String.toList] at hgo hm
    have ht := htail es
    simp only [String.toList] at ht
    simp only [String.toList, String.data_append, hgo, hm, flatChars]
    show Char.ofNat 123 :: (memberChars e ++ _ ++ [Char.ofNat 125]) = _
    rw [List.append_assoc, ht]

theorem digitOf_hexDigit : ∀ n, n < 16 → digitOf 16 (hexDigit n) = some n := by
  decide

theorem hex4_hexDigit (a b : Nat) (ha : a < 16) (hb : b < 16) (rest : List Char) :
    hex4 ('0' :: '0' :: hexDigit a :: hexDigit b :: rest) = some (a * 16 + b, rest) := by
  simp only [hex4, digitOf_hexDigit a ha, digitOf_hexDigit b hb,
    show digitOf 16 '0' = some 0 by decide, Option.bind_some, Option.map_some']
  simp

theorem char_toNat_ne_zero {c : Char} (hc : c ≠ Char.ofNat 0) : c.toNat ≠ 0 := by
  intro h0
  apply hc
  rw [← Char.ofNat_toNat c, h0]

/-- The lexer reads the printer's text of one character back as that
character. -/
theorem lex_string_char (c : Char) (hc : c ≠ Char.ofNat 0) (fuel : Nat) (rest : List Char) :
    lex_string (fuel + 1) ((dump_char c).toList ++ rest)
      = (lex_string fuel rest).map fun r => (c :: r.1, r.2) := by
  unfold dump_char
  split
  · rename_i h
    subst h
    rfl
  split
  · rename_i h
    subst h
    rfl
  split
  · rename_i h
    subst h
    rfl
  split
  · rename_i h
    subst h
    rfl
  split
  · rename_i h
    subst h
    rfl
  split
  · rename_i h
    subst h
    rfl
  split
  · rename_i h
    subst h
    rfl
  split
  · rename_i h1 h2 h3 h4 h5 h6 h7 hlt
    have hv : c.toNat / 16 * 16 + c.toNat % 16 = c.toNat := by omega
    have hne := char_toNat_ne_zero hc
    show lex_string (fuel + 1) (Char.ofNat 92 :: 'u' :: '0' :: '0' :: hexDigit (c.toNat / 16) ::
      hexDigit (c.toNat % 16) :: rest) = _
    simp only [lex_string, show ¬ Char.ofNat 92 = Char.ofNat 34 by decide, if_false, if_true,
      hex4_hexDigit (c.toNat / 16) (c.toNat % 16) (by omega) (by omega), hv]
    rw [if_neg (by omega), if_neg (by omega), if_neg hne, Char.ofNat_toNat]
  · rename_i h1 h2 h3 h4 h5 h6 h7 hlt
    show lex_string (fuel + 1) (c :: rest) = _
    simp only [lex_string, h1, h2, hlt, if_false]

/-- The lexer reads the printer's text of a string without NUL back as the
string. -/
theorem lex_string_esc :
    ∀ (cs : List Char), (∀ c, c ∈ cs → c ≠ Char.ofNat 0) → ∀ (fuel : Nat) (rest : List Char),
      cs.length < fuel →
      lex_string fuel (escChars cs ++ Char.ofNat 34 :: rest) = some (cs, rest) := by
  intro cs
  induction cs with
  | nil =>
    intro _ fuel rest hf
    obtain ⟨f, rfl⟩ : ∃ f, fuel = f + 1 := ⟨fuel - 1, by simp at hf; omega⟩
    simp [escChars, lex_string]
  | cons c cs ih =>
    intro hall fuel rest hf
    obtain ⟨f, rfl⟩ : ∃ f, fuel = f + 1 := ⟨fuel - 1, by simp at hf; omega⟩
    simp only [escChars, List.append_assoc]
    rw [lex_string_char c (hall c (List.mem_cons_self _ _)),
      ih (fun x hx => hall x (List.mem_cons_of_mem _ hx)) f rest
        (by simp only [List.length_cons] at hf; omega)]
    rfl

theorem c_str_chars {s : String} (h : c_str s = s) : ∀ c, c ∈ s.toList → c ≠ Char.ofNat 0 := by
  intro c hc
  have hd : s.toList.takeWhile (fun c => decide (c ≠ Char.ofNat 0)) = s.toList := by
    have := congrArg String.toList h
    exact this
  rw [← hd] at hc
  have := List.mem_takeWhile_imp hc
  simpa using this

theorem digitChar_lead : ∀ m, m < 10 → (m = 0 → Nat.digitChar m = '0') ∧
    (0 < m → Nat.digitChar m ≠ '0') := by
  decide

/-- The first decimal digit `Nat.toDigitsCore` writes is `0` only for the
number 0. -/
theorem toDigitsCore_lead :
    ∀ (fuel n : Nat) (ds : List Char), n < fuel →
      (n = 0 → Nat.toDigitsCore 10 fuel n ds = '0' :: ds) ∧
      (0 < n → (Nat.toDigitsCore 10 fuel n ds).head? ≠ some '0') := by
  intro fuel
  induction fuel with
  | zero => intro n ds h; omega
  | succ fuel ih =>
    intro n ds hn
    obtain ⟨hd1, hd2⟩ := digitChar_lead (n % 10) (Nat.mod_lt _ (by decide))
    unfold Nat.toDigitsCore
    simp only
    by_cases h0 : n / 10 = 0
    · rw [if_pos h0]
      refine ⟨fun hz => ?_, fun hpos => ?_⟩
      · rw [hd1 (by omega)]
      · simp only [List.head?_cons, ne_eq, Option.some.injEq]
        exact hd2 (by omega)
    · rw [if_neg h0]
      refine ⟨fun hz => ?_, fun _ => ?_⟩
      · omega
      · exact (ih (n / 10) _ (by omega)).2 (by omega)

theorem repr_lead (m : Nat) :
    (toString m).toList = ['0'] ∨ (toString m).toList.head? ≠ some '0' := by
  have ht : (toString m).toList = Nat.toDigitsCore 10 (m + 1) m [] := rfl
  rw [ht]
  obtain ⟨h1, h2⟩ := toDigitsCore_lead (m + 1) m [] (Nat.lt_succ_self m)
  rcases Nat.eq_zero_or_pos m with h | h
  · exact Or.inl (h1 h)
  · exact Or.inr (h2 h)

theorem takeWhile_append_stop {α : Type} (p : α → Bool) :
    ∀ (ds : List α) (c : α) (t : List α), ds.all p = true → p c = false →
      (ds ++ c :: t).takeWhile p = ds ∧ (ds ++ c :: t).dropWhile p = c :: t := by
  intro ds
  induction ds with
  | nil =>
    intro c t _ hc
    simp [List.takeWhile_cons, List.dropWhile_cons, hc]
  | cons d ds ih =>
    intro c t hall hc
    simp only [List.all_cons, Bool.and_eq_true] at hall
    obtain ⟨i1, i2⟩ := ih c t hall.2 hc
    simp [List.takeWhile_cons, List.dropWhile_cons, hall.1, i1, i2]

/-- The lexer on a run of digits without a leading zero, after an optional
minus sign and before a character that continues no number: the integer. -/
theorem lex_number_integer (strtod : String → Option Nat) {ds : List Char} (neg : Bool)
    (hne : ds ≠ []) (hall : ds.all Char.isDigit = true)
    (hlead : ds = ['0'] ∨ ds.head? ≠ some '0') {c : Char} (t : List Char)
    (hc : c.isDigit = false) (h1 : c ≠ '.') (h2 : c ≠ 'e') (h3 : c ≠ 'E')
    (hr : -(2 : Int) ^ 63 ≤ (if neg then -(digitsValue ds : Int) else (digitsValue ds : Int)) ∧
      (if neg then -(digitsValue ds : Int) else (digitsValue ds : Int)) < (2 : Int) ^ 63) :
    lex_number strtod ((if neg then '-' :: ds else ds) ++ c :: t)
      = some (JsonDoc.integer (if neg then -(digitsValue ds : Int) else (digitsValue ds : Int)),
          c :: t) := by
  obtain ⟨w1, w2⟩ := takeWhile_append_stop Char.isDigit ds c t hall hc
  have hzero : ¬ (ds.head? = some '0' ∧ 1 < ds.length) := by
    rintro ⟨z1, z2⟩
    rcases hlead with h | h
    · rw [h] at z2
      simp at z2
    · exact h z1
  have hhead : ∀ body : List Char, body = (if neg then '-' :: ds else ds) ++ c :: t →
      (body.head? = some '-' ↔ neg = true) := by
    intro body hb
    cases neg with
    | true => simp [hb]
    | false =>
      simp only [Bool.false_eq_true, if_false, iff_false] at hb ⊢
      rw [hb]
      cases ds with
      | nil => exact absurd rfl hne
      | cons d ds1 =>
        simp only [List.all_cons, Bool.and_eq_true] at hall
        simp only [List.cons_append, List.head?_cons, Option.some.injEq]
        intro hd
        rw [hd] at hall
        exact absurd hall.1 (by decide)
  unfold lex_number
  cases neg with
  | true =>
    simp only [if_true, List.cons_append, List.head?_cons, List.tail_cons, w1, w2, if_neg hne,
      if_neg hzero, Option.some.injEq, h1, h2, h3, or_self, if_false] at hr ⊢
    rw [if_pos hr]
  | false =>
    have hh := (hhead _ rfl).not.2 (by decide)
    simp only [Bool.false_eq_true, if_false] at hh hr ⊢
    simp only [if_neg hh, w1, w2, if_neg hne, if_neg hzero, List.head?_cons,
      Option.some.injEq, h1, h2, h3, or_self, if_false]
    rw [if_pos hr]

/-- The lexer reads the decimal text of a 64-bit integer back as the
integer. -/
theorem lex_number_dump_integer (strtod : String → Option Nat) (n : Int)
    (hr1 : -(2 : Int) ^ 63 ≤ n) (hr2 : n < (2 : Int) ^ 63) {c : Char} (t : List Char)
    (hc : c.isDigit = false) (h1 : c ≠ '.') (h2 : c ≠ 'e') (h3 : c ≠ 'E') :
    lex_number strtod ((dump_integer n).toList ++ c :: t) = some (JsonDoc.integer n, c :: t) := by
  cases n with
  | ofNat m =>
    obtain ⟨r1, r2, r3⟩ := repr_digits m
    have h := @lex_number_integer strtod _ false r1 r2 (repr_lead m) c t hc h1 h2 h3
      (by
        simp only [Bool.false_eq_true, if_false, r3]
        exact ⟨hr1, hr2⟩)
    simp only [Bool.false_eq_true, if_false, r3] at h
    exact h
  | negSucc m =>
    obtain ⟨r1, r2, r3⟩ := repr_digits (m + 1)
    have hl : (dump_integer (Int.negSucc m)).toList = '-' :: (toString (m + 1)).toList := by
      show ("-" ++ toString (m + 1)).toList = _
      rw [String.toList, String.data_append]
      rfl
    have hv : -((m + 1 : Nat) : Int) = Int.negSucc m := rfl
    have h := @lex_number_integer strtod _ true r1 r2 (repr_lead (m + 1)) c t hc h1 h2 h3
      (by
        simp only [if_true, r3, hv]
        exact ⟨hr1, hr2⟩)
    simp only [if_true, r3, hv] at h
    rw [hl]
    exact h

theorem dump_char_length (c : Char) : 1 ≤ (dump_char c).toList.length := by
  unfold dump_char
  repeat' split
  all_goals simp [String.toList, String.singleton]

theorem escChars_length : ∀ cs : List Char, cs.length ≤ (escChars cs).length := by
  intro cs
  induction cs with
  | nil => simp
  | cons c cs ih =>
    have := dump_char_length c
    simp only [escChars, List.length_cons, List.length_append]
    omega

/-- The first character of the decimal text of an integer is a minus sign or
a digit. -/
theorem dump_integer_head (n : Int) :
    ∃ c t, (dump_integer n).toList = c :: t ∧ (c = '-' ∨ c.isDigit = true) := by
  have hall := dump_integer_chars n
  cases hl : (dump_integer n).toList with
  | nil =>
    exfalso
    cases n with
    | ofNat m => exact (repr_digits m).1 hl
    | negSucc m =>
      have : (dump_integer (Int.negSucc m)).toList = '-' :: (toString (m + 1)).toList := by
        show ("-" ++ toString (m + 1)).toList = _
        rw [String.toList, String.data_append]
        rfl
      rw [this] at hl
      cases hl
  | cons c t =>
    rw [hl] at hall
    simp only [List.all_cons, Bool.and_eq_true, Bool.or_eq_true, decide_eq_true_eq] at hall
    exact ⟨c, t, rfl, hall.1.symm⟩

theorem isDigit_ne {c d : Char} (hd : d.isDigit = false) (hc : c = '-' ∨ c.isDigit = true)
    (hm : d ≠ '-') : c ≠ d := by
  rintro rfl
  rcases hc with h | h
  · exact hm h
  · rw [hd] at h
    cases h

/-- The parser reads the compact text of a scalar, before a comma or a closing
brace, back as the scalar. -/
theorem parse_value_scalar (strtod : String → Option Nat) (fuel : Nat) (v : Scalar)
    (hw : v.whole) (hr : v.inRange) {c : Char} (t : List Char)
    (hc : c = ',' ∨ c = Char.ofNat 125) :
    parse_value strtod (fuel + 1) (scalarChars v ++ c :: t) = some (v.doc, c :: t) := by
  cases v with
  | str s =>
    have hlen := escChars_length s.toList
    have hlex := lex_string_esc s.toList (c_str_chars hw)
      ((escChars s.toList ++ Char.ofNat 34 :: (c :: t)).length + 1) (c :: t)
      (by simp only [List.length_append, List.length_cons]; omega)
    have hshape : scalarChars (.str s) ++ c :: t
        = Char.ofNat 34 :: (escChars s.toList ++ Char.ofNat 34 :: (c :: t)) := by
      simp [scalarChars]
    rw [hshape]
    simp only [parse_value, show ¬ Char.ofNat 34 = Char.ofNat 123 by decide,
      show ¬ Char.ofNat 34 = '[' by decide, if_false, if_true, hlex]
    rfl
  | int n =>
    obtain ⟨d, r, hd, hdc⟩ := dump_integer_head n
    have hcd : c.isDigit = false ∧ c ≠ '.' ∧ c ≠ 'e' ∧ c ≠ 'E' := by
      rcases hc with rfl | rfl <;> decide
    have hlex := lex_number_dump_integer strtod n hr.1 hr.2 t hcd.1 hcd.2.1 hcd.2.2.1 hcd.2.2.2
    have e1 : d ≠ Char.ofNat 123 := isDigit_ne (by decide) hdc (by decide)
    have e2 : d ≠ '[' := isDigit_ne (by decide) hdc (by decide)
    have e3 : d ≠ Char.ofNat 34 := isDigit_ne (by decide) hdc (by decide)
    simp only [scalarChars] at hlex ⊢
    rw [hd] at hlex ⊢
    simp only [List.cons_append, parse_value, e1, e2, e3, if_false, hdc, if_true]
    exact hlex

theorem setEntry_fresh {α : Type} :
    ∀ (acc : List (String × α)) (k : String) (v : α), (∀ e, e ∈ acc → e.1 ≠ k) →
      setEntry acc k v = acc ++ [(k, v)] := by
  intro acc
  induction acc with
  | nil => intro k v _; rfl
  | cons a acc ih =>
    intro k v h
    obtain ⟨k1, v1⟩ := a
    have hne : ¬ k1 = k := h (k1, v1) (List.mem_cons_self _ _)
    simp only [setEntry, hne, if_false, List.cons_append]
    rw [ih k v (fun e he => h e (List.mem_cons_of_mem _ he))]

theorem tailChars_head (es : List (String × Scalar)) (rest : List Char) :
    ∃ c t, tailChars es ++ rest = c :: t ∧ (c = ',' ∨ c = Char.ofNat 125) := by
  cases es with
  | nil => exact ⟨_, _, rfl, Or.inr rfl⟩
  | cons e es => exact ⟨_, _, rfl, Or.inl rfl⟩

/-- The parser reads the members of the compact text of a flat object with
distinct keys back, in order. -/
theorem parse_members_flat (pv : List Char → Option (JsonDoc × List Char))
    (all : List (String × Scalar))
    (hpv : ∀ e, e ∈ all → ∀ (c : Char) (t : List Char), c = ',' ∨ c = Char.ofNat 125 →
      pv (scalarChars e.2 ++ c :: t) = some (e.2.doc, c :: t))
    (hw : ∀ e, e ∈ all → c_str e.1 = e.1) :
    ∀ (es : List (String × Scalar)) (e : String × Scalar) (acc : List (String × JsonDoc))
      (fuel : Nat) (rest : List Char),
      (∀ x, x ∈ e :: es → x ∈ all) → es.length < fuel →
      ((e :: es).map Prod.fst).Nodup → (∀ a, a ∈ acc → ∀ x, x ∈ e :: es → a.1 ≠ x.1) →
      parse_members pv fuel (memberChars e ++ tailChars es ++ rest) acc
        = some (acc ++ (e :: es).map (fun x => (x.1, x.2.doc)), rest) := by
  intro es
  induction es with
  | nil =>
    intro e acc fuel rest hall hf hnd hacc
    obtain ⟨f, rfl⟩ : ∃ f, fuel = f + 1 := ⟨fuel - 1, by simp at hf; omega⟩
    have hin := hall e (List.mem_cons_self _ _)
    have hlen := escChars_length e.1.toList
    have hlex := lex_string_esc e.1.toList (c_str_chars (hw e hin))
      ((escChars e.1.toList ++ Char.ofNat 34 :: ':' :: (scalarChars e.2 ++
        Char.ofNat 125 :: rest)).length + 1)
      (':' :: (scalarChars e.2 ++ Char.ofNat 125 :: rest))
      (by simp only [List.length_append, List.length_cons]; omega)
    have hval := hpv e hin (Char.ofNat 125) rest (Or.inr rfl)
    have hws : ∀ l : List Char, (scalarChars e.2 ++ l).dropWhile json_ws = scalarChars e.2 ++ l := by
      intro l
      cases he : e.2 with
      | str s => rfl
      | int n =>
        obtain ⟨d, r, hd, hdc⟩ := dump_integer_head n
        simp only [scalarChars, hd, List.cons_append]
        rw [List.dropWhile_cons_of_neg]
        rcases hdc with rfl | h
        · decide
        · have := isspace_of_isDigit h
          intro hx
          simp only [json_ws, Bool.or_eq_true, decide_eq_true_eq] at hx
          simp only [isspace, Bool.or_eq_false_iff, decide_eq_false_iff_not] at this
          rcases hx with ((rfl | rfl) | rfl) | rfl
          · exact this.1 rfl
          · revert h; decide
          · revert h; decide
          · revert h; decide
    have hkey : setEntry acc (String.mk e.1.toList) e.2.doc = acc ++ [(e.1, e.2.doc)] :=
      setEntry_fresh acc e.1 e.2.doc (fun a ha => hacc a ha e (List.mem_cons_self _ _))
    have hshape : memberChars e ++ tailChars [] ++ rest
        = Char.ofNat 34 :: (escChars e.1.toList ++ Char.ofNat 34 :: ':' :: (scalarChars e.2 ++
          Char.ofNat 125 :: rest)) := by
      simp [memberChars, tailChars]
    rw [hshape]
    simp only [parse_members, if_true, hlex]
    simp only [List.dropWhile_cons_of_neg (show ¬ json_ws ':' = true by decide), if_true, hws,
      hval, List.dropWhile_cons_of_neg (show ¬ json_ws (Char.ofNat 125) = true by decide),
      show ¬ Char.ofNat 125 = ',' by decide, if_false, hkey, List.map_cons, List.map_nil]
  | cons e1 es ih =>
    intro e acc fuel rest hall hf hnd hacc
    obtain ⟨f, rfl⟩ : ∃ f, fuel = f + 1 := ⟨fuel - 1, by simp at hf; omega⟩
    have hin := hall e (List.mem_cons_self _ _)
    have hlen := escChars_length e.1.toList
    have hlex := lex_string_esc e.1.toList (c_str_chars (hw e hin))
      ((escChars e.1.toList ++ Char.ofNat 34 :: ':' :: (scalarChars e.2 ++
        ',' :: (memberChars e1 ++ tailChars es ++ rest))).length + 1)
      (':' :: (scalarChars e.2 ++ ',' :: (memberChars e1 ++ tailChars es ++ rest)))
      (by simp only [List.length_append, List.length_cons]; omega)
    have hval := hpv e hin ',' (memberChars e1 ++ tailChars es ++ rest) (Or.inl rfl)
    have hws : ∀ l : List Char, (scalarChars e.2 ++ l).dropWhile json_ws = scalarChars e.2 ++ l := by
      intro l
      cases he : e.2 with
      | str s => rfl
      | int n =>
        obtain ⟨d, r, hd, hdc⟩ := dump_integer_head n
        simp only [scalarChars, hd, List.cons_append]
        rw [List.dropWhile_cons_of_neg]
        rcases hdc with rfl | h
        · decide
        · have := isspace_of_isDigit h
          intro hx
          simp only [json_ws, Bool.or_eq_true, decide_eq_true_eq] at hx
          simp only [isspace, Bool.or_eq_false_iff, decide_eq_false_iff_not] at this
          rcases hx with ((rfl | rfl) | rfl) | rfl
          · exact this.1 rfl
          · revert h; decide
          · revert h; decide
          · revert h; decide
    have hkey : setEntry acc (String.mk e.1.toList) e.2.doc = acc ++ [(e.1, e.2.doc)] :=
      setEntry_fresh acc e.1 e.2.doc (fun a ha => hacc a ha e (List.mem_cons_self _ _))
    have hshape : memberChars e ++ tailChars (e1 :: es) ++ rest
        = Char.ofNat 34 :: (escChars e.1.toList ++ Char.ofNat 34 :: ':' :: (scalarChars e.2 ++
          ',' :: (memberChars e1 ++ tailChars es ++ rest))) := by
      simp [memberChars, tailChars]
    have hnext : (memberChars e1 ++ tailChars es ++ rest).dropWhile json_ws
        = memberChars e1 ++ tailChars es ++ rest := rfl
    have hnd1 : ((e1 :: es).map Prod.fst).Nodup := by
      simp only [List.map_cons] at hnd ⊢
      exact (List.nodup_cons.1 hnd).2
    have hfresh : ∀ x, x ∈ e1 :: es → e.1 ≠ x.1 := by
      intro x hx heq
      simp only [List.map_cons] at hnd
      apply (List.nodup_cons.1 hnd).1
      rw [heq]
      exact List.mem_map_of_mem Prod.fst hx
    have hrec := ih e1 (acc ++ [(e.1, e.2.doc)]) f rest
      (fun x hx => hall x (List.mem_cons_of_mem _ hx))
      (by simp only [List.length_cons] at hf; omega) hnd1
      (by
        intro a ha x hx
        rcases List.mem_append.1 ha with h | h
        · exact hacc a h x (List.mem_cons_of_mem _ hx)
        · simp only [List.mem_singleton] at h
          rw [h]
          exact hfresh x hx)
    rw [hshape]
    simp only [parse_members, if_true, hlex]
    simp only [List.dropWhile_cons_of_neg (show ¬ json_ws ':' = true by decide), if_true, hws,
      hval, List.dropWhile_cons_of_neg (show ¬ json_ws ',' = true by decide), hkey, hnext, hrec]
    simp

theorem tailChars_length (es : List (String × Scalar)) : es.length < (tailChars es).length := by
  induction es with
  | nil => simp [tailChars]
  | cons e es ih =>
    simp only [tailChars, List.length_cons, List.length_append]
    omega

/-- The backend parser reads the compact text of a flat object with distinct
keys, whose keys and strings have no NUL and whose integers fit 64 bits, back
as that object. -/
theorem json_parse_flatText (strtod : String → Option Nat) (flat : List (String × Scalar))
    (hnd : (flat.map Prod.fst).Nodup)
    (hw : ∀ e, e ∈ flat → c_str e.1 = e.1 ∧ e.2.whole ∧ e.2.inRange) :
    json_parse strtod (flatText flat) = some (flatDoc flat) := by
  unfold json_parse
  rw [flatText_toList]
  cases flat with
  | nil => rfl
  | cons e es =>
    obtain ⟨R, hR⟩ : ∃ R, memberChars e ++ tailChars es = Char.ofNat 34 :: R := ⟨_, rfl⟩
    have hlen : es.length < (Char.ofNat 34 :: R).length + 1 := by
      rw [← hR]
      have := tailChars_length es
      simp only [List.length_append]
      omega
    have hpm := parse_members_flat (parse_value strtod ((Char.ofNat 34 :: R).length + 1))
      (e :: es)
      (fun x hx c t hc => parse_value_scalar strtod _ x.2 (hw x hx).2.1 (hw x hx).2.2 t hc)
      (fun x hx => (hw x hx).1) es e [] ((Char.ofNat 34 :: R).length + 1) []
      (fun x hx => hx) hlen hnd (fun a ha => by cases ha)
    rw [List.append_nil, hR] at hpm
    show (match (Char.ofNat 123 :: (memberChars e ++ tailChars es)).dropWhile json_ws with
      | [] => none
      | c :: rest =>
        if c = Char.ofNat 123 ∨ c = '[' then
          match parse_value strtod (rest.length + 2) (c :: rest) with
          | none => none
          | some (d, tail) => if tail.dropWhile json_ws = [] then some d else none
        else none) = _
    rw [hR, List.dropWhile_cons_of_neg (show ¬ json_ws (Char.ofNat 123) = true by decide)]
    simp only [true_or, if_true, parse_value,
      List.dropWhile_cons_of_neg (show ¬ json_ws (Char.ofNat 34) = true by decide),
      show ¬ Char.ofNat 34 = Char.ofNat 125 by decide, if_false, hpm, Option.map_some',
      List.dropWhile_nil, List.nil_append]
    rfl

theorem setEntry_keys {α : Type} :
    ∀ (acc : List (String × α)) (k : String) (v : α),
      (setEntry acc k v).map Prod.fst
        = if k ∈ acc.map Prod.fst then acc.map Prod.fst else acc.map Prod.fst ++ [k] := by
  intro acc
  induction acc with
  | nil => intro k v; simp [setEntry]
  | cons a acc ih =>
    intro k v
    obtain ⟨k1, v1⟩ := a
    by_cases h : k1 = k
    · subst h
      simp [setEntry]
    · have h2 : ¬ k = k1 := fun x => h x.symm
      simp only [setEntry, h, if_false, List.map_cons, ih, List.mem_cons, h2, false_or]
      split <;> simp

theorem mem_setEntry {α : Type} :
    ∀ (acc : List (String × α)) (k : String) (v : α) (e : String × α),
      e ∈ setEntry acc k v → e ∈ acc ∨ e = (k, v) := by
  intro acc
  induction acc with
  | nil =>
    intro k v e he
    simp only [setEntry, List.mem_singleton] at he
    exact Or.inr he
  | cons a acc ih =>
    intro k v e he
    obtain ⟨k1, v1⟩ := a
    by_cases h : k1 = k
    · simp only [setEntry, h, if_true, List.mem_cons] at he
      rcases he with h1 | h1
      · exact Or.inr h1
      · exact Or.inl (List.mem_cons_of_mem _ h1)
    · simp only [setEntry, h, if_false, List.mem_cons] at he
      rcases he with h1 | h1
      · exact Or.inl (h1 ▸ List.mem_cons_self _ _)
      · rcases ih k v e h1 with h2 | h2
        · exact Or.inl (List.mem_cons_of_mem _ h2)
        · exact Or.inr h2

/-- The mapping a sequence of stores builds has distinct keys, and each of its
entries is one of the stores. -/
theorem flatOf_spec (ps : List (String × Scalar)) :
    ((flatOf ps).map Prod.fst).Nodup ∧ ∀ e, e ∈ flatOf ps → e ∈ ps := by
  have h : ∀ (ps : List (String × Scalar)) (acc : List (String × Scalar)),
      (acc.map Prod.fst).Nodup →
      ((ps.foldl (fun acc p => setEntry acc p.1 p.2) acc).map Prod.fst).Nodup ∧
      ∀ e, e ∈ ps.foldl (fun acc p => setEntry acc p.1 p.2) acc → e ∈ acc ∨ e ∈ ps := by
    intro ps
    induction ps with
    | nil =>
      intro acc hn
      exact ⟨hn, fun e he => Or.inl he⟩
    | cons p ps ih =>
      intro acc hn
      have hn1 : ((setEntry acc p.1 p.2).map Prod.fst).Nodup := by
        rw [setEntry_keys]
        split
        · exact hn
        · rename_i hk
          rw [List.nodup_append]
          refine ⟨hn, List.nodup_singleton _, ?_⟩
          intro x hx hy
          simp only [List.mem_singleton] at hy
          exact hk (hy ▸ hx)
      obtain ⟨i1, i2⟩ := ih (setEntry acc p.1 p.2) hn1
      refine ⟨i1, fun e he => ?_⟩
      rcases i2 e he with h1 | h1
      · rcases mem_setEntry acc p.1 p.2 e h1 with h2 | h2
        · exact Or.inl h2
        · exact Or.inr (h2 ▸ List.mem_cons_self _ _)
      · exact Or.inr (List.mem_cons_of_mem _ h1)
  obtain ⟨h1, h2⟩ := h ps [] List.nodup_nil
  refine ⟨h1, fun e he => ?_⟩
  rcases h2 e he with h3 | h3
  · cases h3
  · exact h3

/-! ## The claims -/

open JsonSerializer

/-- C4. Reference-count balance: after every sequence of handle operations
(construction, copy, assignment, `Clear`, destruction, `Parse`,
`CreateRootObject`, `GetObject` into a distinct handle, `PutObject`,
`GetCollection`, `PutCollection`, `PutStringCollection`, string and typed
`PutValue`) started from nothing, the count of every allocated node is the
number of handles holding it plus the number of object/array slots that refer
to it, and it is positive (a node without holder has been freed); and every
address held by a handle or a slot is still allocated (no premature free). -/
theorem C4_refcount_balance (parser : String → Option JsonDoc) (ops : List Op)
    (hadm : admissibleRun parser State.init ops = true) :
    (∀ a n, (run parser State.init ops).heap.get a = some n →
      n.refcount = holders (run parser State.init ops) a
          + slotCount (run parser State.init ops).heap a ∧ 0 < n.refcount) ∧
    (∀ a, 0 < holders (run parser State.init ops) a
          + slotCount (run parser State.init ops).heap a →
      ((run parser State.init ops).heap.get a).isSome = true) := by
  have hb := run_balanced parser ops State.init init_balanced hadm
  refine ⟨fun a n hn => ⟨?_, hb.2 a n hn⟩, fun a ha => ?_⟩
  · have := hb.1 a
    rw [refcountAt_of_get hn] at this
    simpa [holders] using this
  · rw [← refcountAt_pos_iff hb, hb.1 a]
    simpa [holders] using ha

/-- C4, at a run that parses a document, takes an aliasing view of a nested
object, writes through it, stores a collection, fails a `PutCollection` on an
empty element, and clears the root. -/
theorem C4_refcount_balance_witness :
    admissibleRun sampleParser State.init
      [.default, .Parse 0 "sample", .default, .GetObject 0 "mongo" 1, .PutValue 1 "hostip" "::1",
       .copy 1, .PutCollection 0 "list" [1, 2], .default, .PutCollection 0 "list" [1, 3],
       .PutStringCollection 3 "" ["a", "b"] (-1), .PutObject 1 "tags" 3,
       .GetCollection 0 "list" [], .assign 2 0, .Clear 0, .PutValueT 1 "port" (some "8080") 8080,
       .destroy 2] = true ∧
    ((run sampleParser State.init
      [.default, .Parse 0 "sample", .default, .GetObject 0 "mongo" 1, .PutValue 1 "hostip" "::1",
       .copy 1, .PutCollection 0 "list" [1, 2], .default, .PutCollection 0 "list" [1, 3],
       .PutStringCollection 3 "" ["a", "b"] (-1), .PutObject 1 "tags" 3,
       .GetCollection 0 "list" [], .assign 2 0, .Clear 0, .PutValueT 1 "port" (some "8080") 8080,
       .destroy 2]).heap.get 3).isSome = true :=
  ⟨by decide,
   (C4_refcount_balance sampleParser
      [.default, .Parse 0 "sample", .default, .GetObject 0 "mongo" 1, .PutValue 1 "hostip" "::1",
       .copy 1, .PutCollection 0 "list" [1, 2], .default, .PutCollection 0 "list" [1, 3],
       .PutStringCollection 3 "" ["a", "b"] (-1), .PutObject 1 "tags" 3,
       .GetCollection 0 "list" [], .assign 2 0, .Clear 0, .PutValueT 1 "port" (some "8080") 8080,
       .destroy 2] (by decide)).2 3 (by decide)⟩

/-- C5. Self-assignment `a = a`: `Clear()` runs first and nulls `m_Json`, which
is then copied from the handle itself, so the handle always ends up empty.
In the sample state handle 0 holds the parsed document as its only holder:
before the assignment `GetValue("dbtype")` gives "mongo", after it the handle
holds nothing, the node has been freed and `GetValue` fails. -/
theorem C5_self_assignment_empties :
    (∀ (s : State) (a : Nat), m_Json (assign s a a) a = none) ∧
    m_Json sampleState 0 = some 4 ∧
    GetValue sampleState 0 "dbtype" "" = (true, "mongo") ∧
    m_Json (assign sampleState 0 0) 0 = none ∧
    (assign sampleState 0 0).heap.get 4 = none ∧
    GetValue (assign sampleState 0 0) 0 "dbtype" "" = (false, "") :=
  ⟨assign_self_empty, by decide, by decide, by decide, by decide, by decide⟩

/-- C6. For a key `k` that is passed whole (`k.c_str()` is `k`: no embedded
NUL), the string `GetValue(k, out)` returns true exactly when the handle holds
an object node that has key `k` whose value is a string node; then `out`
becomes that string's text, and otherwise (empty handle, node of another
type, key absent, value of a type other than string) `out` is left as it
was. -/
theorem C6_GetValue_string (s : State) (h : Nat) (k out : String) (_hk : c_str k = k) :
    ((GetValue s h k out).1 = true ↔
      ∃ o rc ms c rc1 str, m_Json s h = some o ∧ s.heap.get o = some ⟨rc, .object ms⟩ ∧
        ms.lookup k = some c ∧ s.heap.get c = some ⟨rc1, .string str⟩) ∧
    (∀ o rc ms c rc1 str, m_Json s h = some o → s.heap.get o = some ⟨rc, .object ms⟩ →
        ms.lookup k = some c → s.heap.get c = some ⟨rc1, .string str⟩ →
        GetValue s h k out = (true, str)) ∧
    ((GetValue s h k out).1 = false → (GetValue s h k out).2 = out) := by
  rcases GetValue_cases s h k out with ⟨o, rc, ms, c, rc1, str, hm, hg, hl, hc, hv⟩ | ⟨hno, hv⟩
  · refine ⟨⟨fun _ => ⟨o, rc, ms, c, rc1, str, hm, hg, hl, hc⟩, fun _ => by rw [hv]⟩, ?_, ?_⟩
    · intro o2 rc2 ms2 c2 rc3 str2 hm2 hg2 hl2 hc2
      rw [hm] at hm2
      cases hm2
      rw [hg] at hg2
      cases hg2
      rw [hl] at hl2
      cases hl2
      rw [hc] at hc2
      cases hc2
      exact hv
    · intro hf
      rw [hv] at hf
      cases hf
  · refine ⟨⟨fun ht => ?_, fun hex => absurd hex hno⟩, ?_, ?_⟩
    · rw [hv] at ht
      cases ht
    · intro o rc ms c rc1 str hm hg hl hc
      exact absurd ⟨o, rc, ms, c, rc1, str, hm, hg, hl, hc⟩ hno
    · intro _
      rw [hv]

/-- C6, at the sample state: "dbtype" of the root is the string "mongo", and
"port", absent from the root, leaves the output as it was. -/
theorem C6_GetValue_string_witness :
    c_str "dbtype" = "dbtype" ∧ c_str "port" = "port" ∧
    GetValue sampleState 0 "dbtype" "old" = (true, "mongo") ∧
    (GetValue sampleState 0 "port" "old").2 = "old" :=
  ⟨by decide, by decide,
   (C6_GetValue_string sampleState 0 "dbtype" "old" (by decide)).2.1 4 1
     [("dbtype", 0), ("mongo", 3)] 0 1 "mongo" (by decide) (by decide) (by decide) (by decide),
   (C6_GetValue_string sampleState 0 "port" "old" (by decide)).2.2 (by decide)⟩

/-- C8, as stated, fails: on a handle that holds no node `PutStringCollection`
with the empty key returns true, and the handle then holds the new array. -/
theorem C8_counterexample :
    m_Json (JsonSerializer.default State.init).1 0 = none ∧
    (PutStringCollection (JsonSerializer.default State.init).1 0 "" ["a"] (-1)).1 = true ∧
    m_Json (PutStringCollection (JsonSerializer.default State.init).1 0 "" ["a"] (-1)).2 0
      = some 0 := by
  decide

/-- C8 (amended). On a handle that holds no node every accessor reports failure
and the handle stays empty: string and typed `GetValue`, string and typed
`PutValue`, `GetObject`, `PutObject`, `GetCollection`, `PutCollection` and
`GetStringCollection` return false for every key (the empty key included) and
every other argument, `PutStringCollection` returns false for every non-empty
key, and `StreamJsonToBuffer` returns nothing.  The state is left as it was (for
`PutObject`: the handle table is, and in a balanced state the heap too). -/
theorem C8_empty_handle_fails (s : State) (h : Nat) (hm : m_Json s h = none) :
    (∀ key value, GetValue s h key value = (false, value)) ∧
    (∀ (T : Type) (dtostr put_real : Nat → String) (extract : String → T → Bool × T)
        (key : String) (value : T),
        GetValueT dtostr put_real extract s h key value = (false, value)) ∧
    (∀ key value, PutValue s h key value = (false, s)) ∧
    (∀ key rendered ival, PutValueT s h key rendered ival = (false, s)) ∧
    (∀ key out, GetObject s h key out = (false, s)) ∧
    (∀ key object, (PutObject s h key object).1 = false ∧
        (PutObject s h key object).2.handles = s.handles ∧
        (s.Balanced → (PutObject s h key object).2 = s)) ∧
    (∀ key vec, GetCollection s h key vec = (false, s, vec)) ∧
    (∀ key collection, PutCollection s h key collection = (false, s)) ∧
    (∀ key collection limit, GetStringCollection s h key collection limit = (false, collection)) ∧
    (∀ key collection limit, key ≠ "" →
        PutStringCollection s h key collection limit = (false, s)) ∧
    (∀ dtostr, StreamJsonToBuffer dtostr s h = none) := by
  refine ⟨?_, ?_, ?_, ?_, ?_, ?_, ?_, ?_, ?_, ?_, ?_⟩
  · intro key value
    simp [GetValue, hm]
  · intro T dtostr put_real extract key value
    simp [GetValueT, hm]
  · intro key value
    simp [PutValue, hm]
  · intro key rendered ival
    simp [PutValueT, hm]
  · intro key out
    simp [GetObject, hm]
  · intro key object
    have hfail : ∀ p : Ptr, (json_object_set s.heap none key p).2 = -1 := by
      intro p
      cases p <;> rfl
    have hheap : ∀ p : Ptr, (json_object_set s.heap none key p).1
        = json_decref (json_incref s.heap p) p := by
      intro p
      cases p <;> rfl
    have hne : ¬ ((-1 : Int) = 0) := by decide
    refine ⟨?_, ?_, ?_⟩
    · simp only [PutObject, hm, hfail, hne, if_false]
    · simp only [PutObject, hm, hfail, hne, if_false]
    · intro hb
      simp only [PutObject, hm, hfail, hne, if_false, hheap]
      rw [json_decref_incref hb]
  · intro key vec
    simp [GetCollection, hm]
  · intro key collection
    simp [PutCollection, hm]
  · intro key collection limit
    simp [GetStringCollection, hm]
  · intro key collection limit hkey
    have hk : key.isEmpty = false := by
      cases hk : key.isEmpty with
      | false => rfl
      | true =>
        exfalso
        apply hkey
        simpa [String.isEmpty_iff] using hk
    simp [PutStringCollection, hm, hk]
  · intro dtostr
    simp [StreamJsonToBuffer, hm]

/-- C8 (amended), at the empty handle 1 of the sample state. -/
theorem C8_empty_handle_fails_witness :
    m_Json sampleState 1 = none ∧ PutValue sampleState 1 "k" "v" = (false, sampleState) :=
  ⟨by decide, (C8_empty_handle_fails sampleState 1 (by decide)).2.2.1 "k" "v"⟩

/-- C9, as stated, fails: after `Parse` has failed on the empty text, handle 0
of the sample state holds no node, yet not every subsequent accessor fails:
`PutStringCollection` with the empty key returns true and the handle holds the
new array. -/
theorem C9_counterexample :
    (m_Json sampleState 0).isSome = true ∧
    (Parse (json_parse fun _ => none) sampleState 0 "").1 = false ∧
    m_Json (Parse (json_parse fun _ => none) sampleState 0 "").2 0 = none ∧
    (PutStringCollection (Parse (json_parse fun _ => none) sampleState 0 "").2 0 "" ["a"]
      (-1)).1 = true ∧
    (m_Json (PutStringCollection (Parse (json_parse fun _ => none) sampleState 0 "").2 0 ""
      ["a"] (-1)).2 0).isSome = true := by
  decide

/-- C9, amended.  For an existing handle, whatever it held before, and a text
that is passed whole (`text.c_str()` is `text`), `Parse(text)` returns true
exactly when the backend parser accepts the text.  What the handle held is
released first.  On success the handle holds exactly the node the parser
returned: it is allocated, and reading it back from the heap gives the parsed
document.  On failure the handle holds no node: the state is the one `Clear()`
leaves, every subsequent accessor fails and leaves the state as it is, for
every key and argument, except `PutStringCollection` with the empty key, which
succeeds; and `StreamJsonToBuffer` returns nothing.  The backend parser
rejects the empty text and the tail of an object without its opening. -/
theorem C9_Parse (parser : String → Option JsonDoc) (s : State) (h : Nat) (text : String)
    (hlt : h < s.handles.length) (_ht : c_str text = text) :
    ((Parse parser s h text).1 = true ↔ (parser text).isSome = true) ∧
    (∀ d, parser text = some d →
      m_Json (Parse parser s h text).2 h = some (allocDoc (Clear s h).heap d).2 ∧
      (Parse parser s h text).2.heap = (allocDoc (Clear s h).heap d).1 ∧
      (∃ f, ∀ f1, f ≤ f1 →
        readDoc f1 (Parse parser s h text).2.heap (allocDoc (Clear s h).heap d).2 = some d) ∧
      (s.Balanced →
        ((Parse parser s h text).2.heap.get (allocDoc (Clear s h).heap d).2).isSome = true)) ∧
    ((Parse parser s h text).1 = false →
      (Parse parser s h text).2 = Clear s h ∧
      m_Json (Parse parser s h text).2 h = none ∧
      AccessorsFail (Parse parser s h text).2 h ∧
      (∀ collection limit,
        (PutStringCollection (Parse parser s h text).2 h "" collection limit).1 = true) ∧
      (∀ dtostr, StreamJsonToBuffer dtostr (Parse parser s h text).2 h = none)) ∧
    (∀ strtod, json_parse strtod "" = none ∧
      json_parse strtod "\"30000\",\"WC\": \"1\" \x7d\x7d " = none) := by
  have hlt1 : h < (Clear s h).handles.length := by rw [Clear_length]; exact hlt
  refine (fun (x : _ ∧ _ ∧ _) => ⟨x.1, x.2.1, x.2.2, fun _ => ⟨rfl, rfl⟩⟩) ?_
  cases hp : parser text with
  | none =>
    have hstate : (Parse parser s h text).2 = Clear s h := by
      simp only [Parse, json_loads, hp]
      show set_m_Json (Clear s h) h none = Clear s h
      unfold set_m_Json
      rw [Clear_handles, List.set_set]
      rfl
    have hflag : (Parse parser s h text).1 = false := by
      simp only [Parse, json_loads, hp]
      rw [m_Json_set_eq _ hlt1]
      rfl
    have hnone : m_Json (Parse parser s h text).2 h = none := by
      rw [hstate]
      exact Clear_m_Json_self s h
    have hlt2 : h < (Parse parser s h text).2.handles.length := by
      rw [hstate]
      exact hlt1
    refine ⟨by simp [hflag], (fun d hd => by cases hd),
      fun _ => ⟨hstate, hnone, empty_handle_accessors _ h hnone, ?_, ?_⟩⟩
    · intro collection limit
      exact (@PutStringCollection_root _ h "" collection limit hlt2 hnone rfl).1
    · intro dtostr
      simp [StreamJsonToBuffer, hnone]
  | some d =>
    have hflag : (Parse parser s h text).1 = true := by
      simp only [Parse, json_loads, hp]
      rw [m_Json_set_mk _ _ _ _ hlt1]
      rfl
    have hptr : m_Json (Parse parser s h text).2 h = some (allocDoc (Clear s h).heap d).2 := by
      simp only [Parse, json_loads, hp]
      rw [m_Json_set_mk _ _ _ _ hlt1]
    refine ⟨by simp [hflag], fun d1 hd => ?_, fun hf => by rw [hflag] at hf; cases hf⟩
    cases hd
    have hheap : (Parse parser s h text).2.heap = (allocDoc (Clear s h).heap d).1 := by
      simp only [Parse, json_loads, hp]
      rfl
    refine ⟨hptr, hheap, ?_, fun hb => ?_⟩
    · rw [hheap]
      exact allocDoc_read d (Clear s h).heap
    · exact Balanced.live_of_m_Json (Parse_balanced parser hb text hlt) hptr

/-- C9, at the sample state: parsing the sample text into the empty handle 1
succeeds, as the sample parser accepts it. -/
theorem C9_Parse_witness :
    (1 < sampleState.handles.length) ∧ c_str "sample" = "sample" ∧
    ((Parse sampleParser sampleState 1 "sample").1 = true ↔
      (sampleParser "sample").isSome = true) :=
  ⟨by decide, by decide,
   (C9_Parse sampleParser sampleState 1 "sample" (by decide) (by decide)).1⟩

/-- C7. For a key `k` and a value `v` that are passed whole (`c_str()` loses
nothing: no embedded NUL), the string `PutValue(k, v)` returns true exactly when
the handle holds an object node.  When it does, in a balanced state: the
handle still holds that object, whose members are the old ones with `k` set to
a string node of text `v` (a previous value under `k` is overwritten whatever
its type, a lookup of any other key, itself passed whole, gives the node it
gave before and `GetValue` reads under it what it read before), so a following
`GetValue(k)` returns true with `v`.  When it returns false the state is
unchanged. -/
theorem C7_PutValue_string (s : State) (h : Nat) (k v : String) (hb : s.Balanced)
    (_hk : c_str k = k) (_hv : c_str v = v) :
    ((PutValue s h k v).1 = true ↔
      ∃ o rc ms, m_Json s h = some o ∧ s.heap.get o = some ⟨rc, .object ms⟩) ∧
    (∀ o rc ms, m_Json s h = some o → s.heap.get o = some ⟨rc, .object ms⟩ →
      m_Json (PutValue s h k v).2 h = some o ∧
      (∃ rc1 c rc2,
        (PutValue s h k v).2.heap.get o = some ⟨rc1, .object (setMember ms k c)⟩ ∧
        (PutValue s h k v).2.heap.get c = some ⟨rc2, .string v⟩ ∧
        json_object_get (PutValue s h k v).2.heap (some o) k = some c) ∧
      (∀ k2, c_str k2 = k2 → k2 ≠ k →
        json_object_get (PutValue s h k v).2.heap (some o) k2
          = json_object_get s.heap (some o) k2 ∧
        ∀ out, GetValue (PutValue s h k v).2 h k2 out = GetValue s h k2 out) ∧
      (∀ out, GetValue (PutValue s h k v).2 h k out = (true, v))) ∧
    ((PutValue s h k v).1 = false → (PutValue s h k v).2 = s) := by
  refine ⟨⟨fun ht => ?_, fun ⟨o, rc, ms, hm, hg⟩ => ?_⟩, ?_, ?_⟩
  · cases hc : json_is_object s.heap (m_Json s h) with
    | true => exact (json_is_object_iff _ _).1 hc
    | false => rw [PutValue_not_object k v hc] at ht; cases ht
  · exact (PutValue_spec hb hm hg k v).1
  · intro o rc ms hm hg
    obtain ⟨hok, hh, _, ⟨rc1, ho⟩, ⟨rc2, hn⟩⟩ := PutValue_spec hb hm hg k v
    have hm1 : m_Json (PutValue s h k v).2 h = some o := by
      unfold m_Json
      rw [hh]
      exact hm
    refine ⟨hm1, ⟨rc1, s.heap.length, rc2, ho, hn, ?_⟩, fun k2 _ hk2 => ⟨?_, ?_⟩, ?_⟩
    · simp only [json_object_get, ho]
      exact lookup_setMember_self ms k s.heap.length
    · simp only [json_object_get, ho, hg]
      exact lookup_setMember_ne ms k k2 s.heap.length hk2
    · exact PutValue_GetValue_other hb hm hg k v hk2
    · exact PutValue_GetValue hb rfl k v hok
  · intro hf
    cases hc : json_is_object s.heap (m_Json s h) with
    | false => rw [PutValue_not_object k v hc]
    | true =>
      obtain ⟨o, rc, ms, hm, hg⟩ := (json_is_object_iff _ _).1 hc
      rw [(PutValue_spec hb hm hg k v).1] at hf
      cases hf

/-- C7, at the sample state: writing "dbtype" through handle 0. -/
theorem C7_PutValue_string_witness :
    sampleState.Balanced ∧ c_str "dbtype" = "dbtype" ∧ c_str "sql" = "sql" ∧
    ((PutValue sampleState 0 "dbtype" "sql").1 = true ↔
      ∃ o rc ms, m_Json sampleState 0 = some o ∧
        sampleState.heap.get o = some ⟨rc, .object ms⟩) :=
  ⟨run_balanced sampleParser _ State.init init_balanced (by decide), by decide, by decide,
   (C7_PutValue_string sampleState 0 "dbtype" "sql"
      (run_balanced sampleParser _ State.init init_balanced (by decide))
      (by decide) (by decide)).1⟩

/-- C2, as stated, fails: `GetObject("nope", out)` on handle 0 of the sample
state returns false and leaves the empty handle 1 empty, yet not every
accessor on it fails: `PutStringCollection` with the empty key returns true and
the handle then holds the new array. -/
theorem C2_counterexample :
    (1 : Nat) ≠ 0 ∧ m_Json sampleState 1 = none ∧
    (GetObject sampleState 0 "nope" 1).1 = false ∧
    m_Json (GetObject sampleState 0 "nope" 1).2 1 = none ∧
    (PutStringCollection (GetObject sampleState 0 "nope" 1).2 1 "" ["a"] (-1)).1 = true ∧
    (m_Json (PutStringCollection (GetObject sampleState 0 "nope" 1).2 1 "" ["a"] (-1)).2
      1).isSome = true := by
  decide

/-- C2, amended.  For a handle `h`, a key `k` passed whole (`k.c_str()` is `k`)
and an existing output handle `out` other than `h`, in a balanced state:
`GetObject(k, out)` returns true exactly when `h` holds an object node that
contains `k`, whatever the type of the node under `k`.  When it returns true,
`out` has released what it held (`Clear`) and holds the child node itself, with
its count incremented: the address in the parent's slot, still allocated, no
node being created; reading through `out` gives what reading the child in the
old heap gives.  When it returns false the state is unchanged, so an empty
`out` still holds nothing and every accessor on it fails, for every key and
argument, except `PutStringCollection` with the empty key, which succeeds. -/
theorem C2_GetObject (s : State) (h out : Nat) (k : String) (hb : s.Balanced)
    (hne : out ≠ h) (hlt : out < s.handles.length) (_hk : c_str k = k) :
    ((GetObject s h k out).1 = true ↔
      ∃ o rc ms c, m_Json s h = some o ∧ s.heap.get o = some ⟨rc, .object ms⟩ ∧
        ms.lookup k = some c) ∧
    (∀ o rc ms c, m_Json s h = some o → s.heap.get o = some ⟨rc, .object ms⟩ →
      ms.lookup k = some c →
      (GetObject s h k out).2 = State.mk (json_incref (Clear s out).heap (some c))
          ((Clear s out).handles.set out (some c)) ∧
      m_Json (GetObject s h k out).2 out = some c ∧
      json_object_get (GetObject s h k out).2.heap (m_Json (GetObject s h k out).2 h) k
        = some c ∧
      ((GetObject s h k out).2.heap.get c).isSome = true ∧
      (GetObject s h k out).2.heap.length = s.heap.length ∧
      (GetObject s h k out).2.Balanced ∧
      SameReads (GetObject s h k out).2 out (State.mk s.heap [some c]) 0) ∧
    ((GetObject s h k out).1 = false →
      (GetObject s h k out).2 = s ∧
      (m_Json s out = none →
        m_Json (GetObject s h k out).2 out = none ∧
        AccessorsFail (GetObject s h k out).2 out ∧
        ∀ collection limit,
          (PutStringCollection (GetObject s h k out).2 out "" collection limit).1 = true)) := by
  refine ⟨⟨fun ht => ?_, fun ⟨o, rc, ms, c, hm, hg, hl⟩ => ?_⟩, ?_, ?_⟩
  · cases hj : json_object_get s.heap (m_Json s h) k with
    | none => rw [GetObject_fail out hj] at ht; cases ht
    | some c =>
      obtain ⟨o, rc, ms, hm, hg, hl⟩ := (json_object_get_iff _ _ _ _).1 hj
      exact ⟨o, rc, ms, c, hm, hg, hl⟩
  · rw [GetObject_ok hm hg hl hlt]
  · intro o rc ms c hm hg hl
    obtain ⟨_, hbal, hsh, hmo, hoth, _⟩ := GetObject_spec hb hm hg hl hlt hne
    have hmh : m_Json (GetObject s h k out).2 h = some o := by
      rw [hoth h (Ne.symm hne)]
      exact hm
    have hol := Balanced.live_of_m_Json hbal hmh
    have hget : json_object_get (GetObject s h k out).2.heap (some o) k = some c := by
      rw [json_object_get_shrunk hsh hol]
      exact (json_object_get_iff _ _ _ _).2 ⟨o, rc, ms, rfl, hg, hl⟩
    refine ⟨?_, hmo, ?_, Balanced.live_of_m_Json hbal hmo, hsh.1, hbal, ?_⟩
    · rw [GetObject_ok hm hg hl hlt]
    · rw [hmh]
      exact hget
    · exact sameReads_of_shrunk hsh hbal (by rw [hmo]; rfl)
  · intro hf
    have hs : (GetObject s h k out).2 = s := by
      cases hj : json_object_get s.heap (m_Json s h) k with
      | none => rw [GetObject_fail out hj]
      | some c =>
        obtain ⟨o, rc, ms, hm, hg, hl⟩ := (json_object_get_iff _ _ _ _).1 hj
        rw [GetObject_ok hm hg hl hlt] at hf
        cases hf
    refine ⟨hs, fun hnone => ?_⟩
    rw [hs]
    exact ⟨hnone, empty_handle_accessors s out hnone,
      fun collection limit => (@PutStringCollection_root s out "" collection limit hlt hnone rfl).1⟩

theorem sampleState_balanced : sampleState.Balanced :=
  run_balanced sampleParser _ State.init init_balanced (by decide)

/-- C2, at the sample state: `GetObject("mongo", 1)` on handle 0. -/
theorem C2_GetObject_witness :
    sampleState.Balanced ∧ (1 : Nat) ≠ 0 ∧ 1 < sampleState.handles.length ∧
    c_str "mongo" = "mongo" ∧
    ((GetObject sampleState 0 "mongo" 1).1 = true ↔
      ∃ o rc ms c, m_Json sampleState 0 = some o ∧
        sampleState.heap.get o = some ⟨rc, .object ms⟩ ∧ ms.lookup "mongo" = some c) :=
  ⟨sampleState_balanced, by decide, by decide, by decide,
   (C2_GetObject sampleState 0 1 "mongo" sampleState_balanced (by decide) (by decide)
     (by decide)).1⟩

theorem sampleView_balanced : sampleView.Balanced :=
  run_balanced sampleParser _ State.init init_balanced (by decide)

/-- C11. In a balanced state `PutObject(k, child)` returns false and leaves the
whole state as it was whenever the receiver holds no node, or holds a node
that is not an object (array, string, number, boolean, null); and, in any
state, when the child is an empty handle. -/
theorem C11_PutObject_fails (s : State) (P C : Nat) (k : String) :
    (s.Balanced → m_Json s P = none → PutObject s P k C = (false, s)) ∧
    (s.Balanced → ∀ o n, m_Json s P = some o → s.heap.get o = some n →
      (∀ ms, n.value ≠ .object ms) → PutObject s P k C = (false, s)) ∧
    (m_Json s C = none → PutObject s P k C = (false, s)) := by
  refine ⟨fun hb hP => ?_, fun hb o n hP hg hn => ?_, PutObject_child_empty s P C k⟩
  · apply PutObject_not_object hb
    rw [hP]
    rfl
  · apply PutObject_not_object hb
    cases hc : json_is_object s.heap (m_Json s P) with
    | false => rfl
    | true =>
      obtain ⟨o1, rc, ms, hp, hg1⟩ := (json_is_object_iff _ _).1 hc
      rw [hP] at hp
      cases hp
      rw [hg] at hg1
      cases hg1
      exact absurd rfl (hn ms)

/-- C11, at the sample view state: the empty handle 2 of a state in which
handle 1 holds an object is the receiver, then the child. -/
theorem C11_PutObject_fails_witness :
    (JsonSerializer.default sampleView).1.Balanced ∧
    m_Json (JsonSerializer.default sampleView).1 2 = none ∧
    PutObject (JsonSerializer.default sampleView).1 2 "k" 1
      = (false, (JsonSerializer.default sampleView).1) ∧
    PutObject (JsonSerializer.default sampleView).1 0 "k" 2
      = (false, (JsonSerializer.default sampleView).1) :=
  ⟨default_balanced sampleView_balanced, by decide,
   (C11_PutObject_fails (JsonSerializer.default sampleView).1 2 1 "k").1
     (default_balanced sampleView_balanced) (by decide),
   (C11_PutObject_fails (JsonSerializer.default sampleView).1 0 2 "k").2.2 (by decide)⟩

/-- C13, as stated, fails for the empty key: in the sample view state handle 0
holds an object and handle 1 holds a node, `PutCollection("", [1])` returns
true, and the following `GetCollection("", out)` returns false, because with
an empty key it takes the handle's own node, an object, for the array. -/
theorem C13_counterexample :
    json_is_object sampleView.heap (m_Json sampleView 0) = true ∧
    (m_Json sampleView 1).isSome = true ∧
    (PutCollection sampleView 0 "" [1]).1 = true ∧
    (GetCollection (PutCollection sampleView 0 "" [1]).2 0 "" []).1 = false := by
  decide

/-- C13, amended to non-empty keys.  In a balanced state let the handle hold an
object, let `k` be non-empty and let every handle of the sequence `coll` hold a
node.  Then `PutCollection(k, coll)` returns true and leaves the handles as
they were; afterwards the value under `k` is a newly allocated array (whatever
was under `k` before) whose elements are the nodes of `coll` in order, the
empty array for the empty sequence; and a following `GetCollection(k, out)`
with `out` empty returns true with `out.size() = coll.size()`, where `out[t]`
holds the very node that `coll[t]` holds, before and after. -/
theorem C13_PutCollection_roundtrip (s : State) (self : Nat) (k : String) (coll : List Nat)
    (hb : s.Balanced) (hobj : json_is_object s.heap (m_Json s self) = true)
    (hk : k.isEmpty = false) (hall : ∀ c, c ∈ coll → (m_Json s c).isSome = true) :
    (PutCollection s self k coll).1 = true ∧
    (PutCollection s self k coll).2.handles = s.handles ∧
    (∃ arr rc, s.heap.get arr = none ∧
      json_object_get (PutCollection s self k coll).2.heap
        (m_Json (PutCollection s self k coll).2 self) k = some arr ∧
      (PutCollection s self k coll).2.heap.get arr
        = some ⟨rc, .array (coll.map fun c => (m_Json s c).getD 0)⟩ ∧
      (coll = [] → (PutCollection s self k coll).2.heap.get arr = some ⟨rc, .array []⟩)) ∧
    (GetCollection (PutCollection s self k coll).2 self k []).1 = true ∧
    (GetCollection (PutCollection s self k coll).2 self k []).2.2.length = coll.length ∧
    ∀ t (ht : t < coll.length), ∃ out_t,
      (GetCollection (PutCollection s self k coll).2 self k []).2.2[t]? = some out_t ∧
      (m_Json s coll[t]).isSome = true ∧
      m_Json (GetCollection (PutCollection s self k coll).2 self k []).2.1 out_t
        = m_Json s coll[t] ∧
      m_Json (GetCollection (PutCollection s self k coll).2 self k []).2.1 coll[t]
        = m_Json s coll[t] := by
  obtain ⟨p1, p2, ⟨rc, p3, p4, p5⟩, p6⟩ := PutCollection_GetCollection hb hobj hk hall
  refine ⟨p1, p2, ⟨s.heap.length, rc, p3, p4, p5, fun hc => ?_⟩, ?_⟩
  · rw [p5, hc]
    rfl
  rw [p6]
  refine ⟨rfl, by simp, fun t ht => ?_⟩
  have hs := hall coll[t] (List.getElem_mem ht)
  obtain ⟨e, he⟩ := Option.isSome_iff_exists.1 hs
  refine ⟨s.handles.length + 2 * t + 1, by simp [ht], hs, ?_, ?_⟩
  · have h3 : s.handles.length + 2 * t + 1 = s.handles.length + (2 * t + 1) := by omega
    simp only [h3]
    rw [m_Json_append_right, pushedHandles_getD _ t (by simpa using ht)]
    simp [he]
  · exact m_Json_append_list_left s.heap _ s.handles _ (m_Json_lt he)

/-- C13, amended, at the sample view state: the nested object held by handle 1
is put twice in a collection under "list" of the root held by handle 0. -/
theorem C13_PutCollection_roundtrip_witness :
    sampleView.Balanced ∧ json_is_object sampleView.heap (m_Json sampleView 0) = true ∧
    (PutCollection sampleView 0 "list" [1, 1]).1 = true ∧
    (GetCollection (PutCollection sampleView 0 "list" [1, 1]).2 0 "list" []).1 = true ∧
    (GetCollection (PutCollection sampleView 0 "list" [1, 1]).2 0 "list" []).2.2.length = 2 :=
  have h := C13_PutCollection_roundtrip sampleView 0 "list" [1, 1] sampleView_balanced
    (by decide) (by decide) (by decide)
  ⟨sampleView_balanced, by decide, h.1, h.2.2.2.1, h.2.2.2.2.1⟩

/-- C14. `PutCollection(k, coll)` returns false and leaves the state as it was
when the receiver holds no node or a node that is not an object.  In a balanced
state whose receiver holds an object it returns false exactly when some handle
of the sequence is empty; then, however many elements were appended before the
failing one, the handles are as before and every heap cell reads as before
(count and payload, the receiver's object included), so the value under `k`,
if any, is the one from before and the state is balanced. -/
theorem C14_PutCollection_atomic (s : State) (self : Nat) (k : String) (coll : List Nat)
    (hb : s.Balanced) :
    (m_Json s self = none → PutCollection s self k coll = (false, s)) ∧
    (json_is_object s.heap (m_Json s self) = false → PutCollection s self k coll = (false, s)) ∧
    (json_is_object s.heap (m_Json s self) = true →
      ((PutCollection s self k coll).1 = false ↔ ∃ c, c ∈ coll ∧ m_Json s c = none) ∧
      ((PutCollection s self k coll).1 = false →
        (PutCollection s self k coll).2.handles = s.handles ∧
        (∀ x, (PutCollection s self k coll).2.heap.get x = s.heap.get x) ∧
        (∀ j, json_object_get (PutCollection s self k coll).2.heap
            (m_Json (PutCollection s self k coll).2 self) j
          = json_object_get s.heap (m_Json s self) j) ∧
        (PutCollection s self k coll).2.Balanced)) := by
  refine ⟨fun hn => ?_, fun hno => PutCollection_not_object s self k coll hno, fun hobj => ?_⟩
  · apply PutCollection_not_object
    rw [hn]
    rfl
  obtain ⟨o, rc, ms, hm, hg⟩ := (json_is_object_iff _ _).1 hobj
  have hiff : (PutCollection s self k coll).1 = false ↔ ∃ c, c ∈ coll ∧ m_Json s c = none := by
    constructor
    · intro hf
      by_contra hne
      have hall : ∀ c, c ∈ coll → (m_Json s c).isSome = true := by
        intro c hc
        cases hmc : m_Json s c with
        | none => exact absurd ⟨c, hc, hmc⟩ hne
        | some e => rfl
      rw [(PutCollection_ok hb hm hg k hall).1] at hf
      cases hf
    · intro hex
      exact (PutCollection_append_fails hb hm hg k hex).1
  refine ⟨hiff, fun hf => ?_⟩
  obtain ⟨_, f2, _, f4⟩ := PutCollection_append_fails hb hm hg k (hiff.1 hf)
  refine ⟨f2, f4, fun j => ?_, PutCollection_balanced hb self k coll⟩
  rw [m_Json_of_handles f2 self]
  exact json_object_get_of_get f4 _ j

/-- C14, at the sample view state with a third, empty handle: the collection
`[1, 2]` appends the node of handle 1 and then fails at the empty handle 2. -/
theorem C14_PutCollection_atomic_witness :
    (JsonSerializer.default sampleView).1.Balanced ∧
    json_is_object (JsonSerializer.default sampleView).1.heap
      (m_Json (JsonSerializer.default sampleView).1 0) = true ∧
    (PutCollection (JsonSerializer.default sampleView).1 0 "mongo" [1, 2]).1 = false ∧
    ∀ x, (PutCollection (JsonSerializer.default sampleView).1 0 "mongo" [1, 2]).2.heap.get x
      = (JsonSerializer.default sampleView).1.heap.get x :=
  have h := (C14_PutCollection_atomic (JsonSerializer.default sampleView).1 0 "mongo" [1, 2]
    (default_balanced sampleView_balanced)).2.2 (by decide)
  ⟨default_balanced sampleView_balanced, by decide, h.1.2 ⟨2, by decide, by decide⟩,
   (h.2 (h.1.2 ⟨2, by decide, by decide⟩)).2.1⟩

/-- C17 fails on an array whose element at position `L - 1` is not a string:
the loop of `GetStringCollection` breaks at `i == limit - 1`, before it looks
at that element.  In the list state the array under "list" is `["a", 42]`;
with limit 2 the call returns true (with "a" inserted) although position 1,
one of the first 2, holds an integer; without a limit the same call returns
false. -/
theorem C17_limit_skips_last_position :
    resolveArray listState 0 "list" = some 2 ∧
    listState.heap.get 2 = some ⟨1, .array [0, 1]⟩ ∧
    json_is_string listState.heap (some 0) = true ∧
    json_is_string listState.heap (some 1) = false ∧
    GetStringCollection listState 0 "list" [] 2 = (true, ["a"]) ∧
    GetStringCollection listState 0 "list" [] DEFAULT_LIMIT_GET_COLLECTION = (false, ["a"]) := by
  decide

/-- C19. In a balanced state let the handle hold an object, let `k` be
non-empty and let `S` be a set of strings, given as its strictly ascending
sequence, the key and the strings being passed whole (`c_str()` loses nothing:
no embedded NUL).  Then `PutStringCollection(k, S)` with the default limit returns
true, and a following `GetStringCollection(k, out)` with the default limit and
`out` empty returns true and leaves `out` equal to `S`, so of the size of
`S`. -/
theorem C19_string_collection_roundtrip (s : State) (self : Nat) (k : String)
    (S : List String) (hb : s.Balanced)
    (hobj : json_is_object s.heap (m_Json s self) = true) (hk : k.isEmpty = false)
    (hS : S.Pairwise (fun a b => a < b)) (_hkc : c_str k = k)
    (_hSc : ∀ x ∈ S, c_str x = x) :
    (PutStringCollection s self k S DEFAULT_LIMIT_GET_COLLECTION).1 = true ∧
    GetStringCollection (PutStringCollection s self k S DEFAULT_LIMIT_GET_COLLECTION).2 self k []
      DEFAULT_LIMIT_GET_COLLECTION = (true, S) ∧
    (GetStringCollection (PutStringCollection s self k S DEFAULT_LIMIT_GET_COLLECTION).2 self k []
      DEFAULT_LIMIT_GET_COLLECTION).2.length = S.length := by
  obtain ⟨o, rc, ms, hm, hg⟩ := (json_is_object_iff _ _).1 hobj
  have hok := (PutStringCollection_member hb S DEFAULT_LIMIT_GET_COLLECTION hm hg hk).1
  obtain ⟨rc2, es, _, p2, p3, p4⟩ :=
    PutStringCollection_stored hb S DEFAULT_LIMIT_GET_COLLECTION (m_Json_lt hm) hok
  have hsz := (PutStringCollection_sz_cases S DEFAULT_LIMIT_GET_COLLECTION).2
    (Or.inl (by decide))
  rw [hsz, List.take_length] at p4
  obtain ⟨q1, q2⟩ := strings_of_map es S p4
  have heq := GetStringCollection_array [] DEFAULT_LIMIT_GET_COLLECTION p2 p3
  rw [examinedFrom_nocap (by decide), q1, takeWhile_of_all _ _ q1, q2,
    foldl_std_set_insert_of_sorted S [] (by simpa using hS), List.nil_append] at heq
  refine ⟨hok, heq, ?_⟩
  rw [heq]

/-- C19, at the sample view state: the set `{"a","b"}` under the key "test" of
the root object. -/
theorem C19_string_collection_roundtrip_witness :
    sampleView.Balanced ∧ json_is_object sampleView.heap (m_Json sampleView 0) = true ∧
    ["a", "b"].Pairwise (fun a b => a < b) ∧ c_str "test" = "test" ∧
    (∀ x ∈ ["a", "b"], c_str x = x) ∧
    GetStringCollection
      (PutStringCollection sampleView 0 "test" ["a", "b"] DEFAULT_LIMIT_GET_COLLECTION).2 0
      "test" [] DEFAULT_LIMIT_GET_COLLECTION = (true, ["a", "b"]) :=
  have hS : ["a", "b"].Pairwise (fun a b => a < b) := by
    simp only [List.pairwise_cons, List.mem_cons, List.mem_singleton, forall_eq,
      List.not_mem_nil, false_implies, implies_true, List.Pairwise.nil, and_true, or_false,
      String.lt_iff_toList_lt]
    decide
  ⟨sampleView_balanced, by decide, hS, by decide, by decide,
   (C19_string_collection_roundtrip sampleView 0 "test" ["a", "b"] sampleView_balanced
     (by decide) (by decide) hS (by decide) (by decide)).2.1⟩

/-- C26. For a limit `L >= 1` and a resolved array whose elements are all
strings, `GetStringCollection(k, out, L)` returns true and inserts into `out`
the strings of the first `min(L - 1, size)` elements of the array and nothing
else: `L = 1` inserts nothing and a limit equal to the array size leaves the
last element out.  The previous contents of `out` are kept; when `out`
(ascending, duplicate-free) already has the string of every element, it is
the same set after the call. -/
theorem C26_GetStringCollection_limit (s : State) (self : Nat) (k : String)
    (out : List String) (L : Int) (a rc : Nat) (es : List Nat) (hL : 1 ≤ L)
    (hr : resolveArray s self k = some a) (hg : s.heap.get a = some ⟨rc, .array es⟩)
    (hall : ∀ e, e ∈ es → json_is_string s.heap (some e) = true) :
    GetStringCollection s self k out L
      = (true, ((es.take (L - 1).toNat).map fun e =>
          (json_string_value s.heap (some e)).getD "").foldl std_set_insert out) ∧
    (es.take (L - 1).toNat).length = min (L - 1).toNat es.length ∧
    (∀ x, x ∈ (GetStringCollection s self k out L).2 ↔
      x ∈ out ∨ ∃ e, e ∈ es.take (L - 1).toNat ∧ json_string_value s.heap (some e) = some x) ∧
    (L = 1 → GetStringCollection s self k out L = (true, out)) ∧
    ((L : Int) = es.length → es.take (L - 1).toNat = es.dropLast) ∧
    (out.Pairwise (fun a b => a < b) →
      (∀ e, e ∈ es → (json_string_value s.heap (some e)).getD "" ∈ out) →
      GetStringCollection s self k out L = (true, out)) := by
  have hall1 : (es.take (L - 1).toNat).all (fun e => json_is_string s.heap (some e)) = true := by
    rw [List.all_eq_true]
    intro e he
    exact hall e (List.mem_of_mem_take he)
  have heq := GetStringCollection_array out L hr hg
  rw [examinedFrom_cap hL, hall1, takeWhile_of_all _ _ hall1] at heq
  refine ⟨heq, List.length_take _ _, fun x => ?_, fun h1 => ?_, fun hsz => ?_, fun hs hin => ?_⟩
  · rw [heq]
    simp only
    rw [mem_foldl_std_set_insert, List.mem_map]
    constructor
    · rintro (h1 | ⟨e, he, hx⟩)
      · exact Or.inl h1
      · refine Or.inr ⟨e, he, ?_⟩
        obtain ⟨y, hy⟩ := Option.isSome_iff_exists.1
          (json_string_value_of_is (hall e (List.mem_of_mem_take he)))
        rw [hy] at hx ⊢
        simpa using hx
    · rintro (h1 | ⟨e, he, hx⟩)
      · exact Or.inl h1
      · exact Or.inr ⟨e, he, by rw [hx]; rfl⟩
  · rw [heq, h1]
    rfl
  · rw [List.dropLast_eq_take, hsz]
    congr 1
    omega
  · rw [heq]
    congr 1
    apply foldl_std_set_insert_of_mem _ _ hs
    intro x hx
    obtain ⟨e, he, hxe⟩ := List.mem_map.1 hx
    rw [← hxe]
    exact hin e (List.mem_of_mem_take he)

/-- C26, at the sample view state after `PutStringCollection("names",
{"a","b"})` on the root: with limit 2, the size of the array, only "a" is
inserted. -/
theorem C26_GetStringCollection_limit_witness :
    (1 : Int) ≤ 2 ∧
    resolveArray (PutStringCollection sampleView 0 "names" ["a", "b"] (-1)).2 0 "names"
      = some 5 ∧
    (PutStringCollection sampleView 0 "names" ["a", "b"] (-1)).2.heap.get 5
      = some ⟨1, .array [6, 7]⟩ ∧
    GetStringCollection (PutStringCollection sampleView 0 "names" ["a", "b"] (-1)).2 0 "names"
      [] 2 = (true, ["a"]) :=
  ⟨by decide, by decide, by decide,
   (C26_GetStringCollection_limit (PutStringCollection sampleView 0 "names" ["a", "b"] (-1)).2 0
     "names" [] 2 5 1 [6, 7] (by decide) (by decide) (by decide) (by decide)).1.trans
       (by decide)⟩

/-- C27 fails when `out` is the receiver and the receiver is the only holder of
its root: `GetObject` clears `out` before it acquires the child.  In the
sample state handle 0 is the only holder of the root (address 4), whose member
"mongo" is the object at address 3.  `h.GetObject("mongo", h)` returns true and
leaves the handle pointing to address 3, but `Clear()` has freed the root and,
with it, the child: the handle holds a freed node and reads nothing.  With
another handle for `out` the same call leaves `out` holding the live child. -/
theorem C27_GetObject_into_self_dangles :
    m_Json sampleState 0 = some 4 ∧
    json_object_get sampleState.heap (m_Json sampleState 0) "mongo" = some 3 ∧
    (sampleState.heap.get 3).isSome = true ∧
    (GetObject sampleState 0 "mongo" 0).1 = true ∧
    m_Json (GetObject sampleState 0 "mongo" 0).2 0 = some 3 ∧
    (GetObject sampleState 0 "mongo" 0).2.heap.get 3 = none ∧
    GetValue (GetObject sampleState 0 "mongo" 0).2 0 "hostip" "" = (false, "") ∧
    (GetObject sampleState 0 "mongo" 1).1 = true ∧
    m_Json (GetObject sampleState 0 "mongo" 1).2 1 = some 3 ∧
    ((GetObject sampleState 0 "mongo" 1).2.heap.get 3).isSome = true ∧
    GetValue (GetObject sampleState 0 "mongo" 1).2 1 "hostip" "" = (true, "127.0.0.1") := by
  decide

/-- C23, as stated, fails for a text that starts with a number: after the
string "12abc" is put under "k" of the root object of the sample view state,
`GetValue<long long>("k", v)` returns true with `v = 12`, although "12abc" is
not in its entirety the text of an integer.  It also fails for an unsigned
target type on a negative number: on the string "-1" `GetValue<unsigned
short>("k", v)` returns true with `v = 65535`, although -1 is out of the range
of the type. -/
theorem C23_counterexample :
    decimalLiteral "12abc" = none ∧
    GetValue (PutValue sampleView 0 "k" "12abc").2 0 "k" "" = (true, "12abc") ∧
    GetValue_long_long (fun _ => "") (fun _ => "") 10 (PutValue sampleView 0 "k" "12abc").2 0
      "k" 0 = (true, 12) ∧
    GetValue (PutValue sampleView 0 "k" "-1").2 0 "k" "" = (true, "-1") ∧
    GetValue_integer (fun _ => "") (fun _ => "") ⟨16, false⟩ 10
      (PutValue sampleView 0 "k" "-1").2 0 "k" 0 = (true, 65535) := by
  decide

/-- C23, amended: the conversion reads a prefix.  For every integer target
type `T` (signed or unsigned, of any width) and every radix, with a value
present under `k` (a key passed whole: `k.c_str()` is `k`):
`GetValue<T>(k, v, f)` on a JSON string returns true exactly
when formatted input finds a number at the start of its text (after leading
white space, an optional sign and, in base 16, an optional `0x`) and the
number fits `T`, and `v` is then that number; so it returns false when the
first character after the white space is neither a sign nor a digit of the
radix, when the text is empty or blank (`v` is then untouched), and when the
number read does not fit `T` (in the decimal radix: the decimal text of any
number outside the range of `T`).  "abc" and the empty string fail in the
decimal radix, "12abc" and "3.7" are accepted as 12 and 3, and in base 16
"abc" is itself a number.  The call returns false on a JSON null, whose text
is `null`, and on a nested object or array, whose text is its compact
serialisation and starts with a brace or bracket, or which cannot be
serialised. -/
theorem C23_conversion_failure (dtostr put_real : Nat → String) (T : IntType) (b : Nat)
    (s : State) (self : Nat) (k : String) (v : Int) (a rc : Nat) (x : JsonValue)
    (hi : json_object_get s.heap (m_Json s self) k = some a)
    (hg : s.heap.get a = some ⟨rc, x⟩) (_hk : c_str k = k) :
    (∀ t, x = .string t →
      ((GetValue_integer dtostr put_real T b s self k v).1 = true ↔
        ∃ neg m, scan_integer b t = some (neg, m) ∧ T.fits neg m) ∧
      (∀ neg m, scan_integer b t = some (neg, m) → T.fits neg m →
        GetValue_integer dtostr put_real T b s self k v = (true, T.taken neg m)) ∧
      (∀ c rest, t.toList.dropWhile isspace = c :: rest → c ≠ '-' → c ≠ '+' →
        digitOf b c = none → (GetValue_integer dtostr put_real T b s self k v).1 = false) ∧
      (t.toList.dropWhile isspace = [] →
        GetValue_integer dtostr put_real T b s self k v = (false, v)) ∧
      (∀ neg m, scan_integer b t = some (neg, m) → ¬ T.fits neg m →
        (GetValue_integer dtostr put_real T b s self k v).1 = false) ∧
      (∀ n, b = 10 → t = dump_integer n →
        (if T.signed then n < -(2 : Int) ^ (T.bits - 1) ∨ (2 : Int) ^ (T.bits - 1) ≤ n
         else (2 : Int) ^ T.bits ≤ n) →
        (GetValue_integer dtostr put_real T b s self k v).1 = false)) ∧
    (extract_integer long_long 10 "abc" 7 = (false, 0) ∧
      extract_integer long_long 10 "" 7 = (false, 7) ∧
      extract_integer long_long 10 "12abc" 7 = (true, 12) ∧
      extract_integer long_long 10 "3.7" 7 = (true, 3) ∧
      extract_integer long_long 16 "abc" 7 = (true, 2748) ∧
      extract_integer long_long 8 "abc" 7 = (false, 0) ∧
      extract_integer ⟨16, true⟩ 10 "70000" 7 = (false, 32767) ∧
      extract_integer ⟨16, false⟩ 10 "-1" 7 = (true, 65535)) ∧
    (x = .null → json_dumps dtostr s.heap (some a) = some "null" ∧
      (GetValue_integer dtostr put_real T b s self k v).1 = false) ∧
    (∀ ms, x = .object ms → (GetValue_integer dtostr put_real T b s self k v).1 = false) ∧
    (∀ es, x = .array es → (GetValue_integer dtostr put_real T b s self k v).1 = false) := by
  have hitem := GetValueT_item dtostr put_real (extract_integer T b) v hi hg
  have hhead : ∀ (text : String) (c : Char) (rest : List Char), text.toList = c :: rest →
      isspace c = false → c ≠ '-' → c ≠ '+' → digitOf b c = none →
      (extract_integer T b text v).1 = false := by
    intro text c rest ht h1 h2 h3 h4
    have hdrop : text.toList.dropWhile isspace = c :: rest := by
      rw [ht, List.dropWhile_cons_of_neg]
      rw [h1]
      decide
    exact (extract_integer_spec T b text v).2.1 (scan_integer_head hdrop h2 h3 h4)
  have hbrace : digitOf b (Char.ofNat 123) = none := by
    unfold digitOf
    simp only [show (Char.ofNat 123).isDigit = false by decide, Bool.false_eq_true, if_false,
      show ¬ (97 ≤ (Char.ofNat 123).toNat ∧ (Char.ofNat 123).toNat ≤ 102) by decide,
      show ¬ (65 ≤ (Char.ofNat 123).toNat ∧ (Char.ofNat 123).toNat ≤ 70) by decide,
      Nat.lt_irrefl]
  have hbracket : digitOf b '[' = none := by
    unfold digitOf
    simp only [show ('[' : Char).isDigit = false by decide, Bool.false_eq_true, if_false,
      show ¬ (97 ≤ ('[' : Char).toNat ∧ ('[' : Char).toNat ≤ 102) by decide,
      show ¬ (65 ≤ ('[' : Char).toNat ∧ ('[' : Char).toNat ≤ 70) by decide,
      Nat.lt_irrefl]
  have hn : digitOf b 'n' = none := by
    unfold digitOf
    simp only [show ('n' : Char).isDigit = false by decide, Bool.false_eq_true, if_false,
      show ¬ (97 ≤ ('n' : Char).toNat ∧ ('n' : Char).toNat ≤ 102) by decide,
      show ¬ (65 ≤ ('n' : Char).toNat ∧ ('n' : Char).toNat ≤ 70) by decide,
      Nat.lt_irrefl]
  have hcont : ∀ text, json_dumps dtostr s.heap (some a) = some text →
      (∃ ms, x = .object ms) ∨ (∃ es, x = .array es) →
      (extract_integer T b text v).1 = false := by
    intro text hd hx
    obtain ⟨c1, c2⟩ := do_dump_container_head dtostr hd hg
    rcases hx with ⟨ms, hms⟩ | ⟨es, hes⟩
    · obtain ⟨rest, hr⟩ := c1 ms hms
      exact hhead text _ rest hr (by decide) (by decide) (by decide) hbrace
    · obtain ⟨rest, hr⟩ := c2 es hes
      exact hhead text _ rest hr (by decide) (by decide) (by decide) hbracket
  refine ⟨fun t hx => ?_, by decide, fun hx => ?_, fun ms hx => ?_, fun es hx => ?_⟩
  · subst hx
    have heq : GetValue_integer dtostr put_real T b s self k v = extract_integer T b t v := hitem
    obtain ⟨e1, e2, e3⟩ := extract_integer_spec T b t v
    refine ⟨⟨fun htrue => ?_, fun ⟨neg, m, hsc, hf⟩ => ?_⟩, fun neg m hsc hf => ?_,
      fun c rest ht h1 h2 h3 => ?_, fun ht => ?_, fun neg m hsc hf => ?_,
      fun n hb ht hout => ?_⟩
    · rw [heq] at htrue
      cases hsc : scan_integer b t with
      | none =>
        rw [e2 hsc] at htrue
        cases htrue
      | some p =>
        obtain ⟨neg, m⟩ := p
        refine ⟨neg, m, rfl, ?_⟩
        by_contra hf
        rw [(e3 neg m hsc).2 hf] at htrue
        cases htrue
    · rw [heq, (e3 neg m hsc).1 hf]
    · rw [heq]
      exact (e3 neg m hsc).1 hf
    · rw [heq]
      exact e2 (scan_integer_head ht h1 h2 h3)
    · rw [heq]
      exact e1 ht
    · rw [heq]
      exact (e3 neg m hsc).2 hf
    · subst hb
      rw [heq]
      have hsc : scan_integer 10 t = some (decide (n < 0), n.natAbs) := by
        rw [ht]
        exact scan_integer_dump_integer n
      apply (e3 _ _ hsc).2
      unfold IntType.fits
      cases hs : T.signed with
      | true =>
        simp only [hs, if_true] at hout
        simp only [if_true]
        by_cases hneg : n < 0
        · simp only [hneg, decide_True, if_true]
          omega
        · simp only [hneg, decide_False, Bool.false_eq_true, if_false]
          omega
      | false =>
        simp only [hs, Bool.false_eq_true, if_false] at hout
        simp only [Bool.false_eq_true, if_false]
        omega
  · subst hx
    have hd : json_dumps dtostr s.heap (some a) = some "null" := by
      simp only [json_dumps, do_dump, hg]
    have heq : GetValue_integer dtostr put_real T b s self k v
        = (match json_dumps dtostr s.heap (some a) with
           | none => (false, v)
           | some text => extract_integer T b text v) := hitem
    refine ⟨hd, ?_⟩
    rw [heq, hd]
    exact hhead "null" 'n' _ rfl (by decide) (by decide) (by decide) hn
  · subst hx
    have heq : GetValue_integer dtostr put_real T b s self k v
        = (match json_dumps dtostr s.heap (some a) with
           | none => (false, v)
           | some text => extract_integer T b text v) := hitem
    rw [heq]
    cases hd : json_dumps dtostr s.heap (some a) with
    | none => rfl
    | some text => exact hcont text hd (Or.inl ⟨ms, rfl⟩)
  · subst hx
    have heq : GetValue_integer dtostr put_real T b s self k v
        = (match json_dumps dtostr s.heap (some a) with
           | none => (false, v)
           | some text => extract_integer T b text v) := hitem
    rw [heq]
    cases hd : json_dumps dtostr s.heap (some a) with
    | none => rfl
    | some text => exact hcont text hd (Or.inr ⟨es, rfl⟩)

/-- C23, amended, at the sample view state: the value under "mongo" of the
root is a nested object, and the conversion to an `int` with `std::hex`
fails. -/
theorem C23_conversion_failure_witness :
    json_object_get sampleView.heap (m_Json sampleView 0) "mongo" = some 3 ∧
    c_str "mongo" = "mongo" ∧
    (GetValue_integer (fun _ => "") (fun _ => "") ⟨32, true⟩ 16 sampleView 0 "mongo" 0).1
      = false :=
  ⟨by decide, by decide,
   (C23_conversion_failure (fun _ => "") (fun _ => "") ⟨32, true⟩ 16 sampleView 0 "mongo" 0 3 2
     (.object [("hostip", 1), ("port", 2)]) (by decide) (by decide) (by decide)).2.2.2.1 _ rfl⟩

/-- C25, as stated, fails for `n = 16` with `std::hex`: `PutValue` renders 16
as "10", the decimal extraction accepts that text, and the JSON integer 16 is
stored; `GetValue` with `std::hex` renders the integer in decimal, "16", and
reads it in base 16, so it returns true with `v = 22`.  With `std::oct` and
`n = 8` the integer 8 is stored and reading "8" in base 8 fails. -/
theorem C25_counterexample :
    (0 : Int) ≤ 16 ∧ json_is_object sampleView.heap (m_Json sampleView 0) = true ∧
    put_long_long 16 16 = "10" ∧
    (PutValue_long_long 16 sampleView 0 "k" 16).1 = true ∧
    GetValue_long_long (fun _ => "") (fun _ => "") 16
      (PutValue_long_long 16 sampleView 0 "k" 16).2 0 "k" 0 = (true, 22) ∧
    (PutValue_long_long 8 sampleView 0 "k" 8).1 = true ∧
    (GetValue_long_long (fun _ => "") (fun _ => "") 8
      (PutValue_long_long 8 sampleView 0 "k" 8).2 0 "k" 0).1 = false := by
  decide

/-- C25, amended.  Let `n` be a non-negative signed 64-bit integer, `b` the
base of one of the manipulators dec (10), hex (16) and oct (8), and let the
handle hold an object in a balanced state.  `PutValue<long long>(k, n, f)`
returns true.  With dec a following `GetValue<long long>(k, v, dec)` returns
true with `v = n`.  With any of the three, when the decimal extraction
rejects the text of `n` in base `b` (a hex text that starts with a letter,
an octal text too long for 64 bits) that text is stored as a JSON string and
`GetValue<long long>(k, v, f)` with the same `f` returns true with `v = n`;
when it accepts the text, the JSON integer `n` is stored and `GetValue` returns
what reading the decimal text of `n` in base `b` gives. -/
theorem C25_radix_roundtrip (dtostr put_real : Nat → String) (s : State) (self : Nat)
    (k : String) (n v : Int) (b : Nat) (hb : s.Balanced)
    (hobj : json_is_object s.heap (m_Json s self) = true) (hf : b = 10 ∨ b = 16 ∨ b = 8)
    (h0 : 0 ≤ n) (h2 : n < (2 : Int) ^ 63) :
    (PutValue_long_long b s self k n).1 = true ∧
    (b = 10 →
      GetValue_long_long dtostr put_real b (PutValue_long_long b s self k n).2 self k v
        = (true, n)) ∧
    (extract_long_long (put_long_long b n) = none →
      json_string_value (PutValue_long_long b s self k n).2.heap
        (json_object_get (PutValue_long_long b s self k n).2.heap
          (m_Json (PutValue_long_long b s self k n).2 self) k) = some (put_long_long b n) ∧
      GetValue_long_long dtostr put_real b (PutValue_long_long b s self k n).2 self k v
        = (true, n)) ∧
    ((extract_long_long (put_long_long b n)).isSome = true →
      json_is_integer (PutValue_long_long b s self k n).2.heap
        (json_object_get (PutValue_long_long b s self k n).2.heap
          (m_Json (PutValue_long_long b s self k n).2 self) k) = true ∧
      json_integer_value (PutValue_long_long b s self k n).2.heap
        (json_object_get (PutValue_long_long b s self k n).2.heap
          (m_Json (PutValue_long_long b s self k n).2 self) k) = n ∧
      GetValue_long_long dtostr put_real b (PutValue_long_long b s self k n).2 self k v
        = extract_value b (dump_integer n) v) := by
  obtain ⟨o, rc, ms, hm, hg⟩ := (json_is_object_iff _ _).1 hobj
  obtain ⟨p1, p2, ⟨rc1, p3⟩, ⟨rc2, p4⟩⟩ := PutValueT_object hb hm hg k (put_long_long b n) n
  have hm1 : m_Json (PutValue_long_long b s self k n).2 self = some o :=
    (m_Json_of_handles p2 self).trans hm
  have hget : json_object_get (PutValue_long_long b s self k n).2.heap
      (m_Json (PutValue_long_long b s self k n).2 self) k = some s.heap.length := by
    rw [hm1]
    exact (json_object_get_iff _ _ _ _).2 ⟨o, rc1, _, rfl, p3, lookup_setMember_self ms k _⟩
  have h1 : -(2 : Int) ^ 63 ≤ n := by omega
  have hint : (extract_long_long (put_long_long b n)).isSome = true →
      (PutValue_long_long b s self k n).2.heap.get s.heap.length = some ⟨rc2, .integer n⟩ := by
    intro hx
    have p5 : (PutValue_long_long b s self k n).2.heap.get s.heap.length = _ := p4
    rw [hx] at p5
    exact p5
  refine ⟨p1, fun h10 => ?_, fun hx => ?_, fun hx => ?_⟩
  · subst h10
    have hx : (extract_long_long (put_long_long 10 n)).isSome = true := by
      simp only [put_long_long, if_true, extract_long_long_dump_integer n h1 h2,
        Option.isSome_some]
    unfold GetValue_long_long
    rw [GetValueT_item dtostr put_real (extract_value 10) v hget (hint hx)]
    exact (extract_value_ten (dump_integer n) v).1 n (extract_long_long_dump_integer n h1 h2)
  · have p5 : (PutValue_long_long b s self k n).2.heap.get s.heap.length
        = some ⟨rc2, .string (put_long_long b n)⟩ := by
      have p6 : (PutValue_long_long b s self k n).2.heap.get s.heap.length = _ := p4
      rw [hx] at p6
      exact p6
    have hb10 : b = 16 ∨ b = 8 := by
      rcases hf with h | h | h
      · subst h
        simp only [put_long_long, if_true, extract_long_long_dump_integer n h1 h2] at hx
        cases hx
      · exact Or.inl h
      · exact Or.inr h
    refine ⟨?_, ?_⟩
    · rw [hget]
      simp only [json_string_value, p5]
    · unfold GetValue_long_long
      rw [GetValueT_item dtostr put_real (extract_value b) v hget p5]
      exact extract_value_put hb10 n v h0 h2
  · have p5 := hint hx
    refine ⟨?_, ?_, ?_⟩
    · rw [hget]
      simp only [json_is_integer, p5]
    · rw [hget]
      simp only [json_integer_value, p5]
    · unfold GetValue_long_long
      rw [GetValueT_item dtostr put_real (extract_value b) v hget p5]

/-- C25, amended, at the sample view state: 255 with `std::hex` is rendered as
"ff", stored as a string and read back as 255. -/
theorem C25_radix_roundtrip_witness :
    sampleView.Balanced ∧ json_is_object sampleView.heap (m_Json sampleView 0) = true ∧
    (0 : Int) ≤ 255 ∧ (255 : Int) < (2 : Int) ^ 63 ∧
    extract_long_long (put_long_long 16 255) = none ∧
    GetValue_long_long (fun _ => "") (fun _ => "") 16
      (PutValue_long_long 16 sampleView 0 "k" 255).2 0 "k" 0 = (true, 255) :=
  ⟨sampleView_balanced, by decide, by decide, by decide, by decide,
   ((C25_radix_roundtrip (fun _ => "") (fun _ => "") sampleView 0 "k" 255 0 16
     sampleView_balanced (by decide) (by decide) (by decide) (by decide)).2.2.1
       (by decide)).2⟩

/-- C24. On an existing handle of a balanced state, whatever the handle holds,
`CreateRootObject()` returns true and leaves the handle holding a new, empty
object.  Let it be followed by any sequence `ps` of string `PutValue` and
decimal integer typed `PutValue` calls (integers within 64 bits, keys and
strings passed whole: `c_str()` loses nothing).  Every call returns true, and
the object then has exactly the keys stored, each with the scalar of the last
store to it (`flatOf ps`).  `StreamJsonToBuffer()` returns the compact text of
that mapping: the members between braces, separated by commas, each the quoted
key, a colon and the quoted string or the digits; a white-space character
occurs in it only as a space inside a key or a string value.  The backend
parser reads this text as the document of the mapping, whatever its conversion
of reals, so `Parse` of the text into a newly constructed handle returns true
and the new handle holds an object with the same keys in the same order, each
with the same string or integer; the string `GetValue` and the typed `GetValue`
return through the new handle what they return through the first one, which
still holds its object. -/
theorem C24_serialise_parse_roundtrip (dtostr put_real : Nat → String) (s : State) (self : Nat)
    (ps : List (String × Scalar)) (hb : s.Balanced) (hlt : self < s.handles.length)
    (hr : ∀ p, p ∈ ps → p.2.inRange) (hw : ∀ p, p ∈ ps → c_str p.1 = p.1 ∧ p.2.whole) :
    (CreateRootObject s self).1 = true ∧
    (∃ o, s.heap.get o = none ∧ m_Json (CreateRootObject s self).2 self = some o ∧
      (CreateRootObject s self).2.heap.get o = some ⟨1, .object []⟩) ∧
    (runPuts (CreateRootObject s self).2 self ps).1 = true ∧
    (∀ k, (flatOf ps).lookup k = ps.reverse.lookup k) ∧
    (∃ o, m_Json (builtState s self ps) self = some o ∧
      FlatAt (builtState s self ps).heap o (flatOf ps)) ∧
    (∀ text, StreamJsonToBuffer dtostr (builtState s self ps) self = some text →
      ∀ c, c ∈ text.toList → isspace c = true →
        c = ' ' ∧ ∃ e, e ∈ flatOf ps ∧ (' ' ∈ e.1.toList ∨ ∃ v, e.2 = .str v ∧ ' ' ∈ v.toList)) ∧
    StreamJsonToBuffer dtostr (builtState s self ps) self = some (flatText (flatOf ps)) ∧
    (∀ strtod : String → Option Nat,
      json_parse strtod (flatText (flatOf ps)) = some (flatDoc (flatOf ps)) ∧
      (Parse (json_parse strtod) (default (builtState s self ps)).1 (default (builtState s self ps)).2
        (flatText (flatOf ps))).1 = true ∧
      (∃ o1, m_Json (Parse (json_parse strtod) (default (builtState s self ps)).1
          (default (builtState s self ps)).2 (flatText (flatOf ps))).2
          (default (builtState s self ps)).2 = some o1 ∧
        FlatAt (Parse (json_parse strtod) (default (builtState s self ps)).1
          (default (builtState s self ps)).2 (flatText (flatOf ps))).2.heap o1 (flatOf ps)) ∧
      (∃ o, m_Json (Parse (json_parse strtod) (default (builtState s self ps)).1
          (default (builtState s self ps)).2 (flatText (flatOf ps))).2 self = some o ∧
        FlatAt (Parse (json_parse strtod) (default (builtState s self ps)).1
          (default (builtState s self ps)).2 (flatText (flatOf ps))).2.heap o (flatOf ps)) ∧
      (∀ key value, GetValue (Parse (json_parse strtod) (default (builtState s self ps)).1
          (default (builtState s self ps)).2 (flatText (flatOf ps))).2
          (default (builtState s self ps)).2 key value
        = GetValue (builtState s self ps) self key value) ∧
      (∀ key v, GetValue_long_long dtostr put_real 10 (Parse (json_parse strtod)
          (default (builtState s self ps)).1 (default (builtState s self ps)).2
          (flatText (flatOf ps))).2 (default (builtState s self ps)).2 key v
        = GetValue_long_long dtostr put_real 10 (builtState s self ps) self key v)) := by
  obtain ⟨c1, c2, c3, c4, c5⟩ := CreateRootObject_spec s hlt
  have hb0 := CreateRootObject_balanced hb hlt
  have hfl0 : FlatAt (CreateRootObject s self).2.heap s.heap.length [] :=
    ⟨1, [], c4, List.Forall₂.nil⟩
  obtain ⟨r1, r2, r3, r4⟩ := runPuts_flat ps (CreateRootObject s self).2 [] hb0 c2 hfl0 hr
  have hm1 : m_Json (builtState s self ps) self = some s.heap.length :=
    (m_Json_of_handles r3 self).trans c2
  have hfl1 : FlatAt (builtState s self ps).heap s.heap.length (flatOf ps) := r4
  have hdump : StreamJsonToBuffer dtostr (builtState s self ps) self
      = some (flatText (flatOf ps)) := by
    obtain ⟨rc, ms, hg, _⟩ := hfl1
    have hpos := Heap.get_lt hg
    obtain ⟨f, hf⟩ : ∃ f, (builtState s self ps).heap.length + 1 = f + 2 :=
      ⟨(builtState s self ps).heap.length - 1, by omega⟩
    simp only [StreamJsonToBuffer, hm1, Option.isSome_some, if_true, json_dumps]
    rw [hf]
    exact FlatAt.do_dump_eq dtostr r4 f
  have hparse : ∀ strtod : String → Option Nat,
      json_parse strtod (flatText (flatOf ps)) = some (flatDoc (flatOf ps)) := by
    intro strtod
    obtain ⟨f1, f2⟩ := flatOf_spec ps
    exact json_parse_flatText strtod (flatOf ps) f1
      (fun e he => ⟨(hw e (f2 e he)).1, (hw e (f2 e he)).2, hr e (f2 e he)⟩)
  refine ⟨c1, ⟨_, c3, c2, c4⟩, r1, fun k => ?_, ⟨_, hm1, hfl1⟩, fun text ht c hc hs => ?_, hdump,
    fun strtod => ⟨hparse strtod, ?_⟩⟩
  · unfold flatOf
    rw [lookup_foldl_setEntry]
    cases ps.reverse.lookup k <;> rfl
  · rw [hdump] at ht
    cases ht
    exact flatText_space hc hs
  · obtain ⟨p1, p2, p3, p4⟩ :=
      Parse_fresh (json_parse strtod) (builtState s self ps) (hparse strtod)
    have hfl2 : FlatAt (Parse (json_parse strtod) (default (builtState s self ps)).1
        (default (builtState s self ps)).2 (flatText (flatOf ps))).2.heap
        (allocDoc (builtState s self ps).heap (flatDoc (flatOf ps))).2 (flatOf ps) := by
      rw [p2]
      exact allocDoc_flat (flatOf ps) _
    have hself : self < (builtState s self ps).handles.length := by
      have : (builtState s self ps).handles = (CreateRootObject s self).2.handles := r3
      rw [this, c5]
      exact hlt
    have hm3 := (p4 self hself).trans hm1
    have hfl3 : FlatAt (Parse (json_parse strtod) (default (builtState s self ps)).1
        (default (builtState s self ps)).2 (flatText (flatOf ps))).2.heap
        s.heap.length (flatOf ps) := by
      rw [p2]
      obtain ⟨l, hl⟩ := allocDoc_append (flatDoc (flatOf ps)) (builtState s self ps).heap
      rw [hl]
      exact hfl1.append l
    refine ⟨p1, ⟨_, p3, hfl2⟩, ⟨_, hm3, hfl3⟩, fun key value => ?_, fun key v => ?_⟩
    · rw [(FlatAt.reads p3 hfl2 key).1 value, (FlatAt.reads hm1 hfl1 key).1 value]
    · unfold GetValue_long_long
      rw [(FlatAt.reads p3 hfl2 key).2 Int dtostr put_real (extract_value 10) v,
        (FlatAt.reads hm1 hfl1 key).2 Int dtostr put_real (extract_value 10) v]

/-- C24, at the sample state, whose handle 0 holds a parsed document: after
`CreateRootObject()` and the stores `a = "x"`, `n = 5`, `a = "y"` the handle is
serialised as the compact text of `a = "y"`, `n = 5`, and the backend parser
reads that text into a new handle. -/
theorem C24_serialise_parse_roundtrip_witness :
    sampleState.Balanced ∧ 0 < sampleState.handles.length ∧
    flatOf [("a", .str "x"), ("n", .int 5), ("a", .str "y")] = [("a", .str "y"), ("n", .int 5)] ∧
    StreamJsonToBuffer (fun _ => "")
      (builtState sampleState 0 [("a", .str "x"), ("n", .int 5), ("a", .str "y")]) 0
        = some (flatText (flatOf [("a", .str "x"), ("n", .int 5), ("a", .str "y")])) ∧
    (Parse (json_parse fun _ => none)
      (default (builtState sampleState 0 [("a", .str "x"), ("n", .int 5), ("a", .str "y")])).1
      (default (builtState sampleState 0 [("a", .str "x"), ("n", .int 5), ("a", .str "y")])).2
      (flatText (flatOf [("a", .str "x"), ("n", .int 5), ("a", .str "y")]))).1 = true :=
  have hr : ∀ p, p ∈ [("a", Scalar.str "x"), ("n", Scalar.int 5), ("a", Scalar.str "y")] →
      p.2.inRange := by
    intro p hp
    simp only [List.mem_cons, List.mem_singleton, List.not_mem_nil, or_false] at hp
    rcases hp with rfl | rfl | rfl
    · exact trivial
    · exact ⟨by decide, by decide⟩
    · exact trivial
  have hw : ∀ p, p ∈ [("a", Scalar.str "x"), ("n", Scalar.int 5), ("a", Scalar.str "y")] →
      c_str p.1 = p.1 ∧ p.2.whole := by
    intro p hp
    simp only [List.mem_cons, List.mem_singleton, List.not_mem_nil, or_false] at hp
    rcases hp with rfl | rfl | rfl
    · exact ⟨by decide, show c_str "x" = "x" by decide⟩
    · exact ⟨by decide, trivial⟩
    · exact ⟨by decide, show c_str "y" = "y" by decide⟩
  have h := C24_serialise_parse_roundtrip (fun _ => "") (fun _ => "") sampleState 0
    [("a", .str "x"), ("n", .int 5), ("a", .str "y")] sampleState_balanced (by decide) hr hw
  ⟨sampleState_balanced, by decide, by decide, h.2.2.2.2.2.2.1,
   (h.2.2.2.2.2.2.2 fun _ => none).2.1⟩
